import Mathlib

/-!
# Verification of the msglc lazy container format

Shallow embedding of the core of the `msglc` repository:

* the value codec contract (`src/msglc/unpacker.py` wraps the external
  msgpack codec; here it is modelled by an executable self-delimiting
  encoding satisfying exactly the contract the TOC builder relies on:
  `pack_array_header n ++ packed elements = pack(list)`, same for maps),
* the TOC builder `TOC._pack` / `TOC.pack` (`src/msglc/toc.py`),
* the writer `LazyWriter` and the combiner `LazyCombiner`
  (`src/msglc/writer.py`),
* the path-index helpers (`src/msglc/index.py`),
* the global configuration record (`src/msglc/config.py`),
* the reader engine `LazyReader` / `LazyList` / `LazyDict`
  (`src/msglc/reader.py`).

Bytes are modelled as natural number symbols; buffers as lists of bytes
with an explicit cursor.  Loops of the source are embedded as
fuel-indexed functions where `none` models divergence or a raised
exception, as indicated at each definition.
-/

namespace Msglc

/-- Bytes of the storage layer, modelled as natural number symbols. -/
abbrev Byte := Nat

/-- `sliceL l s e` is the contiguous window `[s, e)` of the byte list `l`,
mirroring a `seek(s)` followed by `read(e - s)` on a buffer holding `l`
(short reads near the end of the buffer simply return fewer bytes). -/
def sliceL (l : List Byte) (s e : Nat) : List Byte :=
  (l.drop s).take (e - s)

theorem sliceL_append_mid (a b c : List Byte) :
    sliceL (a ++ b ++ c) a.length (a.length + b.length) = b := by
  unfold sliceL
  rw [List.append_assoc, List.drop_left, Nat.add_sub_cancel_left, List.take_left]

theorem sliceL_append_left (a b : List Byte) :
    sliceL (a ++ b) a.length (a.length + b.length) = b := by
  have h := sliceL_append_mid a b []
  simpa using h

theorem sliceL_length_le (l : List Byte) (s e : Nat) :
    (sliceL l s e).length ≤ e - s := by
  unfold sliceL
  exact le_trans (List.length_take_le _ _) le_rfl

/-- A sub-window of a known window is the corresponding window of the
known contents. -/
theorem sliceL_sub (l w : List Byte) (s e i j : Nat)
    (hw : sliceL l s e = w) (hij : i ≤ j) (hj : j ≤ w.length) :
    sliceL l (s + i) (s + j) = sliceL w i j := by
  have hwe : w.length ≤ e - s := hw ▸ sliceL_length_le l s e
  unfold sliceL at hw ⊢
  rw [show l.drop (s + i) = (l.drop s).drop i by rw [List.drop_drop, Nat.add_comm]]
  rw [show s + j - (s + i) = j - i by omega]
  rw [← hw]
  rw [List.drop_take]
  rw [List.take_take]
  congr 1
  omega

/-- `lstrip0 l` drops leading zero bytes, mirroring `bytes.lstrip(b"\0")`. -/
def lstrip0 : List Byte → List Byte
  | [] => []
  | b :: r => if b = 0 then lstrip0 r else b :: r

theorem lstrip0_replicate_cons (n : Nat) (b : Byte) (r : List Byte)
    (hb : b ≠ 0) : lstrip0 (List.replicate n 0 ++ b :: r) = b :: r := by
  induction n with
  | zero => simp [lstrip0, hb]
  | succ k ih => simpa [List.replicate, lstrip0] using ih

/-- `rjust l n` left-pads with zero bytes to width `n`,
mirroring `bytes.rjust(n, b"\0")`. -/
def rjust (l : List Byte) (n : Nat) : List Byte :=
  List.replicate (n - l.length) 0 ++ l

theorem rjust_length (l : List Byte) (n : Nat) (h : l.length ≤ n) :
    (rjust l n).length = n := by
  unfold rjust
  simp [List.length_replicate]
  omega

/-! ## Values

The decoded-value domain shared by the codec, the TOC and the reader:
scalars, byte strings, arrays, and string-keyed maps. -/

inductive Value where
  | vnil : Value
  | vbool : Bool → Value
  | vint : Int → Value
  | vstr : String → Value
  | vbytes : List Byte → Value
  | vlist : List Value → Value
  | vmap : List (String × Value) → Value

/-! ## The codec

`msglc` delegates packing to the external msgpack library
(`unpacker.py`, `msgpack.Packer`).  Modelled from the spec (section 4.1):
a self-delimiting encoding with sized container headers such that the
concatenation of `pack_array_header(n)` and `n` packed values equals the
bytes of the packed list, and analogously for maps.  Tags: 0 nil, 1 bool,
2 int, 3 str, 4 array header, 5 map header, 6 bin. -/

def intCode (n : Int) : Nat :=
  if 0 ≤ n then 2 * n.toNat else 2 * (-n).toNat - 1

def intDecode (c : Nat) : Int :=
  if c % 2 = 0 then (c / 2 : Nat) else -((c + 1) / 2 : Nat)

theorem intDecode_intCode (n : Int) : intDecode (intCode n) = n := by
  unfold intCode intDecode
  by_cases h : 0 ≤ n
  · rw [if_pos h]
    have h2 : 2 * n.toNat % 2 = 0 := by omega
    rw [if_pos h2]
    omega
  · rw [if_neg h]
    have h1 : 1 ≤ (-n).toNat := by omega
    have h2 : ¬(2 * (-n).toNat - 1) % 2 = 0 := by omega
    rw [if_neg h2]
    omega

def strBytes (s : String) : List Byte := s.data.map Char.toNat

def packArrayHeader (n : Nat) : List Byte := [4, n]

def packMapHeader (n : Nat) : List Byte := [5, n]

mutual

def packValue : Value → List Byte
  | .vnil => [0]
  | .vbool b => [1, cond b 1 0]
  | .vint n => [2, intCode n]
  | .vstr s => 3 :: s.length :: strBytes s
  | .vbytes bs => 6 :: bs.length :: bs
  | .vlist l => packArrayHeader l.length ++ packSeq l
  | .vmap m => packMapHeader m.length ++ packEntries m

def packSeq : List Value → List Byte
  | [] => []
  | v :: r => packValue v ++ packSeq r

def packEntries : List (String × Value) → List Byte
  | [] => []
  | (k, v) :: r => packValue (.vstr k) ++ packValue v ++ packEntries r

end

theorem packValue_length_pos (v : Value) : 1 ≤ (packValue v).length := by
  cases v <;> simp [packValue, packArrayHeader, packMapHeader]

mutual

/-- Nesting depth of a value; fuel bound of the decoder. -/
def vdepth : Value → Nat
  | .vnil | .vbool _ | .vint _ | .vstr _ | .vbytes _ => 1
  | .vlist l => 1 + seqDepth l
  | .vmap m => 1 + entriesDepth m

/-- Maximal nesting depth over a list of values. -/
def seqDepth : List Value → Nat
  | [] => 0
  | v :: r => max (vdepth v) (seqDepth r)

/-- Maximal nesting depth over map entries. -/
def entriesDepth : List (String × Value) → Nat
  | [] => 0
  | (_, v) :: r => max (vdepth v) (entriesDepth r)

end

mutual

/-- One-value decoder with explicit fuel; mirrors the stream unpacker of
the codec.  `none` models a decode failure (or exhausted fuel). -/
def unpackOneF : Nat → List Byte → Option (Value × List Byte)
  | 0, _ => none
  | _ + 1, 0 :: r => some (.vnil, r)
  | _ + 1, 1 :: b :: r => some (.vbool (b = 1), r)
  | _ + 1, 2 :: c :: r => some (.vint (intDecode c), r)
  | _ + 1, 3 :: n :: r =>
    if n ≤ r.length then
      some (.vstr (String.mk ((r.take n).map Char.ofNat)), r.drop n)
    else none
  | _ + 1, 6 :: n :: r =>
    if n ≤ r.length then some (.vbytes (r.take n), r.drop n) else none
  | f + 1, 4 :: n :: r =>
    match unpackSeqF f n r with
    | some (l, rest) => some (.vlist l, rest)
    | none => none
  | f + 1, 5 :: n :: r =>
    match unpackEntriesF f n r with
    | some (m, rest) => some (.vmap m, rest)
    | none => none
  | _ + 1, _ => none
termination_by f _ => (f, 0)

def unpackSeqF : Nat → Nat → List Byte → Option (List Value × List Byte)
  | _, 0, r => some ([], r)
  | f, n + 1, r =>
    match unpackOneF f r with
    | some (v, r1) =>
      match unpackSeqF f n r1 with
      | some (l, rest) => some (v :: l, rest)
      | none => none
    | none => none
termination_by f n _ => (f, n + 1)

def unpackEntriesF :
    Nat → Nat → List Byte → Option (List (String × Value) × List Byte)
  | _, 0, r => some ([], r)
  | f, n + 1, r =>
    match unpackOneF f r with
    | some (.vstr k, r1) =>
      match unpackOneF f r1 with
      | some (v, r2) =>
        match unpackEntriesF f n r2 with
        | some ((m : List (String × Value)), rest) => some ((k, v) :: m, rest)
        | none => none
      | none => none
    | some _ => none
    | none => none
termination_by f n _ => (f, n + 1)

end

theorem charOfNat_toNat (c : Char) : Char.ofNat c.toNat = c := by
  unfold Char.ofNat Char.toNat
  rcases c with ⟨v, h⟩
  have hv : (v.toNat).isValidChar := h
  rw [dif_pos hv]
  simp only [Char.ofNatAux]
  congr 1

theorem strBytes_length (s : String) : (strBytes s).length = s.length := by
  rw [strBytes, List.length_map]
  rfl

theorem string_mk_strBytes (s : String) :
    String.mk ((strBytes s).map Char.ofNat) = s := by
  rcases s with ⟨data⟩
  simp only [strBytes, List.map_map]
  congr 1
  have h : ∀ c ∈ data, (Char.ofNat ∘ Char.toNat) c = id c :=
    fun c _ => charOfNat_toNat c
  rw [List.map_congr_left h, List.map_id]

theorem vdepth_pos (v : Value) : 1 ≤ vdepth v := by
  cases v <;> simp [vdepth]

mutual

theorem unpackOneF_packValue :
    ∀ (v : Value) (f : Nat) (rest : List Byte), vdepth v ≤ f →
      unpackOneF f (packValue v ++ rest) = some (v, rest)
  | .vnil, f, rest, h => by
    obtain ⟨f1, rfl⟩ : ∃ f1, f = f1 + 1 := by
      simp only [vdepth] at h; exact ⟨f - 1, by omega⟩
    simp [packValue, unpackOneF]
  | .vbool b, f, rest, h => by
    obtain ⟨f1, rfl⟩ : ∃ f1, f = f1 + 1 := by
      simp only [vdepth] at h; exact ⟨f - 1, by omega⟩
    cases b <;> simp [packValue, unpackOneF]
  | .vint n, f, rest, h => by
    obtain ⟨f1, rfl⟩ : ∃ f1, f = f1 + 1 := by
      simp only [vdepth] at h; exact ⟨f - 1, by omega⟩
    simp [packValue, unpackOneF, intDecode_intCode]
  | .vstr s, f, rest, h => by
    obtain ⟨f1, rfl⟩ : ∃ f1, f = f1 + 1 := by
      simp only [vdepth] at h; exact ⟨f - 1, by omega⟩
    have hlen : s.length ≤ (strBytes s ++ rest).length := by
      simp [strBytes_length]
    simp only [packValue, List.cons_append, unpackOneF, if_pos hlen]
    rw [show s.length = (strBytes s).length from (strBytes_length s).symm]
    rw [List.take_left, List.drop_left, string_mk_strBytes]
  | .vbytes bs, f, rest, h => by
    obtain ⟨f1, rfl⟩ : ∃ f1, f = f1 + 1 := by
      simp only [vdepth] at h; exact ⟨f - 1, by omega⟩
    have hlen : bs.length ≤ (bs ++ rest).length := by simp
    simp only [packValue, List.cons_append, unpackOneF, if_pos hlen]
    rw [List.take_left, List.drop_left]
  | .vlist l, f, rest, h => by
    obtain ⟨f1, rfl⟩ : ∃ f1, f = f1 + 1 := by
      simp only [vdepth] at h; exact ⟨f - 1, by omega⟩
    have hd : seqDepth l ≤ f1 := by simp only [vdepth] at h; omega
    simp only [packValue, packArrayHeader, List.cons_append, List.append_assoc,
      List.nil_append, unpackOneF]
    rw [unpackSeqF_packSeq l f1 rest hd]
  | .vmap m, f, rest, h => by
    obtain ⟨f1, rfl⟩ : ∃ f1, f = f1 + 1 := by
      simp only [vdepth] at h; exact ⟨f - 1, by omega⟩
    have hd : entriesDepth m ≤ f1 := by simp only [vdepth] at h; omega
    simp only [packValue, packMapHeader, List.cons_append, List.append_assoc,
      List.nil_append, unpackOneF]
    rw [unpackEntriesF_packEntries m f1 rest hd]

theorem unpackSeqF_packSeq :
    ∀ (l : List Value) (f : Nat) (rest : List Byte), seqDepth l ≤ f →
      unpackSeqF f l.length (packSeq l ++ rest) = some (l, rest)
  | [], f, rest, _ => by simp [packSeq, unpackSeqF]
  | v :: r, f, rest, h => by
    have h1 : vdepth v ≤ f := le_trans (le_max_left _ _) h
    have h2 : seqDepth r ≤ f := le_trans (le_max_right _ _) h
    simp only [packSeq, List.length_cons, List.append_assoc, unpackSeqF]
    rw [unpackOneF_packValue v f _ h1]
    dsimp only
    rw [unpackSeqF_packSeq r f rest h2]

theorem unpackEntriesF_packEntries :
    ∀ (m : List (String × Value)) (f : Nat) (rest : List Byte),
      entriesDepth m ≤ f →
      unpackEntriesF f m.length (packEntries m ++ rest) = some (m, rest)
  | [], f, rest, _ => by simp [packEntries, unpackEntriesF]
  | (k, v) :: r, f, rest, h => by
    have h1 : vdepth v ≤ f := le_trans (le_max_left _ _) h
    have h0 : vdepth (.vstr k) ≤ f := le_trans (vdepth_pos v) h1
    have h2 : entriesDepth r ≤ f := le_trans (le_max_right _ _) h
    simp only [packEntries, List.length_cons, List.append_assoc, unpackEntriesF]
    rw [unpackOneF_packValue (.vstr k) f _ h0]
    dsimp only
    rw [unpackOneF_packValue v f _ h1]
    dsimp only
    rw [unpackEntriesF_packEntries r f rest h2]

end

mutual

theorem vdepth_le_packValue_length :
    ∀ v : Value, vdepth v ≤ (packValue v).length
  | .vnil | .vbool _ | .vint _ => by simp [vdepth, packValue]
  | .vstr s => by simp [vdepth, packValue]
  | .vbytes bs => by simp [vdepth, packValue]
  | .vlist l => by
    have h := seqDepth_le_packSeq_length l
    simp only [vdepth, packValue, packArrayHeader, List.cons_append,
      List.nil_append, List.length_append, List.length_cons]
    omega
  | .vmap m => by
    have h := entriesDepth_le_packEntries_length m
    simp only [vdepth, packValue, packMapHeader, List.cons_append,
      List.nil_append, List.length_append, List.length_cons]
    omega

theorem seqDepth_le_packSeq_length :
    ∀ l : List Value, seqDepth l ≤ (packSeq l).length + 1
  | [] => by simp [seqDepth, packSeq]
  | v :: r => by
    have h1 := vdepth_le_packValue_length v
    have h2 := seqDepth_le_packSeq_length r
    have h3 := packValue_length_pos v
    simp only [seqDepth, packSeq, List.length_append]
    omega

theorem entriesDepth_le_packEntries_length :
    ∀ m : List (String × Value), entriesDepth m ≤ (packEntries m).length + 1
  | [] => by simp [entriesDepth, packEntries]
  | (k, v) :: r => by
    have h1 := vdepth_le_packValue_length v
    have h2 := entriesDepth_le_packEntries_length r
    have h3 := packValue_length_pos (Value.vstr k)
    simp only [entriesDepth, packEntries, List.length_append]
    omega

end

/-- Decode exactly one value from a byte string, failing on trailing
bytes; mirrors the decoder used by `LazyItem._unpack`
(`msgspec.msgpack.Decoder().decode`). -/
def unpackExact (bs : List Byte) : Option Value :=
  match unpackOneF (bs.length + 1) bs with
  | some (v, []) => some v
  | _ => none

theorem unpackExact_packValue (v : Value) :
    unpackExact (packValue v) = some v := by
  unfold unpackExact
  have h := unpackOneF_packValue v ((packValue v).length + 1) []
    (le_trans (vdepth_le_packValue_length v) (Nat.le_succ _))
  rw [List.append_nil] at h
  rw [h]

/-- Stream-decode every value packed back-to-back in a byte string, with
fuel; mirrors `list(msgpack.Unpacker(BytesIO(data)))` used by
`LazyList._all`.  `none` models a decode failure. -/
def decodeAllF : Nat → List Byte → Option (List Value)
  | _, [] => some []
  | 0, _ :: _ => none
  | f + 1, b :: r =>
    match unpackOneF (f + 1) (b :: r) with
    | some (v, rest) =>
      match decodeAllF f rest with
      | some l => some (v :: l)
      | none => none
    | none => none

def decodeAll (bs : List Byte) : Option (List Value) :=
  decodeAllF (bs.length + 1) bs

theorem packSeq_length_ge (l : List Value) : l.length ≤ (packSeq l).length := by
  induction l with
  | nil => simp [packSeq]
  | cons v r ih =>
    have h := packValue_length_pos v
    simp only [packSeq, List.length_append, List.length_cons]
    omega

theorem decodeAllF_packSeq :
    ∀ (l : List Value) (f : Nat), seqDepth l + l.length ≤ f →
      decodeAllF f (packSeq l) = some l := by
  intro l
  induction l with
  | nil => intro f _; simp [packSeq, decodeAllF]
  | cons v r ih =>
    intro f h
    have hv1 : 1 ≤ vdepth v := vdepth_pos v
    have hmax1 : vdepth v ≤ seqDepth (v :: r) := le_max_left _ _
    have hmax2 : seqDepth r ≤ seqDepth (v :: r) := le_max_right _ _
    simp only [List.length_cons] at h
    obtain ⟨f1, rfl⟩ : ∃ f1, f = f1 + 1 := ⟨f - 1, by omega⟩
    obtain ⟨b, bs, hbs⟩ : ∃ b bs, packValue v = b :: bs := by
      cases hpv : packValue v with
      | nil => exact absurd (hpv ▸ packValue_length_pos v) (by simp)
      | cons b bs => exact ⟨b, bs, rfl⟩
    simp only [packSeq]
    rw [hbs, List.cons_append]
    simp only [decodeAllF]
    rw [← List.cons_append, ← hbs]
    rw [unpackOneF_packValue v (f1 + 1) _ (by omega)]
    dsimp only
    rw [ih f1 (by omega)]

theorem seqDepth_add_length_le (l : List Value) :
    seqDepth l + l.length ≤ (packSeq l).length + 1 := by
  induction l with
  | nil => simp [seqDepth, packSeq]
  | cons v r ih =>
    have h1 := vdepth_le_packValue_length v
    have h2 := packValue_length_pos v
    have h3 := packSeq_length_ge r
    have h4 : seqDepth (v :: r) = max (vdepth v) (seqDepth r) := rfl
    simp only [packSeq, List.length_append, List.length_cons]
    omega

theorem decodeAll_packSeq (l : List Value) : decodeAll (packSeq l) = some l := by
  unfold decodeAll
  exact decodeAllF_packSeq l _ (by simpa using seqDepth_add_length_le l)

/-! ## Writer-side input values

`LazyWriter.write` accepts arbitrary nested Python data.  `TOC._pack`
coerces tuples to lists and sets to sorted lists before packing
(`toc.py` lines 85-88).  Sets are modelled as collections of integers so
that `sorted` is meaningful.  Floating point numbers and numpy arrays are
outside the model: without the optional numpy dependency `toc.py` aliases
`ndarray = list`, so `_in_numpy_array` is never set and the numpy fast
path at `toc.py` lines 114-157 is dead code. -/

inductive PyObj where
  | pnil : PyObj
  | pbool : Bool → PyObj
  | pint : Int → PyObj
  | pstr : String → PyObj
  | pbytes : List Byte → PyObj
  | plist : List PyObj → PyObj
  | ptuple : List PyObj → PyObj
  | pset : List Int → PyObj
  | pdict : List (String × PyObj) → PyObj

/-- `sorted` on a set of integers. -/
def sortedInts (l : List Int) : List Int := l.mergeSort (· ≤ ·)

mutual

/-- The value actually encoded for a writer input: tuples become lists
and sets become sorted lists, exactly the coercions of `TOC._pack`. -/
def coerce : PyObj → Value
  | .pnil => .vnil
  | .pbool b => .vbool b
  | .pint n => .vint n
  | .pstr s => .vstr s
  | .pbytes bs => .vbytes bs
  | .plist l => .vlist (coerceList l)
  | .ptuple l => .vlist (coerceList l)
  | .pset l => .vlist ((sortedInts l).map Value.vint)
  | .pdict m => .vmap (coerceEntries m)

def coerceList : List PyObj → List Value
  | [] => []
  | v :: r => coerce v :: coerceList r

def coerceEntries : List (String × PyObj) → List (String × Value)
  | [] => []
  | (k, v) :: r => (k, coerce v) :: coerceEntries r

end

/-- The byte marker the reader greps for in decoded byte strings
(`reader.py` line 166). -/
def markerBytes : List Byte := strBytes "multiarray"

/-- `b"multiarray" in data[:40]` from `LazyItem._child`. -/
def hasMarker (bs : List Byte) : Bool := decide (markerBytes <:+: bs.take 40)

mutual

/-- No byte-string sub-value of the input carries the `multiarray`
pickle marker within its first 40 bytes. -/
def markerFree : PyObj → Bool
  | .pnil | .pbool _ | .pint _ | .pstr _ => true
  | .pbytes bs => !hasMarker bs
  | .plist l => markerFreeList l
  | .ptuple l => markerFreeList l
  | .pset _ => true
  | .pdict m => markerFreeEntries m

def markerFreeList : List PyObj → Bool
  | [] => true
  | v :: r => markerFree v && markerFreeList r

def markerFreeEntries : List (String × PyObj) → Bool
  | [] => true
  | (_, v) :: r => markerFree v && markerFreeEntries r

end

/-! ## The TOC builder (`toc.py`)

`Node` mirrors the dataclass `Node(t, p, s)`: `leaf` is a node with
`t = None` and `p = [start, end]` (produced by `_generate`, carrying the
`s` small flag), `blocks` has `t = None` and `p` a list of
`(count, start, end)` tuples, `arrNode`/`mapNode` carry children in `t`
and `p = [start, end]` with `s = False`. -/

inductive Node where
  | leaf : Nat → Nat → Bool → Node
  | blocks : List (Nat × Nat × Nat) → Node
  | arrNode : List Node → Nat → Nat → Node
  | mapNode : List (String × Node) → Nat → Nat → Node

/-- The `s` field of a node (`False` unless set by `_generate`). -/
def nodeSmall : Node → Bool
  | .leaf _ _ s => s
  | _ => false

/-- `v.p[0]` for a node whose `p` is a `[start, end]` range.  For a
`blocks` node the Python expression would index into a tuple; that case
is unreachable in the grouping loop because `blocks` nodes always have
`s = False`, and we return 0. -/
def pLo : Node → Nat
  | .leaf a _ _ => a
  | .arrNode _ a _ => a
  | .mapNode _ a _ => a
  | .blocks _ => 0

/-- `v.p[1]`, see `pLo`. -/
def pHi : Node → Nat
  | .leaf _ b _ => b
  | .arrNode _ _ b => b
  | .mapNode _ _ b => b
  | .blocks _ => 0

/-- The configuration fields consulted by the TOC builder
(`config.py`). -/
structure WConfig where
  small_obj_optimization_threshold : Nat
  trivial_size : Nat

/-- The greedy grouping loop of `TOC._pack` (`toc.py` lines 171-185):
accumulate children left to right; once the accumulated span exceeds the
small-object threshold, emit a `(count, start, end)` group and reset;
a trailing partial group is emitted as-is. -/
def greedyGo (cfg : WConfig) :
    List Node → List (Nat × Nat × Nat) → List Node → Nat →
      List (Nat × Nat × Nat)
  | [], groups, accuList, _ =>
    match accuList with
    | [] => groups
    | a :: rest =>
      groups ++ [(accuList.length, pLo a, pHi (List.getLastD (a :: rest) a))]
  | v :: vs, groups, accuList, accuSize =>
    let accu2 := accuList ++ [v]
    let size2 := accuSize + (pHi v - pLo v)
    if cfg.small_obj_optimization_threshold < size2 then
      greedyGo cfg vs (groups ++ [(accu2.length, pLo (accu2.headD v), pHi v)])
        [] 0
    else
      greedyGo cfg vs groups accu2 size2

def greedyGroups (cfg : WConfig) (children : List Node) :
    List (Nat × Nat × Nat) :=
  greedyGo cfg children [] [] 0

mutual

/-- Termination measure for `tocPack`: tuple and set coercion strictly
reduce the weight. -/
def pyW : PyObj → Nat
  | .pnil | .pbool _ | .pint _ | .pstr _ | .pbytes _ => 1
  | .plist l => 2 + pyWList l
  | .ptuple l => 3 + pyWList l
  | .pset l => 3 + l.length
  | .pdict m => 2 + pyWEntries m

def pyWList : List PyObj → Nat
  | [] => 0
  | v :: r => pyW v + pyWList r

def pyWEntries : List (String × PyObj) → Nat
  | [] => 0
  | (_, v) :: r => pyW v + pyWEntries r

end

theorem pyW_pos (v : PyObj) : 1 ≤ pyW v := by
  cases v <;> simp [pyW] <;> omega

theorem pyWList_map_pint (l : List Int) :
    pyWList (l.map PyObj.pint) = l.length := by
  induction l with
  | nil => simp [pyWList]
  | cons a r ih => simp [pyWList, pyW, ih]; omega

theorem sortedInts_length (l : List Int) : (sortedInts l).length = l.length :=
  List.length_mergeSort l

/-- `_generate(start)` of `TOC._pack`: a leaf covering the bytes just
written, small when the span is at most `trivial_size`. -/
def tocLeaf (cfg : WConfig) (pos : Nat) (bs : List Byte) : Node × List Byte :=
  (Node.leaf pos (pos + bs.length)
    (decide (pos + bs.length ≤ pos + cfg.trivial_size)), bs)

mutual

/-- `TOC._pack` (`toc.py` lines 62-191) without the dead numpy fast
path: returns the node for the value together with the bytes the call
appended to the buffer; `pos` is `self._pos` at entry (the buffer is
written strictly sequentially). -/
def tocPack (cfg : WConfig) : PyObj → Nat → Node × List Byte
  | .pnil, pos => tocLeaf cfg pos (packValue .vnil)
  | .pbool b, pos => tocLeaf cfg pos (packValue (.vbool b))
  | .pint n, pos => tocLeaf cfg pos (packValue (.vint n))
  | .pstr s, pos => tocLeaf cfg pos (packValue (.vstr s))
  | .pbytes bs, pos => tocLeaf cfg pos (packValue (.vbytes bs))
  | .ptuple l, pos => tocPack cfg (.plist l) pos
  | .pset l, pos => tocPack cfg (.plist ((sortedInts l).map PyObj.pint)) pos
  | .plist l, pos =>
    let header := packArrayHeader l.length
    let res := tocPackElems cfg l (pos + header.length)
    let children := res.1
    let endPos := pos + header.length + res.2.length
    let node :=
      if endPos < pos + cfg.small_obj_optimization_threshold then
        Node.leaf pos endPos (decide (endPos ≤ pos + cfg.trivial_size))
      else if children.all nodeSmall then
        if l.length = 0 then
          Node.leaf pos endPos (decide (endPos ≤ pos + cfg.trivial_size))
        else
          let groups := greedyGroups cfg children
          if 1 < groups.length then Node.blocks groups
          else Node.leaf pos endPos (decide (endPos ≤ pos + cfg.trivial_size))
      else
        Node.arrNode children pos endPos
    (node, header ++ res.2)
  | .pdict m, pos =>
    let header := packMapHeader m.length
    let res := tocPackEntries cfg m (pos + header.length)
    let children := res.1
    let endPos := pos + header.length + res.2.length
    let node :=
      if endPos < pos + cfg.small_obj_optimization_threshold then
        Node.leaf pos endPos (decide (endPos ≤ pos + cfg.trivial_size))
      else if (children.map Prod.snd).all nodeSmall then
        Node.leaf pos endPos (decide (endPos ≤ pos + cfg.trivial_size))
      else
        Node.mapNode children pos endPos
    (node, header ++ res.2)
termination_by obj _ => pyW obj
decreasing_by
  all_goals simp [pyW, pyWList_map_pint, sortedInts_length]
  all_goals omega

/-- Recursion of `_pack` over the elements of a list value. -/
def tocPackElems (cfg : WConfig) :
    List PyObj → Nat → List Node × List Byte
  | [], _ => ([], [])
  | v :: r, pos =>
    let res := tocPack cfg v pos
    let rest := tocPackElems cfg r (pos + res.2.length)
    (res.1 :: rest.1, res.2 ++ rest.2)
termination_by l _ => pyWList l + 1
decreasing_by
  all_goals (simp [pyW, pyWList]; first
    | omega
    | (have hp := pyW_pos v; omega))

/-- Recursion of `_pack` over the items of a dict value: each key is
packed directly, then the child value recursively. -/
def tocPackEntries (cfg : WConfig) :
    List (String × PyObj) → Nat → List (String × Node) × List Byte
  | [], _ => ([], [])
  | (k, v) :: r, pos =>
    let kb := packValue (.vstr k)
    let res := tocPack cfg v (pos + kb.length)
    let rest := tocPackEntries cfg r (pos + kb.length + res.2.length)
    ((k, res.1) :: rest.1, kb ++ res.2 ++ rest.2)
termination_by m _ => pyWEntries m + 1
decreasing_by
  all_goals (simp [pyW, pyWEntries]; first
    | omega
    | (have hp := pyW_pos v; omega))

end

mutual

/-- `TOC.pack`'s `asdict` serialisation with the falsy-dropping dict
factory (`toc.py` lines 193-197): the internal `s` flag is dropped, a
`None` (or empty) `t` is dropped, `p` becomes a two-element range or a
list of `[count, start, end]` triples. -/
def nodeToValue : Node → Value
  | .leaf a b _ => .vmap [("p", .vlist [.vint a, .vint b])]
  | .blocks gs =>
    .vmap [("p", .vlist (gs.map fun t =>
      .vlist [.vint (t.1 : Int), .vint (t.2.1 : Int), .vint (t.2.2 : Int)]))]
  | .arrNode cs a b =>
    if cs.isEmpty then .vmap [("p", .vlist [.vint a, .vint b])]
    else
      .vmap [("t", .vlist (nodeSeqToValue cs)),
        ("p", .vlist [.vint a, .vint b])]
  | .mapNode cs a b =>
    if cs.isEmpty then .vmap [("p", .vlist [.vint a, .vint b])]
    else
      .vmap [("t", .vmap (nodeEntriesToValue cs)),
        ("p", .vlist [.vint a, .vint b])]

def nodeSeqToValue : List Node → List Value
  | [] => []
  | n :: r => nodeToValue n :: nodeSeqToValue r

def nodeEntriesToValue : List (String × Node) → List (String × Value)
  | [] => []
  | (k, n) :: r => (k, nodeToValue n) :: nodeEntriesToValue r

end

/-- `TOC.pack(obj)` run on a fresh buffer: the serialised root TOC node
together with the payload bytes written while packing. -/
def tocPackRoot (cfg : WConfig) (obj : PyObj) : Value × List Byte :=
  ((nodeToValue (tocPack cfg obj 0).1), (tocPack cfg obj 0).2)

mutual

/-- Well-formedness of a serialised TOC node: a map whose keys are only
`t` and `p`, whose `t` (when present) holds child nodes that are
themselves maps — in particular never integers. -/
def tocNodeOK : Value → Bool
  | .vmap m => tocEntriesOK m
  | _ => false

def tocEntriesOK : List (String × Value) → Bool
  | [] => true
  | ("p", _) :: r => tocEntriesOK r
  | ("t", .vlist cs) :: r => tocChildrenOK cs && tocEntriesOK r
  | ("t", .vmap es) :: r => tocChildEntriesOK es && tocEntriesOK r
  | _ :: _ => false

def tocChildrenOK : List Value → Bool
  | [] => true
  | c :: r => tocNodeOK c && tocChildrenOK r

def tocChildEntriesOK : List (String × Value) → Bool
  | [] => true
  | (_, c) :: r => tocNodeOK c && tocChildEntriesOK r

end

mutual

theorem nodeToValue_ok : ∀ n : Node, tocNodeOK (nodeToValue n) = true
  | .leaf a b s => by simp [nodeToValue, tocNodeOK, tocEntriesOK]
  | .blocks gs => by simp [nodeToValue, tocNodeOK, tocEntriesOK]
  | .arrNode cs a b => by
    by_cases h : cs.isEmpty
    · simp [nodeToValue, h, tocNodeOK, tocEntriesOK]
    · simp only [nodeToValue, h, if_neg, Bool.false_eq_true, if_false,
        tocNodeOK, tocEntriesOK, Bool.and_eq_true]
      exact ⟨nodeSeqToValue_ok cs, trivial⟩
  | .mapNode cs a b => by
    by_cases h : cs.isEmpty
    · simp [nodeToValue, h, tocNodeOK, tocEntriesOK]
    · simp only [nodeToValue, h, if_neg, Bool.false_eq_true, if_false,
        tocNodeOK, tocEntriesOK, Bool.and_eq_true]
      exact ⟨nodeEntriesToValue_ok cs, trivial⟩

theorem nodeSeqToValue_ok :
    ∀ l : List Node, tocChildrenOK (nodeSeqToValue l) = true
  | [] => by simp [nodeSeqToValue, tocChildrenOK]
  | n :: r => by
    simp only [nodeSeqToValue, tocChildrenOK, Bool.and_eq_true]
    exact ⟨nodeToValue_ok n, nodeSeqToValue_ok r⟩

theorem nodeEntriesToValue_ok :
    ∀ l : List (String × Node), tocChildEntriesOK (nodeEntriesToValue l) = true
  | [] => by simp [nodeEntriesToValue, tocChildEntriesOK]
  | (k, n) :: r => by
    simp only [nodeEntriesToValue, tocChildEntriesOK, Bool.and_eq_true]
    exact ⟨nodeToValue_ok n, nodeEntriesToValue_ok r⟩

end

theorem coerceList_length (l : List PyObj) :
    (coerceList l).length = l.length := by
  induction l with
  | nil => simp [coerceList]
  | cons v r ih => simp [coerceList, ih]

theorem coerceEntries_length (m : List (String × PyObj)) :
    (coerceEntries m).length = m.length := by
  induction m with
  | nil => simp [coerceEntries]
  | cons kv r ih => obtain ⟨k, v⟩ := kv; simp [coerceEntries, ih]

theorem coerceList_map_pint (l : List Int) :
    coerceList (l.map PyObj.pint) = l.map Value.vint := by
  induction l with
  | nil => simp [coerceList]
  | cons a r ih => simp [coerceList, coerce, ih]

mutual

/-- The bytes `TOC._pack` appends while visiting a value are exactly the
codec encoding of the coerced value: the builder interleaves header
emission with child packing, and the codec contract makes the
concatenation coincide with packing the value in one go. -/
theorem tocPack_bytes : ∀ (obj : PyObj) (cfg : WConfig) (pos : Nat),
    (tocPack cfg obj pos).2 = packValue (coerce obj)
  | .pnil, cfg, pos => by simp [tocPack, tocLeaf, coerce]
  | .pbool b, cfg, pos => by simp [tocPack, tocLeaf, coerce]
  | .pint n, cfg, pos => by simp [tocPack, tocLeaf, coerce]
  | .pstr s, cfg, pos => by simp [tocPack, tocLeaf, coerce]
  | .pbytes bs, cfg, pos => by simp [tocPack, tocLeaf, coerce]
  | .ptuple l, cfg, pos => by
    have h : tocPack cfg (.ptuple l) pos = tocPack cfg (.plist l) pos := by
      simp [tocPack]
    rw [h, tocPack_bytes (.plist l) cfg pos]
    simp [coerce]
  | .pset l, cfg, pos => by
    have h : tocPack cfg (.pset l) pos
        = tocPack cfg (.plist ((sortedInts l).map PyObj.pint)) pos := by
      simp [tocPack]
    rw [h, tocPack_bytes (.plist ((sortedInts l).map PyObj.pint)) cfg pos]
    simp [coerce, coerceList_map_pint]
  | .plist l, cfg, pos => by
    have he := tocPackElems_bytes l cfg (pos + (packArrayHeader l.length).length)
    simp only [tocPack]
    rw [he]
    simp [packValue, coerce, coerceList_length]
  | .pdict m, cfg, pos => by
    have he := tocPackEntries_bytes m cfg (pos + (packMapHeader m.length).length)
    simp only [tocPack]
    rw [he]
    simp [packValue, coerce, coerceEntries_length]
termination_by obj _ _ => pyW obj
decreasing_by
  all_goals simp [pyW, pyWList_map_pint, sortedInts_length]
  all_goals omega

theorem tocPackElems_bytes : ∀ (l : List PyObj) (cfg : WConfig) (pos : Nat),
    (tocPackElems cfg l pos).2 = packSeq (coerceList l)
  | [], cfg, pos => by simp [tocPackElems, packSeq, coerceList]
  | v :: r, cfg, pos => by
    simp only [tocPackElems]
    rw [tocPack_bytes v cfg pos,
      tocPackElems_bytes r cfg (pos + (packValue (coerce v)).length)]
    simp [packSeq, coerceList]
termination_by l _ _ => pyWList l + 1
decreasing_by
  all_goals (simp [pyW, pyWList]; first
    | omega
    | (have hp := pyW_pos v; omega))

theorem tocPackEntries_bytes :
    ∀ (m : List (String × PyObj)) (cfg : WConfig) (pos : Nat),
      (tocPackEntries cfg m pos).2 = packEntries (coerceEntries m)
  | [], cfg, pos => by simp [tocPackEntries, packEntries, coerceEntries]
  | (k, v) :: r, cfg, pos => by
    simp only [tocPackEntries]
    rw [tocPack_bytes v cfg _, tocPackEntries_bytes r cfg _]
    simp [packEntries, coerceEntries]
termination_by m _ _ => pyWEntries m + 1
decreasing_by
  all_goals (simp [pyW, pyWEntries]; first
    | omega
    | (have hp := pyW_pos v; omega))

end

/-- Where a node's `[start, end]` range sits relative to the bytes the
call emitted.  `blocks` nodes carry no outer range. -/
def nodeAnchored (n : Node) (pos len : Nat) : Prop :=
  match n with
  | .leaf a b _ => a = pos ∧ b = pos + len
  | .arrNode _ a b => a = pos ∧ b = pos + len
  | .mapNode _ a b => a = pos ∧ b = pos + len
  | .blocks _ => True

theorem tocPack_anchored : ∀ (obj : PyObj) (cfg : WConfig) (pos : Nat),
    nodeAnchored (tocPack cfg obj pos).1 pos (tocPack cfg obj pos).2.length
  | .pnil, cfg, pos => by simp [tocPack, tocLeaf, nodeAnchored]
  | .pbool b, cfg, pos => by simp [tocPack, tocLeaf, nodeAnchored]
  | .pint n, cfg, pos => by simp [tocPack, tocLeaf, nodeAnchored]
  | .pstr s, cfg, pos => by simp [tocPack, tocLeaf, nodeAnchored]
  | .pbytes bs, cfg, pos => by simp [tocPack, tocLeaf, nodeAnchored]
  | .ptuple l, cfg, pos => by
    have h : tocPack cfg (.ptuple l) pos = tocPack cfg (.plist l) pos := by
      simp [tocPack]
    rw [h]
    exact tocPack_anchored (.plist l) cfg pos
  | .pset l, cfg, pos => by
    have h : tocPack cfg (.pset l) pos
        = tocPack cfg (.plist ((sortedInts l).map PyObj.pint)) pos := by
      simp [tocPack]
    rw [h]
    exact tocPack_anchored (.plist ((sortedInts l).map PyObj.pint)) cfg pos
  | .plist l, cfg, pos => by
    simp only [tocPack]
    split
    · exact ⟨rfl, by simp only [packArrayHeader, List.length_append,
        List.length_cons, List.length_nil]; omega⟩
    · split
      · split
        · exact ⟨rfl, by simp only [packArrayHeader, List.length_append,
            List.length_cons, List.length_nil]; omega⟩
        · split
          · exact trivial
          · exact ⟨rfl, by simp only [packArrayHeader, List.length_append,
              List.length_cons, List.length_nil]; omega⟩
      · exact ⟨rfl, by simp only [packArrayHeader, List.length_append,
          List.length_cons, List.length_nil]; omega⟩
  | .pdict m, cfg, pos => by
    simp only [tocPack]
    split
    · exact ⟨rfl, by simp only [packMapHeader, List.length_append,
        List.length_cons, List.length_nil]; omega⟩
    · split
      · exact ⟨rfl, by simp only [packMapHeader, List.length_append,
          List.length_cons, List.length_nil]; omega⟩
      · exact ⟨rfl, by simp only [packMapHeader, List.length_append,
          List.length_cons, List.length_nil]; omega⟩
termination_by obj _ _ => pyW obj
decreasing_by
  all_goals simp [pyW, pyWList_map_pint, sortedInts_length]
  all_goals omega

/-- A run of sibling nodes covering the byte range `[s, e)`
back-to-back. -/
def contiguousNodes : List Node → Nat → Nat → Prop
  | [], s, e => s = e
  | c :: r, s, e => pLo c = s ∧ contiguousNodes r (pHi c) e

/-- A run of `(count, start, end)` groups covering `[s, e)`
back-to-back: the first group starts at `s`, each group starts where the
previous one ended, and the last group ends at `e`. -/
def groupsContig : List (Nat × Nat × Nat) → Nat → Nat → Prop
  | [], s, e => s = e
  | g :: r, s, e => g.2.1 = s ∧ groupsContig r g.2.2 e

def sumCounts (gs : List (Nat × Nat × Nat)) : Nat := (gs.map (·.1)).sum

theorem nodeSmall_leaf (n : Node) (h : nodeSmall n = true) :
    ∃ a b, n = Node.leaf a b true := by
  cases n with
  | leaf a b s => cases s with
    | true => exact ⟨a, b, rfl⟩
    | false => simp [nodeSmall] at h
  | blocks g => simp [nodeSmall] at h
  | arrNode c a b => simp [nodeSmall] at h
  | mapNode c a b => simp [nodeSmall] at h

theorem tocPackElems_length (cfg : WConfig) (l : List PyObj) (pos : Nat) :
    (tocPackElems cfg l pos).1.length = l.length := by
  induction l generalizing pos with
  | nil => simp [tocPackElems]
  | cons v r ih => simp [tocPackElems, ih]

/-- All-small children of a packed list sit back-to-back right after the
array header. -/
theorem tocPackElems_contiguous (cfg : WConfig) :
    ∀ (l : List PyObj) (pos : Nat),
      (tocPackElems cfg l pos).1.all nodeSmall = true →
      contiguousNodes (tocPackElems cfg l pos).1 pos
        (pos + (tocPackElems cfg l pos).2.length) := by
  intro l
  induction l with
  | nil => intro pos _; simp [tocPackElems, contiguousNodes]
  | cons v r ih =>
    intro pos hall
    simp only [tocPackElems, List.all_cons, Bool.and_eq_true] at hall
    obtain ⟨hv, hr⟩ := hall
    obtain ⟨a, b, hleaf⟩ := nodeSmall_leaf _ hv
    have hanch := tocPack_anchored v cfg pos
    rw [hleaf] at hanch
    simp only [nodeAnchored] at hanch
    obtain ⟨ha, hb⟩ := hanch
    simp only [tocPackElems, contiguousNodes, hleaf, pLo, pHi]
    refine ⟨ha, ?_⟩
    have hrec := ih (pos + (tocPack cfg v pos).2.length) hr
    rw [hb]
    have h3 : pos + ((tocPack cfg v pos).2
          ++ (tocPackElems cfg r (pos + (tocPack cfg v pos).2.length)).2).length
        = pos + (tocPack cfg v pos).2.length
          + (tocPackElems cfg r (pos + (tocPack cfg v pos).2.length)).2.length := by
      rw [List.length_append]
      omega
    rw [h3]
    exact hrec

theorem greedyGo_append (cfg : WConfig) :
    ∀ (vs : List Node) (g0 g1 : List (Nat × Nat × Nat)) (accu : List Node)
      (asz : Nat),
      greedyGo cfg vs (g0 ++ g1) accu asz = g0 ++ greedyGo cfg vs g1 accu asz
  | [], g0, g1, accu, asz => by
    cases accu with
    | nil => simp [greedyGo]
    | cons a rest => simp [greedyGo]
  | v :: vs, g0, g1, accu, asz => by
    simp only [greedyGo]
    split
    · rw [List.append_assoc]
      exact greedyGo_append cfg vs g0 _ [] 0
    · exact greedyGo_append cfg vs g0 g1 _ _

theorem greedyGo_count (cfg : WConfig) :
    ∀ (vs : List Node) (groups : List (Nat × Nat × Nat)) (accu : List Node)
      (asz : Nat),
      sumCounts (greedyGo cfg vs groups accu asz)
        = sumCounts groups + accu.length + vs.length
  | [], groups, accu, asz => by
    cases accu with
    | nil => simp [greedyGo]
    | cons a rest => simp [greedyGo, sumCounts]
  | v :: vs, groups, accu, asz => by
    simp only [greedyGo]
    split
    · rw [greedyGo_count cfg vs _ [] 0]
      simp [sumCounts]
      omega
    · rw [greedyGo_count cfg vs groups _ _]
      simp
      omega

theorem contiguousNodes_snoc (v : Node) :
    ∀ (accu : List Node) (s cur : Nat), contiguousNodes accu s cur →
      pLo v = cur → contiguousNodes (accu ++ [v]) s (pHi v)
  | [], s, cur, h, hv => by
    simp only [contiguousNodes] at h
    simp [contiguousNodes, h ▸ hv]
  | a :: rest, s, cur, h, hv => by
    obtain ⟨ha, hrest⟩ := h
    exact ⟨ha, contiguousNodes_snoc v rest _ cur hrest hv⟩

theorem contiguousNodes_last (v : Node) :
    ∀ (accu : List Node) (s cur : Nat),
      contiguousNodes (accu ++ [v]) s cur → pHi v = cur
  | [], s, cur, h => h.2
  | a :: rest, s, cur, h => contiguousNodes_last v rest _ cur h.2

theorem contiguousNodes_head (a : Node) (rest : List Node) (s e : Nat)
    (h : contiguousNodes (a :: rest) s e) : pLo a = s := h.1

theorem getLastD_concat (a v : Node) (rest : List Node) :
    List.getLastD (a :: (rest ++ [v])) a = v := by
  induction rest generalizing a with
  | nil => rfl
  | cons b bs ih => exact ih b

/-- Core contiguity of the greedy grouping: starting from an empty group
list, with a contiguous accumulator and contiguous remaining children,
the produced groups tile the whole range. -/
theorem greedyGo_contig (cfg : WConfig) :
    ∀ (vs accu : List Node) (s0 cur e asz : Nat),
      contiguousNodes accu s0 cur → contiguousNodes vs cur e →
      groupsContig (greedyGo cfg vs [] accu asz) s0 e
  | [], accu, s0, cur, e, asz, haccu, hvs => by
    simp only [contiguousNodes] at hvs
    cases accu with
    | nil =>
      simp only [contiguousNodes] at haccu
      simp [greedyGo, groupsContig, haccu, hvs]
    | cons a rest =>
      simp only [greedyGo, List.nil_append]
      have h1 : pLo a = s0 := contiguousNodes_head a rest s0 cur haccu
      cases hrest : rest.reverse with
      | nil =>
        have : rest = [] := by
          have := congrArg List.reverse hrest
          simpa using this
        subst this
        simp only [contiguousNodes] at haccu
        simp [groupsContig, List.getLastD, h1, haccu.2, hvs]
      | cons x xs =>
        have : rest = xs.reverse ++ [x] := by
          have := congrArg List.reverse hrest
          simpa using this
        subst this
        rw [getLastD_concat a x xs.reverse]
        have hx : pHi x = cur := by
          have haccu2 : contiguousNodes ((a :: xs.reverse) ++ [x]) s0 cur := by
            simpa using haccu
          exact contiguousNodes_last x (a :: xs.reverse) s0 cur haccu2
        exact ⟨h1, by simp [groupsContig, hx, hvs]⟩
  | v :: vs, accu, s0, cur, e, asz, haccu, hvs => by
    obtain ⟨hv, hvs2⟩ := hvs
    have haccu2 : contiguousNodes (accu ++ [v]) s0 (pHi v) :=
      contiguousNodes_snoc v accu s0 cur haccu hv
    simp only [greedyGo]
    split
    · have hhead : pLo ((accu ++ [v]).headD v) = s0 := by
        cases accu with
        | nil =>
          simp only [contiguousNodes] at haccu
          simp [haccu ▸ hv]
        | cons a rest =>
          have := contiguousNodes_head a _ s0 cur haccu
          simp [this]
      have happ : greedyGo cfg vs
            [((accu ++ [v]).length, pLo ((accu ++ [v]).headD v), pHi v)] [] 0
          = ((accu ++ [v]).length, pLo ((accu ++ [v]).headD v), pHi v)
            :: greedyGo cfg vs [] [] 0 := by
        have h := greedyGo_append cfg vs
          [((accu ++ [v]).length, pLo ((accu ++ [v]).headD v), pHi v)] [] [] 0
        simpa using h
      rw [List.nil_append, happ]
      exact ⟨hhead, greedyGo_contig cfg vs [] (pHi v) (pHi v) e 0 rfl hvs2⟩
    · exact greedyGo_contig cfg vs (accu ++ [v]) s0 (pHi v) e _ haccu2 hvs2

/-- Unfolding of `TOC._pack` on a list value: the array header occupies
two bytes, then the children; the node is selected by the
small-object / all-small / grouping cascade. -/
theorem tocPack_plist_node (cfg : WConfig) (l : List PyObj) (pos : Nat) :
    (tocPack cfg (.plist l) pos).1 =
      if pos + 2 + (tocPackElems cfg l (pos + 2)).2.length
          < pos + cfg.small_obj_optimization_threshold then
        Node.leaf pos (pos + 2 + (tocPackElems cfg l (pos + 2)).2.length)
          (decide (pos + 2 + (tocPackElems cfg l (pos + 2)).2.length
            ≤ pos + cfg.trivial_size))
      else if (tocPackElems cfg l (pos + 2)).1.all nodeSmall then
        if l.length = 0 then
          Node.leaf pos (pos + 2 + (tocPackElems cfg l (pos + 2)).2.length)
            (decide (pos + 2 + (tocPackElems cfg l (pos + 2)).2.length
              ≤ pos + cfg.trivial_size))
        else if 1 < (greedyGroups cfg (tocPackElems cfg l (pos + 2)).1).length
        then
          Node.blocks (greedyGroups cfg (tocPackElems cfg l (pos + 2)).1)
        else
          Node.leaf pos (pos + 2 + (tocPackElems cfg l (pos + 2)).2.length)
            (decide (pos + 2 + (tocPackElems cfg l (pos + 2)).2.length
              ≤ pos + cfg.trivial_size))
      else
        Node.arrNode (tocPackElems cfg l (pos + 2)).1 pos
          (pos + 2 + (tocPackElems cfg l (pos + 2)).2.length) := by
  simp only [tocPack, packArrayHeader, List.length_cons, List.length_nil]

/-- C4: whenever `TOC._pack` emits the block-group form for a list, the
groups are exactly the greedy left-to-right grouping of the children,
their counts sum to the length of the list, there is more than one
group, all children are small, the total span is at least the
small-object threshold, the group byte ranges tile the child area
contiguously (the first group starts at the first element, each group
starts where the previous ended, the last group ends at the last
element), and whenever the greedy grouping would yield at most one group
the node degenerates to the plain `{p: [s, e]}` leaf instead. -/
theorem c4_block_grouping_invariant (cfg : WConfig) (l : List PyObj)
    (pos : Nat) (gs : List (Nat × Nat × Nat))
    (hblocks : (tocPack cfg (.plist l) pos).1 = Node.blocks gs) :
    gs = greedyGroups cfg (tocPackElems cfg l (pos + 2)).1
    ∧ sumCounts gs = l.length
    ∧ 1 < gs.length
    ∧ (tocPackElems cfg l (pos + 2)).1.all nodeSmall = true
    ∧ cfg.small_obj_optimization_threshold
        ≤ 2 + (tocPackElems cfg l (pos + 2)).2.length
    ∧ groupsContig gs (pos + 2)
        (pos + 2 + (tocPackElems cfg l (pos + 2)).2.length)
    ∧ (∀ (l2 : List PyObj) (pos2 : Nat),
        (tocPackElems cfg l2 (pos2 + 2)).1.all nodeSmall = true →
        l2.length ≠ 0 →
        cfg.small_obj_optimization_threshold
          ≤ 2 + (tocPackElems cfg l2 (pos2 + 2)).2.length →
        (greedyGroups cfg (tocPackElems cfg l2 (pos2 + 2)).1).length ≤ 1 →
        (tocPack cfg (.plist l2) pos2).1
          = Node.leaf pos2
              (pos2 + 2 + (tocPackElems cfg l2 (pos2 + 2)).2.length)
              (decide (pos2 + 2 + (tocPackElems cfg l2 (pos2 + 2)).2.length
                ≤ pos2 + cfg.trivial_size))) := by
  rw [tocPack_plist_node] at hblocks
  by_cases h1 : pos + 2 + (tocPackElems cfg l (pos + 2)).2.length
      < pos + cfg.small_obj_optimization_threshold
  · rw [if_pos h1] at hblocks
    exact absurd hblocks (by simp)
  rw [if_neg h1] at hblocks
  by_cases h2 : (tocPackElems cfg l (pos + 2)).1.all nodeSmall
  · rw [if_pos h2] at hblocks
    by_cases h3 : l.length = 0
    · rw [if_pos h3] at hblocks
      exact absurd hblocks (by simp)
    rw [if_neg h3] at hblocks
    by_cases h4 : 1 < (greedyGroups cfg (tocPackElems cfg l (pos + 2)).1).length
    · rw [if_pos h4] at hblocks
      injection hblocks with hgs
      refine ⟨hgs.symm, ?_, ?_, h2, by omega, ?_, ?_⟩
      · rw [← hgs]
        unfold greedyGroups
        rw [greedyGo_count]
        simp [sumCounts, tocPackElems_length]
      · rw [← hgs]
        exact h4
      · rw [← hgs]
        unfold greedyGroups
        exact greedyGo_contig cfg _ [] (pos + 2) (pos + 2) _ 0 rfl
          (tocPackElems_contiguous cfg l (pos + 2) h2)
      · intro l2 pos2 h2b h3b h1b h4b
        rw [tocPack_plist_node]
        rw [if_neg (by omega), if_pos h2b, if_neg h3b, if_neg (by omega)]
    · rw [if_neg h4] at hblocks
      exact absurd hblocks (by simp)
  · rw [if_neg h2] at hblocks
    exact absurd hblocks (by simp)

/-- Witness for C4 at a concrete input: three two-byte integers under a
threshold of 3 produce two blocks `[(2, 2, 6), (1, 6, 8)]`. -/
theorem c4_block_grouping_invariant_witness :
    sumCounts [(2, 2, 6), (1, 6, 8)] = 3
    ∧ groupsContig [(2, 2, 6), (1, 6, 8)] 2 8 := by
  have h := c4_block_grouping_invariant ⟨3, 2⟩ [.pint 0, .pint 1, .pint 2] 0
    [(2, 2, 6), (1, 6, 8)]
    (by simp [tocPack, tocPackElems, tocLeaf, packValue, packArrayHeader,
      intCode, greedyGroups, greedyGo, nodeSmall, pLo, pHi])
  exact ⟨h.2.1, by
    simpa [tocPackElems, tocPack, tocLeaf, packValue, intCode]
      using h.2.2.2.2.2.1⟩

/-- C10: every node of the TOC dictionary emitted by `TOC.pack` carries
only the keys `t` and `p` (the internal `s` flag is never serialised),
and no child value in any `t` is an integer — children are always maps,
so the combined-archive discriminator in `LazyItem._child` cannot
misfire on builder output. -/
theorem c10_toc_shape (cfg : WConfig) (obj : PyObj) :
    tocNodeOK (tocPackRoot cfg obj).1 = true :=
  nodeToValue_ok (tocPack cfg obj 0).1

/-! ## Path-index helpers (`index.py`)

The reader resolves string path segments through `_is_index`,
`normalise_index`, `_normalise_bound`, `_is_slice` and `to_index`.  The
while loops of the normalisation functions are embedded with fuel:
`none` models divergence. -/

def digitVal (c : Char) : Option Nat :=
  if 48 ≤ c.toNat ∧ c.toNat ≤ 57 then some (c.toNat - 48) else none

def digitsGo : List Char → Nat → Option Nat
  | [], acc => some acc
  | c :: r, acc => (digitVal c).bind fun d => digitsGo r (acc * 10 + d)

def digitsNE : List Char → Option Nat
  | [] => none
  | l => digitsGo l 0

/-- `_is_index`: `int(key)` or `None`.  Python's `int` accepts an
optional sign and a nonempty digit run (plus surrounding whitespace and
underscore separators, which no reader path produces). -/
def pyIntParse (key : String) : Option Int :=
  match key.data with
  | [] => none
  | '-' :: rest => (digitsNE rest).map (fun v => -(v : Int))
  | '+' :: rest => (digitsNE rest).map (fun v => (v : Int))
  | l => (digitsNE l).map (fun v => (v : Int))

def splitOnCharGo (sep : Char) : List Char → List Char → List String
  | [], acc => [String.mk acc.reverse]
  | c :: r, acc =>
    if c = sep then String.mk acc.reverse :: splitOnCharGo sep r []
    else splitOnCharGo sep r (c :: acc)

/-- Python's `str.split(sep)` for a one-character separator. -/
def pySplit (s : String) (sep : Char) : List String :=
  splitOnCharGo sep s.data []

/-- `while index < -total_size: index += total_size` with fuel. -/
def normLoop1 : Nat → Int → Int → Option Int
  | 0, _, _ => none
  | f + 1, i, n => if i < -n then normLoop1 f (i + n) n else some i

/-- `while index >= total_size: index -= total_size` with fuel. -/
def normLoop2 : Nat → Int → Int → Option Int
  | 0, _, _ => none
  | f + 1, i, n => if n ≤ i then normLoop2 f (i - n) n else some i

/-- `normalise_index(index, total_size)` (`index.py` lines 29-35). -/
def normaliseIndexF (f : Nat) (i n : Int) : Option Int :=
  (normLoop1 f i n).bind fun j => normLoop2 f j n

/-- `while index < 1 - total_size: index += total_size` with fuel. -/
def boundLoop1 : Nat → Int → Int → Option Int
  | 0, _, _ => none
  | f + 1, i, n => if i < 1 - n then boundLoop1 f (i + n) n else some i

/-- `while index >= 1 + total_size: index -= total_size` with fuel. -/
def boundLoop2 : Nat → Int → Int → Option Int
  | 0, _, _ => none
  | f + 1, i, n => if 1 + n ≤ i then boundLoop2 f (i - n) n else some i

/-- `_normalise_bound(index, total_size)` (`index.py` lines 38-44). -/
def normaliseBoundF (f : Nat) (i n : Int) : Option Int :=
  (boundLoop1 f i n).bind fun j => boundLoop2 f j n

/-- `_is_slice(key, total_size)` (`index.py` lines 47-77).  The outer
`Option` is the fuel/divergence layer; the inner one is Python's
`None`-for-not-a-slice. -/
def isSliceF (f : Nat) (key : String) (total : Int) :
    Option (Option (Int × Int × Int)) :=
  if ¬ key.data.contains ':' then some none
  else
    match pySplit key ':' with
    | [p0, p1] =>
      let start? := if p0 = "" then some (0 : Int) else pyIntParse p0
      let stop? := if p1 = "" then some total else pyIntParse p1
      match start?, stop? with
      | some a, some b =>
        match normaliseIndexF f a total, normaliseBoundF f b total with
        | some a2, some b2 => some (some (a2, b2, 1))
        | _, _ => none
      | _, _ => some none
    | [p0, p1, p2] =>
      let start? := if p0 = "" then some (0 : Int) else pyIntParse p0
      let step? := if p1 = "" then some (1 : Int) else pyIntParse p1
      let stop? := if p2 = "" then some total else pyIntParse p2
      match start?, step?, stop? with
      | some a, some st, some b =>
        match normaliseIndexF f a total, normaliseBoundF f b total with
        | some a2, some b2 => some (some (a2, b2, st))
        | _, _ => none
      | _, _, _ => some none
    | _ => some none

/-- What a path segment resolves to for a list context. -/
inductive PathIndex where
  | idx : Int → PathIndex
  | slice : Int → Int → Int → PathIndex
  | keyStr : String → PathIndex

/-- `to_index(key, total_size)` (`index.py` lines 80-88). -/
def toIndexF (f : Nat) (key : String) (total : Int) : Option PathIndex :=
  match pyIntParse key with
  | some n => some (.idx n)
  | none =>
    match isSliceF f key total with
    | none => none
    | some (some (a, b, st)) => some (.slice a b st)
    | some none => some (.keyStr key)

theorem normLoop1_diverge_zero :
    ∀ (f : Nat) (i : Int), i < 0 → normLoop1 f i 0 = none := by
  intro f
  induction f with
  | zero => intro i _; rfl
  | succ g ih =>
    intro i hi
    simp only [normLoop1, neg_zero, if_pos hi, add_zero]
    exact ih i hi

theorem normLoop2_diverge_zero :
    ∀ (f : Nat) (i : Int), 0 ≤ i → normLoop2 f i 0 = none := by
  intro f
  induction f with
  | zero => intro i _; rfl
  | succ g ih =>
    intro i hi
    simp only [normLoop2, if_pos hi, sub_zero]
    exact ih i hi

/-- `normalise_index` never terminates when the list is empty: for a
negative index the first while loop adds zero forever, otherwise the
second subtracts zero forever. -/
theorem normaliseIndexF_diverge_zero (f : Nat) (i : Int) :
    normaliseIndexF f i 0 = none := by
  unfold normaliseIndexF
  by_cases hi : i < 0
  · rw [normLoop1_diverge_zero f i hi]
    rfl
  · push_neg at hi
    cases f with
    | zero => rfl
    | succ g =>
      have h1 : normLoop1 (g + 1) i 0 = some i := by
        simp only [normLoop1, neg_zero]
        rw [if_neg (by omega)]
      rw [h1]
      exact normLoop2_diverge_zero (g + 1) i hi

/-- On an index already in `[-n, n)` both loops exit immediately:
`normalise_index` is the identity there. -/
theorem normaliseIndexF_id (f : Nat) (i n : Int) (hf : 1 ≤ f)
    (h1 : -n ≤ i) (h2 : i < n) : normaliseIndexF f i n = some i := by
  obtain ⟨g, rfl⟩ : ∃ g, f = g + 1 := ⟨f - 1, by omega⟩
  unfold normaliseIndexF
  have hl1 : normLoop1 (g + 1) i n = some i := by
    simp only [normLoop1]
    rw [if_neg (by omega)]
  rw [hl1]
  show (if n ≤ i then normLoop2 g (i - n) n else some i) = some i
  rw [if_neg (by omega : ¬ n ≤ i)]

/-! ## Configuration (`config.py`)

The global `Config` record and `configure`.  The `magic` argument
(which mutates the `LazyWriter` class attribute) and the `s3fs` handle
are outside this record.  Thresholds are Python ints, the fast-loading
threshold a float in `[0, 1]` modelled as a rational. -/

structure Config where
  small_obj_optimization_threshold : Int
  write_buffer_size : Int
  read_buffer_size : Int
  fast_loading : Bool
  fast_loading_threshold : ℚ
  trivial_size : Int
  disable_gc : Bool
  simple_repr : Bool
  copy_chunk_size : Int
  numpy_encoder : Bool
  numpy_fast_int_pack : Bool

/-- The defaults of `config.py` lines 47-60. -/
def defaultConfig : Config where
  small_obj_optimization_threshold := 2 ^ 13
  write_buffer_size := 2 ^ 23
  read_buffer_size := 2 ^ 16
  fast_loading := true
  fast_loading_threshold := 3 / 10
  trivial_size := 20
  disable_gc := true
  simple_repr := true
  copy_chunk_size := 2 ^ 24
  numpy_encoder := false
  numpy_fast_int_pack := false

/-- `configure`'s handling of `small_obj_optimization_threshold`
(`config.py` lines 131-137): set it when positive, then lower
`trivial_size` onto it if `trivial_size` now exceeds it. -/
def stepSmallThreshold (v? : Option Int) (c : Config) : Config :=
  match v? with
  | some v =>
    if 0 < v then
      let c2 := { c with small_obj_optimization_threshold := v }
      if c2.small_obj_optimization_threshold < c2.trivial_size then
        { c2 with trivial_size := c2.small_obj_optimization_threshold }
      else c2
    else c
  | none => c

/-- `configure`'s handling of `trivial_size` (`config.py` lines
154-157): set it when positive, then raise
`small_obj_optimization_threshold` onto it if now exceeded. -/
def stepTrivialSize (v? : Option Int) (c : Config) : Config :=
  match v? with
  | some v =>
    if 0 < v then
      let c2 := { c with trivial_size := v }
      if c2.small_obj_optimization_threshold < c2.trivial_size then
        { c2 with small_obj_optimization_threshold := c2.trivial_size }
      else c2
    else c
  | none => c

/-- A plain positive-int-guarded field update of `configure`. -/
def stepPosInt (v? : Option Int) (upd : Int → Config → Config)
    (c : Config) : Config :=
  match v? with
  | some v => if 0 < v then upd v c else c
  | none => c

/-- A plain boolean field update of `configure`. -/
def stepBool (v? : Option Bool) (upd : Bool → Config → Config)
    (c : Config) : Config :=
  match v? with
  | some v => upd v c
  | none => c

/-- The `0 <= fast_loading_threshold <= 1` guarded update of
`configure`. -/
def stepFloat01 (v? : Option ℚ) (upd : ℚ → Config → Config)
    (c : Config) : Config :=
  match v? with
  | some q => if 0 ≤ q ∧ q ≤ 1 then upd q c else c
  | none => c

/-- `configure` (`config.py` lines 69-179) over the modelled fields, in
source order. -/
def configure (small? wbuf? rbuf? : Option Int) (fastl? : Option Bool)
    (fthresh? : Option ℚ) (triv? : Option Int)
    (dgc? srepr? : Option Bool) (cchunk? : Option Int)
    (npenc? npint? : Option Bool) (c : Config) : Config :=
  let c1 := stepSmallThreshold small? c
  let c2 := stepPosInt wbuf? (fun v c => { c with write_buffer_size := v }) c1
  let c3 := stepPosInt rbuf? (fun v c => { c with read_buffer_size := v }) c2
  let c4 := stepBool fastl? (fun v c => { c with fast_loading := v }) c3
  let c5 := stepFloat01 fthresh?
    (fun q c => { c with fast_loading_threshold := q }) c4
  let c6 := stepTrivialSize triv? c5
  let c7 := stepBool dgc? (fun v c => { c with disable_gc := v }) c6
  let c8 := stepBool srepr? (fun v c => { c with simple_repr := v }) c7
  let c9 := stepPosInt cchunk? (fun v c => { c with copy_chunk_size := v }) c8
  let c10 := stepBool npenc? (fun v c => { c with numpy_encoder := v }) c9
  stepBool npint? (fun v c => { c with numpy_fast_int_pack := v }) c10

/-- The configuration invariant of the spec:
`trivial_size ≤ small_obj_optimization_threshold`. -/
def cfgInv (c : Config) : Prop :=
  c.trivial_size ≤ c.small_obj_optimization_threshold

theorem stepSmallThreshold_inv (v? : Option Int) (c : Config)
    (h : cfgInv c) : cfgInv (stepSmallThreshold v? c) := by
  unfold cfgInv stepSmallThreshold at *
  cases v? with
  | none => exact h
  | some v =>
    dsimp only
    split
    · split
      · simp
      · simp
        omega
    · exact h

theorem stepTrivialSize_inv (v? : Option Int) (c : Config)
    (h : cfgInv c) : cfgInv (stepTrivialSize v? c) := by
  unfold cfgInv stepTrivialSize at *
  cases v? with
  | none => exact h
  | some v =>
    dsimp only
    split
    · split
      · simp
      · simp
        omega
    · exact h

theorem stepPosInt_inv (v? : Option Int) (upd : Int → Config → Config)
    (hupd : ∀ v c, (upd v c).trivial_size = c.trivial_size
      ∧ (upd v c).small_obj_optimization_threshold
        = c.small_obj_optimization_threshold)
    (c : Config) (h : cfgInv c) : cfgInv (stepPosInt v? upd c) := by
  unfold cfgInv stepPosInt at *
  cases v? with
  | none => exact h
  | some v =>
    dsimp only
    split
    · rw [(hupd v c).1, (hupd v c).2]
      exact h
    · exact h

theorem stepBool_inv (v? : Option Bool) (upd : Bool → Config → Config)
    (hupd : ∀ v c, (upd v c).trivial_size = c.trivial_size
      ∧ (upd v c).small_obj_optimization_threshold
        = c.small_obj_optimization_threshold)
    (c : Config) (h : cfgInv c) : cfgInv (stepBool v? upd c) := by
  unfold cfgInv stepBool at *
  cases v? with
  | none => exact h
  | some v =>
    dsimp only
    rw [(hupd v c).1, (hupd v c).2]
    exact h

theorem stepFloat01_inv (v? : Option ℚ) (upd : ℚ → Config → Config)
    (hupd : ∀ v c, (upd v c).trivial_size = c.trivial_size
      ∧ (upd v c).small_obj_optimization_threshold
        = c.small_obj_optimization_threshold)
    (c : Config) (h : cfgInv c) : cfgInv (stepFloat01 v? upd c) := by
  unfold cfgInv stepFloat01 at *
  cases v? with
  | none => exact h
  | some v =>
    dsimp only
    split
    · rw [(hupd v c).1, (hupd v c).2]
      exact h
    · exact h

/-- C8 counterexample: starting from the defaults
(`trivial_size = 20`, threshold `2^13`), configuring
`small_obj_optimization_threshold = 10` sets it *past* (below)
`trivial_size`.  The claim says the lesser of the two values (here the
new threshold, 10) is raised to restore the invariant — that would
leave `trivial_size = 20`.  Instead the code lowers `trivial_size` from
20 to 10: no value is raised. -/
theorem c8_lesser_raised_counterexample :
    (configure (some 10) none none none none none none none none none none
        defaultConfig).trivial_size = 10
    ∧ (configure (some 10) none none none none none none none none none none
        defaultConfig).small_obj_optimization_threshold = 10
    ∧ defaultConfig.trivial_size = 20
    ∧ ¬((configure (some 10) none none none none none none none none none
          none defaultConfig).trivial_size = defaultConfig.trivial_size) := by
  refine ⟨rfl, rfl, rfl, by decide⟩

set_option maxHeartbeats 1000000 in
/-- C8 as amended: every `configure` call preserves the invariant
`trivial_size ≤ small_obj_optimization_threshold`; setting the
threshold below `trivial_size` *lowers* `trivial_size` onto it, and
setting `trivial_size` above the threshold *raises* the threshold onto
it. -/
theorem c8_configure_invariant :
    (∀ (small? wbuf? rbuf? : Option Int) (fastl? : Option Bool)
      (fthresh? : Option ℚ) (triv? : Option Int)
      (dgc? srepr? : Option Bool) (cchunk? : Option Int)
      (npenc? npint? : Option Bool) (c : Config), cfgInv c →
      cfgInv (configure small? wbuf? rbuf? fastl? fthresh? triv? dgc? srepr?
        cchunk? npenc? npint? c))
    ∧ (∀ (v : Int) (c : Config), 0 < v → v < c.trivial_size →
        (configure (some v) none none none none none none none none none none
          c).small_obj_optimization_threshold = v
        ∧ (configure (some v) none none none none none none none none none
            none c).trivial_size = v)
    ∧ (∀ (v : Int) (c : Config), 0 < v →
        c.small_obj_optimization_threshold < v →
        (configure none none none none none (some v) none none none none none
          c).trivial_size = v
        ∧ (configure none none none none none (some v) none none none none
            none c).small_obj_optimization_threshold = v) := by
  refine ⟨?_, ?_, ?_⟩
  · intro small? wbuf? rbuf? fastl? fthresh? triv? dgc? srepr? cchunk?
      npenc? npint? c h
    unfold configure
    dsimp only
    generalize hC1 : stepSmallThreshold small? c = C1
    have h1 : cfgInv C1 := hC1 ▸ stepSmallThreshold_inv small? c h
    generalize hC2 : stepPosInt wbuf?
      (fun v c => { c with write_buffer_size := v }) C1 = C2
    have h2 : cfgInv C2 := hC2 ▸ stepPosInt_inv wbuf?
      (fun v c => { c with write_buffer_size := v })
      (fun v c => ⟨rfl, rfl⟩) C1 h1
    generalize hC3 : stepPosInt rbuf?
      (fun v c => { c with read_buffer_size := v }) C2 = C3
    have h3 : cfgInv C3 := hC3 ▸ stepPosInt_inv rbuf?
      (fun v c => { c with read_buffer_size := v })
      (fun v c => ⟨rfl, rfl⟩) C2 h2
    generalize hC4 : stepBool fastl?
      (fun v c => { c with fast_loading := v }) C3 = C4
    have h4 : cfgInv C4 := hC4 ▸ stepBool_inv fastl?
      (fun v c => { c with fast_loading := v })
      (fun v c => ⟨rfl, rfl⟩) C3 h3
    generalize hC5 : stepFloat01 fthresh?
      (fun q c => { c with fast_loading_threshold := q }) C4 = C5
    have h5 : cfgInv C5 := hC5 ▸ stepFloat01_inv fthresh?
      (fun q c => { c with fast_loading_threshold := q })
      (fun v c => ⟨rfl, rfl⟩) C4 h4
    generalize hC6 : stepTrivialSize triv? C5 = C6
    have h6 : cfgInv C6 := hC6 ▸ stepTrivialSize_inv triv? C5 h5
    generalize hC7 : stepBool dgc? (fun v c => { c with disable_gc := v }) C6 = C7
    have h7 : cfgInv C7 := hC7 ▸ stepBool_inv dgc?
      (fun v c => { c with disable_gc := v })
      (fun v c => ⟨rfl, rfl⟩) C6 h6
    generalize hC8 : stepBool srepr? (fun v c => { c with simple_repr := v }) C7 = C8
    have h8 : cfgInv C8 := hC8 ▸ stepBool_inv srepr?
      (fun v c => { c with simple_repr := v })
      (fun v c => ⟨rfl, rfl⟩) C7 h7
    generalize hC9 : stepPosInt cchunk?
      (fun v c => { c with copy_chunk_size := v }) C8 = C9
    have h9 : cfgInv C9 := hC9 ▸ stepPosInt_inv cchunk?
      (fun v c => { c with copy_chunk_size := v })
      (fun v c => ⟨rfl, rfl⟩) C8 h8
    generalize hC10 : stepBool npenc?
      (fun v c => { c with numpy_encoder := v }) C9 = C10
    have h10 : cfgInv C10 := hC10 ▸ stepBool_inv npenc?
      (fun v c => { c with numpy_encoder := v })
      (fun v c => ⟨rfl, rfl⟩) C9 h9
    exact stepBool_inv npint?
      (fun v c => { c with numpy_fast_int_pack := v })
      (fun v c => ⟨rfl, rfl⟩) C10 h10
  · intro v c hv hlt
    have e : configure (some v) none none none none none none none none none
        none c = stepSmallThreshold (some v) c := rfl
    rw [e]
    unfold stepSmallThreshold
    dsimp only
    rw [if_pos hv]
    rw [if_pos (by simpa using hlt)]
    exact ⟨rfl, rfl⟩
  · intro v c hv hlt
    have e : configure none none none none none (some v) none none none none
        none c = stepTrivialSize (some v) c := rfl
    rw [e]
    unfold stepTrivialSize
    dsimp only
    rw [if_pos hv]
    rw [if_pos (by simpa using hlt)]
    exact ⟨rfl, rfl⟩

/-- Witness for C8 as amended, at the defaults: a call with
`small_obj_optimization_threshold = 10` keeps the invariant and lowers
`trivial_size` to 10; a call with `trivial_size = 2^14` raises the
threshold to `2^14`. -/
theorem c8_configure_invariant_witness :
    cfgInv (configure (some 10) none none none none none none none none none
      none defaultConfig)
    ∧ (configure (some 10) none none none none none none none none none none
        defaultConfig).trivial_size = 10
    ∧ (configure none none none none none (some (2 ^ 14)) none none none none
        none defaultConfig).small_obj_optimization_threshold = 2 ^ 14 := by
  refine ⟨?_, ?_, ?_⟩
  · exact c8_configure_invariant.1 (some 10) none none none none none none
      none none none none defaultConfig (by unfold cfgInv defaultConfig; decide)
  · exact (c8_configure_invariant.2.1 10 defaultConfig (by decide)
      (by decide)).2
  · exact (c8_configure_invariant.2.2 (2 ^ 14) defaultConfig (by decide)
      (by decide)).2

/-- C9: the wrap-around normalisation diverges on an empty list.  The
slice segment `0:` applied to an empty list — reachable through
`LazyReader.read`, which calls `to_index(key, len(target))` for every
string segment against a list target — parses its bounds and then calls
`normalise_index(0, 0)`, whose `while index >= total_size` loop
subtracts zero forever: for every fuel the model returns `none`. -/
theorem c9_to_index_diverges_on_empty_list (f : Nat) :
    toIndexF f "0:" 0 = none := by
  unfold toIndexF
  rw [show pyIntParse "0:" = none from by decide]
  have h2 : isSliceF f "0:" 0 = none := by
    unfold isSliceF
    rw [if_neg (by decide)]
    rw [show pySplit "0:" ':' = ["0", ""] from by decide]
    dsimp only
    rw [if_neg (by decide : ¬("0" : String) = "")]
    rw [if_pos (rfl : ("" : String) = "")]
    rw [show pyIntParse "0" = some 0 from by decide]
    dsimp only
    rw [normaliseIndexF_diverge_zero f 0]
  rw [h2]

/-! ## Buffers and the writer (`writer.py`)

A seekable buffer is a byte list with a cursor.  `write` overwrites in
place at the cursor and extends at the end (no writer of this code base
seeks past the end); `read` returns at most the requested bytes and
advances by what it returned. -/

structure Buffer where
  data : List Byte
  pos : Nat

def bufWrite (b : Buffer) (bs : List Byte) : Buffer where
  data := b.data.take b.pos ++ bs ++ b.data.drop (b.pos + bs.length)
  pos := b.pos + bs.length

def bufRead (b : Buffer) (n : Nat) : List Byte × Buffer :=
  let out := sliceL b.data b.pos (b.pos + n)
  (out, { b with pos := b.pos + out.length })

def bufSeek (b : Buffer) (p : Nat) : Buffer := { b with pos := p }

/-- `LazyWriter.magic`: `b"msglc-2024"` right-justified with zero bytes
to the 30-byte magic slot. -/
def magicBytes : List Byte := rjust (strBytes "msglc-2024") 30

theorem magicBytes_length : magicBytes.length = 30 := by decide

/-- `LazyWriter` state after `__enter__`: magic written, 20 reserved
zero bytes, positions remembered, no write performed yet. -/
structure WriterState where
  buffer : Buffer
  headerStart : Nat
  fileStart : Nat
  noMoreWrites : Bool

/-- `LazyWriter.__enter__` (`writer.py` lines 87-112) on an opened
buffer. -/
def writerEnter (b : Buffer) : WriterState :=
  let b1 := bufWrite b magicBytes
  let headerStart := b1.pos
  let b2 := bufWrite b1 (List.replicate 20 0)
  { buffer := b2, headerStart := headerStart, fileStart := b2.pos,
    noMoreWrites := false }

/-- `LazyWriter.write` (`writer.py` lines 124-146).  The double-write
guard fires before anything is executed, so on error the state is
returned untouched. -/
def writerWrite (cfg : WConfig) (s : WriterState) (obj : PyObj) :
    Except String Unit × WriterState :=
  if s.noMoreWrites then (.error "No more writes allowed.", s)
  else
    let res := tocPack cfg obj (s.buffer.pos - s.fileStart)
    let b1 := bufWrite s.buffer res.2
    let tocStart := b1.pos - s.fileStart
    let packedToc := packValue (nodeToValue res.1)
    let b2 := bufWrite b1 packedToc
    let b3 := bufSeek b2 s.headerStart
    let b4 := bufWrite b3 (rjust (packValue (.vint tocStart)) 10)
    let b5 := bufWrite b4 (rjust (packValue (.vint packedToc.length)) 10)
    (.ok (), { s with buffer := b5, noMoreWrites := true })

/-- C6: on a writer fresh from `__enter__`, the first `write` succeeds;
every call on a writer that has already written raises
`No more writes allowed.` and leaves the state — in particular the
buffer contents produced by the first write — untouched. -/
theorem c6_at_most_one_write (cfg : WConfig) (b : Buffer)
    (obj obj2 : PyObj) :
    (writerWrite cfg (writerEnter b) obj).1 = .ok ()
    ∧ (writerWrite cfg (writerWrite cfg (writerEnter b) obj).2 obj2).1
        = .error "No more writes allowed."
    ∧ (writerWrite cfg (writerWrite cfg (writerEnter b) obj).2 obj2).2
        = (writerWrite cfg (writerEnter b) obj).2
    ∧ (∀ s : WriterState, s.noMoreWrites = true →
        writerWrite cfg s obj2 = (.error "No more writes allowed.", s)) := by
  have hfresh : (writerEnter b).noMoreWrites = false := rfl
  have h1 : (writerWrite cfg (writerEnter b) obj).1 = .ok () := by
    unfold writerWrite
    rw [if_neg (by rw [hfresh]; exact Bool.false_ne_true)]
  have hset : (writerWrite cfg (writerEnter b) obj).2.noMoreWrites = true := by
    unfold writerWrite
    rw [if_neg (by rw [hfresh]; exact Bool.false_ne_true)]
  have herr : ∀ s : WriterState, s.noMoreWrites = true →
      writerWrite cfg s obj2 = (.error "No more writes allowed.", s) := by
    intro s hs
    unfold writerWrite
    rw [if_pos hs]
  refine ⟨h1, ?_, ?_, herr⟩
  · rw [herr _ hset]
  · rw [herr _ hset]

/-- Witness for C6 at a concrete input: writing `nil` twice to an empty
in-memory buffer. -/
theorem c6_at_most_one_write_witness :
    (writerWrite ⟨8192, 20⟩
        (writerWrite ⟨8192, 20⟩ (writerEnter ⟨[], 0⟩) .pnil).2 .pnil).1
      = .error "No more writes allowed." :=
  (c6_at_most_one_write ⟨8192, 20⟩ ⟨[], 0⟩ .pnil .pnil).2.1

/-- The header probe of `LazyReader.__init__` (`reader.py` lines
519-531): remember the position, read `magic_len + 20` bytes, seek
back, then verify the magic.  On mismatch a `ValueError` is raised with
the cursor already restored. -/
def readerOpenHeader (b : Buffer) : Except String (List Byte) × Buffer :=
  let originalPos := b.pos
  let r1 := bufRead b 50
  let b2 := bufSeek r1.2 originalPos
  if r1.1.take 30 ≠ magicBytes then (.error "Invalid file format.", b2)
  else (.ok r1.1, b2)

/-- C7: opening a buffer whose next `magic_len` bytes differ from the
configured magic raises the invalid-format error, and the buffer's
position afterwards equals its position before the call. -/
theorem c7_invalid_magic (b : Buffer)
    (h : sliceL b.data b.pos (b.pos + 30) ≠ magicBytes) :
    (readerOpenHeader b).1 = .error "Invalid file format."
    ∧ (readerOpenHeader b).2.pos = b.pos
    ∧ (readerOpenHeader b).2.data = b.data := by
  have htake : (sliceL b.data b.pos (b.pos + 50)).take 30
      = sliceL b.data b.pos (b.pos + 30) := by
    unfold sliceL
    rw [List.take_take]
    congr 1
    omega
  unfold readerOpenHeader bufRead bufSeek
  dsimp only
  rw [if_pos (by rw [htake]; exact h)]
  exact ⟨rfl, rfl, rfl⟩

/-- Witness for C7: a buffer of ten `1` bytes is rejected with the
cursor left at the start. -/
theorem c7_invalid_magic_witness :
    (readerOpenHeader ⟨List.replicate 10 1, 0⟩).1
        = .error "Invalid file format."
      ∧ (readerOpenHeader ⟨List.replicate 10 1, 0⟩).2.pos = 0 :=
  ⟨(c7_invalid_magic ⟨List.replicate 10 1, 0⟩ (by decide)).1,
    (c7_invalid_magic ⟨List.replicate 10 1, 0⟩ (by decide)).2.1⟩

/-! ## The reader engine (`reader.py`)

The lazy tree is modelled functionally: a target of the walk is either a
plain decoded value, a `LazyList`/`LazyDict` (offset plus TOC node), or
a Python list of targets produced by a slice access.  An embedded
reader target is replaced by its root object, to which every operation
on a `LazyReader` delegates.  The mutable caches are modelled by the
values they hold once filled; the theorems' hypotheses supply the block
length agreement under which cache-slice assignment is position
preserving.  All reads are absolute: `_readb(start, end)` is the window
`[offset + start, offset + end)` of the buffer. -/

structure RCfg where
  cached : Bool
  fast_loading : Bool
  fast_loading_threshold : ℚ

/-- `LazyItem._fast_loading` for a container none of whose own items
have been accessed yet (`_accessed_items = 0`), which is the state of
every container the walk materialises. -/
def fastFires (rc : RCfg) (n : Nat) : Bool :=
  rc.fast_loading && decide ((0 : ℚ) < rc.fast_loading_threshold * n)

/-- First-match association lookup; TOC maps produced by the builder
have distinct keys. -/
def lookupKey : List (String × Value) → String → Option Value
  | [], _ => none
  | (k, v) :: r, key => if k = key then some v else lookupKey r key

/-- Python list indexing `l[i]`: negative indices count from the end,
anything outside `[-n, n)` is an `IndexError`. -/
def pyGet (l : List α) (i : Int) : Option α :=
  if 0 ≤ i then l.get? i.toNat
  else if -(l.length : Int) ≤ i then l.get? (l.length - (-i).toNat)
  else none

/-- A `p` field of the form `[start, end]` with two integers
(`len(child_pos) == 2 and all(isinstance(x, int) ...)`); the builder
only emits non-negative offsets. -/
def asRange : Value → Option (Nat × Nat)
  | .vlist [.vint a, .vint b] =>
    if 0 ≤ a ∧ 0 ≤ b then some (a.toNat, b.toNat) else none
  | _ => none

/-- A `p` field in block form: a list of `[count, start, end]`
triples. -/
def parseTriples : List Value → Option (List (Nat × Nat × Nat))
  | [] => some []
  | .vlist [.vint c, .vint s, .vint e] :: r =>
    if 0 ≤ c ∧ 0 ≤ s ∧ 0 ≤ e then
      (parseTriples r).map ((c.toNat, s.toNat, e.toNat) :: ·)
    else none
  | _ :: _ => none

/-- `LazyList._size_list`: prefix sums of the block counts, starting
at 0. -/
def sizeListGo : List (Nat × Nat × Nat) → Nat → List Nat
  | [], _ => []
  | t :: r, acc => (acc + t.1) :: sizeListGo r (acc + t.1)

def sizeList (ts : List (Nat × Nat × Nat)) : List Nat :=
  0 :: sizeListGo ts 0

/-- `LazyList._lookup_index` (`reader.py` lines 240-253): binary search
for the block whose cumulative range contains `index`.  The `while
True` loop is fuelled: it makes no progress (and the Python code spins
forever) when the index lies outside `[0, total)`, e.g. for any
negative index. -/
def lookupIndexF (sl : List Nat) : Nat → Nat → Nat → Int → Option Nat
  | 0, _, _, _ => none
  | f + 1, low, high, index =>
    let mid := (low + high) / 2
    match sl.get? mid, sl.get? (mid + 1) with
    | some a, some b =>
      if (a : Int) ≤ index ∧ index < (b : Int) then some mid
      else if index < (a : Int) then lookupIndexF sl f low mid index
      else lookupIndexF sl f mid high index
    | _, _ => none

def lookupIndex (sl : List Nat) (index : Int) : Option Nat :=
  lookupIndexF sl (sl.length + 1) 0 (sl.length - 1) index

/-- CPython's `slice.indices(n)` clamping (`PySlice_AdjustIndices`);
`none` models the `ValueError` for a zero step. -/
def sliceIndices (a b st : Int) (n : Nat) : Option (Int × Int × Int) :=
  if st = 0 then none
  else
    let adj := fun (x : Int) =>
      if x < 0 then
        (if x + n < 0 then (if st < 0 then -1 else 0) else x + n)
      else
        (if (n : Int) ≤ x then (if st < 0 then (n : Int) - 1 else n) else x)
    some (adj a, adj b, st)

/-- The index sequence of `range(start, stop, step)` for a nonzero
step. -/
def rangeList (start stop step : Int) : List Int :=
  if 0 < step then
    (List.range ((stop - start + step - 1) / step).toNat).map
      (fun k => start + step * k)
  else
    (List.range ((start - stop + (-step) - 1) / (-step)).toNat).map
      (fun k => start + step * k)

/-- Modelled from the spec (§4.6, §9 `reader.py` line 168 is only a
caller): the native-array pickle interop deserialises byte strings
produced by the foreign array serialiser.  None of the byte strings the
theorems below evaluate it on are such serialisations — on them
`pickle.loads` raises (e.g. `b"multiarray"` starts with the invalid
opcode `m`) — so the deserialiser is modelled as failing. -/
def pickleLoads (_bs : List Byte) : Option Value := none

/-- A target of the reader walk. -/
inductive RTarget where
  | tPlain : Value → RTarget
  | tList : Nat → Value → RTarget
  | tDict : Nat → Value → RTarget
  | tSeq : List RTarget → RTarget

/-- `_readb(start, end)` relative to the payload base `off`. -/
def readSlice (buf : List Byte) (off s e : Nat) : List Byte :=
  sliceL buf (off + s) (off + e)

/-- `len` of a `LazyList` (`reader.py` lines 324-329): number of
children in per-element mode, sum of the block counts in block mode. -/
def lazyListLen (toc : Value) : Nat :=
  match toc with
  | .vmap m =>
    match lookupKey m "t" with
    | some (.vlist children) => children.length
    | _ =>
      match lookupKey m "p" with
      | some (.vlist ps) => (parseTriples ps).elim 0 sumCounts
      | _ => 0
  | _ => 0

/-- `LazyList._all(start, end)` block decode for every block in order —
the uncached and fast-loading `to_obj` paths (`reader.py` lines
344-348 and 357-363). -/
def concatBlocks (buf : List Byte) (off : Nat) :
    List (Nat × Nat × Nat) → Option (List Value)
  | [] => some []
  | (_, s, e) :: r =>
    (decodeAll (readSlice buf off s e)).bind fun vs =>
      (concatBlocks buf off r).map (vs ++ ·)

/-- The value `self._cache[i]` holds after `__getitem__` filled the
block containing logical index `i ∈ [0, total)`: look up the covering
block, decode it, select position `i − prefix`.  (The Python cache
slice assignment lands these values at exactly those positions when
each block decodes to `count` values, which the round-trip theorems
establish for builder output.) -/
def blockGetAbs (buf : List Byte) (off : Nat) (ts : List (Nat × Nat × Nat))
    (i : Nat) : Option Value :=
  (lookupIndex (sizeList ts) i).bind fun k =>
    match ts.get? k with
    | some (_, s, e) =>
      (decodeAll (readSlice buf off s e)).bind fun vs =>
        vs.get? (i - (sizeList ts).getD k 0)
    | none => none

/-- `_read_all` of a block-mode list: for each index, materialise via
`__getitem__` (whose cached result is a plain decoded value). -/
def blockReadAll (buf : List Byte) (off : Nat)
    (ts : List (Nat × Nat × Nat)) : Option (List Value) :=
  (List.range (sumCounts ts)).mapM (blockGetAbs buf off ts)

/-- `LazyList.to_obj` in block mode, by reader flags: uncached reads
block by block; cached without fast loading goes through `_read_all`;
cached with fast loading bulk-decodes every (unread) block.  -/
def blockToObj (rc : RCfg) (buf : List Byte) (off : Nat)
    (ts : List (Nat × Nat × Nat)) : Option Value :=
  if rc.cached = false then (concatBlocks buf off ts).map .vlist
  else if fastFires rc (sumCounts ts) = false then
    (blockReadAll buf off ts).map .vlist
  else (concatBlocks buf off ts).map .vlist

/-- Selection of several python list positions (a slice result). -/
def selectIdxs (l : List α) (idxs : List Int) : Option (List α) :=
  idxs.mapM (pyGet l)

mutual

/-- `LazyItem._child` (`reader.py` lines 143-185) composed with the
construction of the child: an integer TOC is an embedded file (a new
reader at that payload offset); a `t`-less node with a two-int `p` is
decoded in place, with the `multiarray` pickle sniffing; otherwise a
`LazyList` or `LazyDict` over the sub-TOC. -/
def materialiseChild : Nat → RCfg → List Byte → Nat → Value → Option RTarget
  | 0, _, _, _, _ => none
  | f + 1, rc, buf, off, toc =>
    match toc with
    | .vint n => if 0 ≤ n then readerNew f rc buf (off + n.toNat) else none
    | .vmap m =>
      match lookupKey m "t" with
      | none =>
        match lookupKey m "p" with
        | none => none
        | some p =>
          match asRange p with
          | some (s, e) =>
            match unpackExact (readSlice buf off s e) with
            | none => none
            | some (.vbytes bs) =>
              if hasMarker bs then (pickleLoads bs).map .tPlain
              else some (.tPlain (.vbytes bs))
            | some data => some (.tPlain data)
          | none => some (.tList off toc)
      | some (.vlist _) => some (.tList off toc)
      | some (.vmap _) => some (.tDict off toc)
      | some _ => none
    | _ => none

/-- `LazyReader.__init__` (`reader.py` lines 469-544) at buffer
position `pos`, returning the root object `self._obj` (to which every
read and `to_obj` on the reader delegates). -/
def readerNew : Nat → RCfg → List Byte → Nat → Option RTarget
  | 0, _, _, _ => none
  | f + 1, rc, buf, pos =>
    let header := sliceL buf pos (pos + 50)
    if header.take 30 ≠ magicBytes then none
    else
      match unpackExact (lstrip0 (sliceL header 30 40)),
          unpackExact (lstrip0 (sliceL header 40 50)) with
      | some (.vint ts), some (.vint sz) =>
        if 0 ≤ ts ∧ 0 ≤ sz then
          match unpackExact
              (readSlice buf (pos + 50) ts.toNat (ts.toNat + sz.toNat)) with
          | some tocVal => materialiseChild f rc buf (pos + 50) tocVal
          | none => none
        else none
      | _, _ => none

/-- `to_obj` on a walk target. -/
def finishTarget : Nat → RCfg → List Byte → RTarget → Option Value
  | 0, _, _, _ => none
  | f + 1, rc, buf, t =>
    match t with
    | .tPlain v => some v
    | .tSeq l => (finishSeq f rc buf l).map .vlist
    | .tList off toc => listToObj f rc buf off toc
    | .tDict off toc => dictToObj f rc buf off toc

def finishSeq : Nat → RCfg → List Byte → List RTarget → Option (List Value)
  | 0, _, _, _ => none
  | _ + 1, _, _, [] => some []
  | f + 1, rc, buf, t :: r =>
    (finishTarget f rc buf t).bind fun v =>
      (finishSeq f rc buf r).map (v :: ·)

/-- `LazyList.to_obj` (`reader.py` lines 331-371). -/
def listToObj : Nat → RCfg → List Byte → Nat → Value → Option Value
  | 0, _, _, _, _ => none
  | f + 1, rc, buf, off, toc =>
    match toc with
    | .vmap m =>
      match lookupKey m "t" with
      | none =>
        match lookupKey m "p" with
        | some (.vlist ps) =>
          match parseTriples ps with
          | some ts => blockToObj rc buf off ts
          | none => none
        | _ => none
      | some (.vlist children) =>
        if rc.cached = false then
          match lookupKey m "p" with
          | none => (readAllElems f rc buf off children).map .vlist
          | some (.vlist []) => (readAllElems f rc buf off children).map .vlist
          | some p =>
            match asRange p with
            | some (s, e) => unpackExact (readSlice buf off s e)
            | none => none
        else if fastFires rc children.length = false then
          (readAllElems f rc buf off children).map .vlist
        else
          match lookupKey m "p" with
          | none => (readAllElems f rc buf off children).map .vlist
          | some (.vlist []) => (readAllElems f rc buf off children).map .vlist
          | some p =>
            match asRange p with
            | some (s, e) => unpackExact (readSlice buf off s e)
            | none => none
      | some _ => none
    | _ => none

/-- `_read_all` of a per-element list: `to_obj(self[index])` for each
child TOC in order. -/
def readAllElems :
    Nat → RCfg → List Byte → Nat → List Value → Option (List Value)
  | 0, _, _, _, _ => none
  | _ + 1, _, _, _, [] => some []
  | f + 1, rc, buf, off, c :: r =>
    ((materialiseChild f rc buf off c).bind (finishTarget f rc buf)).bind
      fun v => (readAllElems f rc buf off r).map (v :: ·)

/-- `LazyDict.to_obj` (`reader.py` lines 444-466). -/
def dictToObj : Nat → RCfg → List Byte → Nat → Value → Option Value
  | 0, _, _, _, _ => none
  | f + 1, rc, buf, off, toc =>
    match toc with
    | .vmap m =>
      match lookupKey m "t" with
      | some (.vmap children) =>
        if rc.cached = false then
          match lookupKey m "p" with
          | none => (readAllEntries f rc buf off children).map .vmap
          | some (.vlist []) =>
            (readAllEntries f rc buf off children).map .vmap
          | some p =>
            match asRange p with
            | some (s, e) => unpackExact (readSlice buf off s e)
            | none => none
        else if fastFires rc children.length
            && (lookupKey m "p").isSome then
          match lookupKey m "p" with
          | some p =>
            match asRange p with
            | some (s, e) => unpackExact (readSlice buf off s e)
            | none => none
          | none => none
        else (readAllEntries f rc buf off children).map .vmap
      | _ => none
    | _ => none

/-- `_read_all` of a dict: `to_obj(self[k])` for every key in order. -/
def readAllEntries :
    Nat → RCfg → List Byte → Nat → List (String × Value) →
      Option (List (String × Value))
  | 0, _, _, _, _ => none
  | _ + 1, _, _, _, [] => some []
  | f + 1, rc, buf, off, (k, c) :: r =>
    ((materialiseChild f rc buf off c).bind (finishTarget f rc buf)).bind
      fun v => (readAllEntries f rc buf off r).map ((k, v) :: ·)

/-- `LazyList.__getitem__` with an integer index (`reader.py` lines
258-310).  The loop normalises the index and fills the cache slot at
the *normalised* position, but the method returns
`self._cache[index]` with the *raw* index — a Python list access that
only succeeds for raw indices in `[-n, n)`.  In block mode
`_lookup_index` diverges for negative (normalised) indices. -/
def lazyListGetInt : Nat → RCfg → List Byte → Nat → Value → Int →
    Option RTarget
  | 0, _, _, _, _, _ => none
  | f + 1, rc, buf, off, toc, i =>
    match toc with
    | .vmap m =>
      match lookupKey m "t" with
      | some (.vlist children) =>
        let n := children.length
        match normaliseIndexF (f + 1) i n with
        | none => none
        | some item =>
          if -(n : Int) ≤ i ∧ i < n then
            match pyGet children item with
            | some ctoc => materialiseChild f rc buf off ctoc
            | none => none
          else none
      | none =>
        match lookupKey m "p" with
        | some (.vlist ps) =>
          match parseTriples ps with
          | some ts =>
            let n := sumCounts ts
            match normaliseIndexF (f + 1) i n with
            | none => none
            | some item =>
              match lookupIndex (sizeList ts) item with
              | none => none
              | some _ =>
                if -(n : Int) ≤ i ∧ i < n then
                  (blockGetAbs buf off ts i.toNat).map .tPlain
                else none
          | none => none
        | _ => none
      | some _ => none
    | _ => none

/-- `LazyList.__getitem__` with a slice: iterate the normalised range
materialising each item, then return the cache slice — a list of the
materialised children in per-element mode, the plain decoded values in
block mode. -/
def lazyListGetSlice : Nat → RCfg → List Byte → Nat → Value →
    Int → Int → Int → Option RTarget
  | 0, _, _, _, _, _, _, _ => none
  | f + 1, rc, buf, off, toc, a, b, st =>
    match toc with
    | .vmap m =>
      match sliceIndices a b st (lazyListLen toc) with
      | none => none
      | some (a2, b2, st2) =>
        let idxs := rangeList a2 b2 st2
        match lookupKey m "t" with
        | some (.vlist children) =>
          (materialiseAt f rc buf off children idxs).map .tSeq
        | none =>
          match lookupKey m "p" with
          | some (.vlist ps) =>
            match parseTriples ps with
            | some ts =>
              (idxs.mapM fun j =>
                if 0 ≤ j then blockGetAbs buf off ts j.toNat
                else none).map (fun vs => .tPlain (.vlist vs))
            | none => none
          | _ => none
        | some _ => none
    | _ => none

/-- Materialisation of the children at the given python positions. -/
def materialiseAt : Nat → RCfg → List Byte → Nat → List Value →
    List Int → Option (List RTarget)
  | 0, _, _, _, _, _ => none
  | _ + 1, _, _, _, _, [] => some []
  | f + 1, rc, buf, off, children, j :: r =>
    ((pyGet children j).bind (materialiseChild f rc buf off)).bind fun t =>
      (materialiseAt f rc buf off children r).map (t :: ·)

/-- One step of `LazyReader.read`'s walk (`reader.py` lines 626-633):
apply `to_index` for string segments against list-like targets, then
index the target. -/
def stepTarget : Nat → RCfg → List Byte → RTarget → String → Option RTarget
  | 0, _, _, _, _ => none
  | f + 1, rc, buf, t, seg =>
    match t with
    | .tPlain v =>
      match v with
      | .vmap m => (lookupKey m seg).map .tPlain
      | .vlist l =>
        match toIndexF (f + 1) seg l.length with
        | none => none
        | some (.idx i) => (pyGet l i).map .tPlain
        | some (.slice a b st) =>
          match sliceIndices a b st l.length with
          | none => none
          | some (a2, b2, st2) =>
            (selectIdxs l (rangeList a2 b2 st2)).map
              (fun vs => .tPlain (.vlist vs))
        | some (.keyStr _) => none
      | _ => none
    | .tSeq l =>
      match toIndexF (f + 1) seg l.length with
      | none => none
      | some (.idx i) => pyGet l i
      | some (.slice a b st) =>
        match sliceIndices a b st l.length with
        | none => none
        | some (a2, b2, st2) =>
          (selectIdxs l (rangeList a2 b2 st2)).map .tSeq
      | some (.keyStr _) => none
    | .tList off toc =>
      match toIndexF (f + 1) seg (lazyListLen toc) with
      | none => none
      | some (.idx i) => lazyListGetInt f rc buf off toc i
      | some (.slice a b st) => lazyListGetSlice f rc buf off toc a b st
      | some (.keyStr _) => none
    | .tDict off toc =>
      match toc with
      | .vmap m =>
        match lookupKey m "t" with
        | some (.vmap children) =>
          (lookupKey children seg).bind (materialiseChild f rc buf off)
        | _ => none
      | _ => none

end

/-- The walk of `LazyReader.read` over pre-split path segments (empty
segments are skipped before stepping). -/
def walkSegs (f : Nat) (rc : RCfg) (buf : List Byte) :
    RTarget → List String → Option RTarget
  | t, [] => some t
  | t, seg :: rest =>
    if seg = "" then walkSegs f rc buf t rest
    else (stepTarget f rc buf t seg).bind fun t2 => walkSegs f rc buf t2 rest

/-- `LazyReader(...).read(path)` followed by full materialisation of
the result (Python `==` compares targets through `to_obj`). -/
def readSegs (f : Nat) (rc : RCfg) (buf : List Byte) (pos : Nat)
    (path : List String) : Option Value :=
  (readerNew f rc buf pos).bind fun root =>
    (walkSegs f rc buf root path).bind (finishTarget f rc buf)

/-- `LazyReader(...).to_obj()`. -/
def fileToObj (f : Nat) (rc : RCfg) (buf : List Byte) (pos : Nat) :
    Option Value :=
  (readerNew f rc buf pos).bind (finishTarget f rc buf)

/-! ## The bytes a writer produces -/

/-- The contents of a fresh in-memory buffer after
`with LazyWriter(buf) as w: w.write(obj)`. -/
def writerOutput (cfg : WConfig) (obj : PyObj) : List Byte :=
  ((writerWrite cfg (writerEnter ⟨[], 0⟩) obj).2).buffer.data

theorem bufWrite_append (d : List Byte) (bs : List Byte) :
    bufWrite ⟨d, d.length⟩ bs = ⟨d ++ bs, d.length + bs.length⟩ := by
  unfold bufWrite
  dsimp only
  rw [List.take_length, List.drop_eq_nil_of_le (by omega), List.append_nil]

theorem bufWrite_over (A C bs : List Byte) :
    bufWrite ⟨A ++ C, A.length⟩ bs
      = ⟨A ++ bs ++ C.drop bs.length, A.length + bs.length⟩ := by
  unfold bufWrite
  dsimp only
  rw [List.take_left, List.drop_append, List.append_assoc]

/-- The header slot encoding of a non-negative integer occupies exactly
10 bytes. -/
theorem header10_length (k : Nat) :
    (rjust (packValue (.vint k)) 10).length = 10 := by
  apply rjust_length
  simp [packValue]

/-- Closed form of the writer output: magic, the two padded header
slots (patched in last), the payload, the packed TOC. -/
theorem writerOutput_eq (cfg : WConfig) (obj : PyObj) :
    writerOutput cfg obj
      = magicBytes
        ++ rjust (packValue (.vint ((tocPack cfg obj 0).2.length))) 10
        ++ rjust (packValue (.vint
            ((packValue (nodeToValue (tocPack cfg obj 0).1)).length))) 10
        ++ (tocPack cfg obj 0).2
        ++ packValue (nodeToValue (tocPack cfg obj 0).1) := by
  unfold writerOutput writerWrite writerEnter
  dsimp only
  have e0 : bufWrite ⟨[], 0⟩ magicBytes = ⟨magicBytes, 30⟩ := by
    have h := bufWrite_append [] magicBytes
    simpa [magicBytes_length] using h
  rw [e0]
  have e1 : bufWrite ⟨magicBytes, 30⟩ (List.replicate 20 0)
      = ⟨magicBytes ++ List.replicate 20 0, 50⟩ := by
    have h := bufWrite_append magicBytes (List.replicate 20 0)
    simpa [magicBytes_length] using h
  rw [e1]
  dsimp only
  rw [if_neg (by exact Bool.false_ne_true)]
  dsimp only
  set P := (tocPack cfg obj 0).2 with hP
  set T := packValue (nodeToValue (tocPack cfg obj 0).1) with hT
  have e2 : bufWrite ⟨magicBytes ++ List.replicate 20 0, 50⟩ P
      = ⟨(magicBytes ++ List.replicate 20 0) ++ P, 50 + P.length⟩ := by
    have h := bufWrite_append (magicBytes ++ List.replicate 20 0) P
    simpa [magicBytes_length] using h
  rw [e2]
  dsimp only
  rw [show 50 + P.length - 50 = P.length from by omega]
  have e3 : bufWrite ⟨(magicBytes ++ List.replicate 20 0) ++ P,
        50 + P.length⟩ T
      = ⟨((magicBytes ++ List.replicate 20 0) ++ P) ++ T,
          (50 + P.length) + T.length⟩ := by
    have h := bufWrite_append ((magicBytes ++ List.replicate 20 0) ++ P) T
    have hl : ((magicBytes ++ List.replicate 20 0) ++ P).length
        = 50 + P.length := by
      simp [magicBytes_length]
      omega
    rw [hl] at h
    exact h
  rw [e3]
  unfold bufSeek
  dsimp only
  have hsplit : ((magicBytes ++ List.replicate 20 0) ++ P) ++ T
      = magicBytes ++ (List.replicate 20 0 ++ (P ++ T)) := by
    simp [List.append_assoc]
  have e4 : bufWrite ⟨((magicBytes ++ List.replicate 20 0) ++ P) ++ T, 30⟩
        (rjust (packValue (.vint P.length)) 10)
      = ⟨magicBytes ++ rjust (packValue (.vint P.length)) 10
          ++ (List.replicate 20 0 ++ (P ++ T)).drop 10,
          30 + 10⟩ := by
    rw [hsplit]
    have h := bufWrite_over magicBytes (List.replicate 20 0 ++ (P ++ T))
      (rjust (packValue (.vint P.length)) 10)
    rw [magicBytes_length, header10_length] at h
    exact h
  rw [e4]
  have hdrop : (List.replicate 20 0 ++ (P ++ T)).drop 10
      = List.replicate 10 0 ++ (P ++ T) := by
    rw [show (List.replicate 20 (0 : Byte))
        = List.replicate 10 0 ++ List.replicate 10 0 from by
      rw [← List.replicate_add]]
    rw [List.append_assoc]
    rw [show (10 : Nat) = (List.replicate 10 (0 : Byte)).length from by simp]
    exact List.drop_left _ _
  rw [hdrop]
  have hsplit2 : magicBytes ++ rjust (packValue (.vint P.length)) 10
        ++ (List.replicate 10 0 ++ (P ++ T))
      = (magicBytes ++ rjust (packValue (.vint P.length)) 10)
        ++ (List.replicate 10 0 ++ (P ++ T)) := by
    simp [List.append_assoc]
  have e5 : bufWrite ⟨magicBytes ++ rjust (packValue (.vint P.length)) 10
        ++ (List.replicate 10 0 ++ (P ++ T)), 30 + 10⟩
        (rjust (packValue (.vint T.length)) 10)
      = ⟨(magicBytes ++ rjust (packValue (.vint P.length)) 10)
          ++ rjust (packValue (.vint T.length)) 10
          ++ (List.replicate 10 0 ++ (P ++ T)).drop 10,
          (30 + 10) + 10⟩ := by
    rw [hsplit2]
    have h := bufWrite_over
      (magicBytes ++ rjust (packValue (.vint P.length)) 10)
      (List.replicate 10 0 ++ (P ++ T))
      (rjust (packValue (.vint T.length)) 10)
    rw [header10_length] at h
    have hl : (magicBytes ++ rjust (packValue (.vint P.length)) 10).length
        = 30 + 10 := by
      simp [magicBytes_length, header10_length]
    rw [hl] at h
    exact h
  rw [e5]
  dsimp only
  have hdrop2 : (List.replicate 10 0 ++ (P ++ T)).drop 10 = P ++ T := by
    rw [show (10 : Nat) = (List.replicate 10 (0 : Byte)).length from by simp]
    exact List.drop_left _ _
  rw [hdrop2]
  simp [List.append_assoc]

/-! ## Block-mode reading -/

/-- The semantic link between a block list and the logical list it
stores: each `(count, start, end)` block stream-decodes to `count`
values, and the concatenation of the segments is the list. -/
inductive BlocksDecode (buf : List Byte) (off : Nat) :
    List (Nat × Nat × Nat) → List Value → Prop where
  | nil : BlocksDecode buf off [] []
  | cons : ∀ (c s e : Nat) (ts : List (Nat × Nat × Nat)) (seg L : List Value),
      decodeAll (readSlice buf off s e) = some seg → seg.length = c →
      BlocksDecode buf off ts L →
      BlocksDecode buf off ((c, s, e) :: ts) (seg ++ L)

theorem blocksDecode_sumCounts (buf : List Byte) (off : Nat)
    (ts : List (Nat × Nat × Nat)) (L : List Value)
    (h : BlocksDecode buf off ts L) : sumCounts ts = L.length := by
  induction h with
  | nil => rfl
  | cons c s e ts seg L hdec hlen _ ih =>
    simp only [sumCounts, List.map_cons, List.sum_cons, List.length_append]
    simp only [sumCounts] at ih
    omega

theorem blocksDecode_concat (buf : List Byte) (off : Nat)
    (ts : List (Nat × Nat × Nat)) (L : List Value)
    (h : BlocksDecode buf off ts L) : concatBlocks buf off ts = some L := by
  induction h with
  | nil => rfl
  | cons c s e ts seg L hdec hlen _ ih =>
    simp only [concatBlocks, hdec, ih, Option.bind_some]
    rfl

/-- `sizeList` entry access: the k-th prefix sum. -/
def prefixCount (ts : List (Nat × Nat × Nat)) (k : Nat) : Nat :=
  sumCounts (ts.take k)

theorem sizeList_length (ts : List (Nat × Nat × Nat)) :
    (sizeList ts).length = ts.length + 1 := by
  suffices h : ∀ acc, (sizeListGo ts acc).length = ts.length by
    simp [sizeList, h]
  induction ts with
  | nil => intro acc; rfl
  | cons t r ih => intro acc; simp [sizeListGo, ih]

theorem sizeListGo_get (ts : List (Nat × Nat × Nat)) :
    ∀ (acc k : Nat), k < ts.length →
      (sizeListGo ts acc).get? k = some (acc + sumCounts (ts.take (k + 1))) := by
  induction ts with
  | nil => intro acc k h; simp at h
  | cons t r ih =>
    intro acc k h
    cases k with
    | zero => simp [sizeListGo, sumCounts]
    | succ k2 =>
      simp only [sizeListGo, List.get?_cons_succ]
      rw [ih (acc + t.1) k2 (by simpa using h)]
      simp only [List.take_succ_cons, sumCounts, List.map_cons, List.sum_cons]
      congr 1
      omega

theorem sizeList_get (ts : List (Nat × Nat × Nat)) (k : Nat)
    (h : k ≤ ts.length) : (sizeList ts).get? k = some (prefixCount ts k) := by
  cases k with
  | zero => simp [sizeList, prefixCount, sumCounts]
  | succ k2 =>
    simp only [sizeList, List.get?_cons_succ]
    rw [sizeListGo_get ts 0 k2 (by omega)]
    simp [prefixCount]

theorem prefixCount_succ (ts : List (Nat × Nat × Nat)) (k : Nat)
    (hk : k < ts.length) (t : Nat × Nat × Nat) (ht : ts.get? k = some t) :
    prefixCount ts (k + 1) = prefixCount ts k + t.1 := by
  unfold prefixCount
  rw [List.take_succ]
  have ht2 : ts[k]? = some t := by
    rw [← List.get?_eq_getElem?]
    exact ht
  rw [ht2]
  simp [sumCounts]

theorem prefixCount_mono (ts : List (Nat × Nat × Nat)) :
    ∀ j k, j ≤ k → prefixCount ts j ≤ prefixCount ts k := by
  intro j k hjk
  unfold prefixCount sumCounts
  induction ts generalizing j k with
  | nil => simp
  | cons t r ih =>
    cases j with
    | zero => simp [sumCounts]
    | succ j2 =>
      cases k with
      | zero => omega
      | succ k2 =>
        simp only [List.take_succ_cons, List.map_cons, List.sum_cons]
        have := ih j2 k2 (by omega)
        omega

/-- Correctness of the `_lookup_index` binary search: with the
invariant `sl[low] ≤ i < sl[high]` and enough fuel, it finds a block
`k ∈ [low, high)` whose prefix range contains `i`. -/
theorem lookupIndexF_correct (sl : List Nat) :
    ∀ (fuel low high : Nat) (i : Int),
      low < high → high < sl.length →
      (∀ a, sl.get? low = some a → (a : Int) ≤ i) →
      (∀ b, sl.get? high = some b → i < (b : Int)) →
      high - low < fuel →
      ∃ k, lookupIndexF sl fuel low high i = some k ∧ low ≤ k ∧ k < high
        ∧ (∀ a, sl.get? k = some a → (a : Int) ≤ i)
        ∧ (∀ b, sl.get? (k + 1) = some b → i < (b : Int)) := by
  intro fuel
  induction fuel with
  | zero => intro low high i h1 h2 h3 h4 h5; omega
  | succ f ih =>
    intro low high i hlh hhs hlow hhigh hfuel
    have hmidlt : (low + high) / 2 < sl.length := by omega
    have hmid1lt : (low + high) / 2 + 1 ≤ high := by omega
    obtain ⟨a, ha⟩ : ∃ a, sl.get? ((low + high) / 2) = some a :=
      ⟨_, List.get?_eq_get hmidlt⟩
    obtain ⟨b, hb⟩ : ∃ b, sl.get? ((low + high) / 2 + 1) = some b :=
      ⟨_, List.get?_eq_get (by omega)⟩
    simp only [lookupIndexF, ha, hb]
    by_cases hfound : (a : Int) ≤ i ∧ i < (b : Int)
    · rw [if_pos hfound]
      refine ⟨(low + high) / 2, rfl, by omega, by omega, ?_, ?_⟩
      · intro x hx; rw [ha] at hx; cases hx; exact hfound.1
      · intro y hy; rw [hb] at hy; cases hy; exact hfound.2
    · rw [if_neg hfound]
      by_cases hlt : i < (a : Int)
      · rw [if_pos hlt]
        have hmidgt : low < (low + high) / 2 := by
          rcases Nat.lt_or_ge low ((low + high) / 2) with h | h
          · exact h
          · exfalso
            have : (low + high) / 2 = low := by omega
            rw [this] at ha
            have := hlow a ha
            omega
        have := ih low ((low + high) / 2) i hmidgt (by omega) hlow
          (fun x hx => by rw [ha] at hx; cases hx; exact hlt) (by omega)
        obtain ⟨k, hk, h6, h7, h8, h9⟩ := this
        exact ⟨k, hk, h6, by omega, h8, h9⟩
      · rw [if_neg hlt]
        push_neg at hfound hlt
        have hbi : (b : Int) ≤ i := hfound hlt
        have hmidhigh : (low + high) / 2 + 1 < high := by
          rcases Nat.lt_or_ge ((low + high) / 2 + 1) high with h | h
          · exact h
          · exfalso
            have : (low + high) / 2 + 1 = high := by omega
            rw [this] at hb
            have := hhigh b hb
            omega
        have := ih ((low + high) / 2) high i (by omega) hhs
          (fun x hx => by rw [ha] at hx; cases hx; exact hlt) hhigh (by omega)
        obtain ⟨k, hk, h6, h7, h8, h9⟩ := this
        exact ⟨k, hk, by omega, h7, h8, h9⟩

/-- `_lookup_index` finds the unique covering block for every logical
index in range. -/
theorem lookupIndex_correct (ts : List (Nat × Nat × Nat)) (i : Nat)
    (hi : i < sumCounts ts) :
    ∃ k, lookupIndex (sizeList ts) (i : Int) = some k ∧ k < ts.length
      ∧ prefixCount ts k ≤ i ∧ i < prefixCount ts (k + 1) := by
  have hlen := sizeList_length ts
  have hts : 0 < ts.length := by
    rcases ts with _ | ⟨t, r⟩
    · simp [sumCounts] at hi
    · simp
  have h0 : (sizeList ts).get? 0 = some (prefixCount ts 0) :=
    sizeList_get ts 0 (by omega)
  have hN : (sizeList ts).get? ts.length = some (prefixCount ts ts.length) :=
    sizeList_get ts ts.length le_rfl
  have hfull : prefixCount ts ts.length = sumCounts ts := by
    unfold prefixCount
    rw [List.take_length]
  have := lookupIndexF_correct (sizeList ts) (ts.length + 2) 0
    (ts.length) (i : Int) hts (by omega)
    (fun a ha => by
      rw [h0] at ha; cases ha
      simp [prefixCount, sumCounts])
    (fun b hb => by
      rw [hN] at hb; cases hb
      rw [hfull]
      exact_mod_cast hi)
    (by omega)
  obtain ⟨k, hk, h6, h7, h8, h9⟩ := this
  have hk2 : lookupIndex (sizeList ts) (i : Int) = some k := by
    unfold lookupIndex
    rw [hlen]
    rw [show ts.length + 1 + 1 = ts.length + 2 from rfl,
      show ts.length + 1 - 1 = ts.length from by omega]
    exact hk
  refine ⟨k, hk2, by omega, ?_, ?_⟩
  · have := h8 (prefixCount ts k) (sizeList_get ts k (by omega))
    exact_mod_cast this
  · have := h9 (prefixCount ts (k + 1)) (sizeList_get ts (k + 1) (by omega))
    exact_mod_cast this

theorem blocksDecode_block_get (buf : List Byte) (off : Nat) :
    ∀ (ts : List (Nat × Nat × Nat)) (L : List Value),
      BlocksDecode buf off ts L →
      ∀ (k c s e : Nat), ts.get? k = some (c, s, e) →
        ∃ seg, decodeAll (readSlice buf off s e) = some seg ∧ seg.length = c
          ∧ ∀ d, d < c → seg.get? d = L.get? (prefixCount ts k + d) := by
  intro ts L h
  induction h with
  | nil => intro k c s e hk; simp at hk
  | cons c0 s0 e0 ts2 seg L2 hdec hlen h2 ih =>
    intro k c s e hk
    cases k with
    | zero =>
      rw [List.get?_cons_zero] at hk
      cases hk
      refine ⟨seg, hdec, hlen, ?_⟩
      intro d hd
      have hd2 : d < seg.length := by omega
      have hz : ∀ (t : List (Nat × Nat × Nat)) (x : Nat),
          prefixCount t 0 + x = x := by
        intro t x; simp [prefixCount, sumCounts]
      rw [hz]
      rw [List.get?_append hd2]
    | succ k2 =>
      rw [List.get?_cons_succ] at hk
      obtain ⟨seg2, hh1, hh2, hh3⟩ := ih k2 c s e hk
      refine ⟨seg2, hh1, hh2, ?_⟩
      intro d hd
      rw [hh3 d hd]
      have hpc : prefixCount ((c0, s0, e0) :: ts2) (k2 + 1)
          = c0 + prefixCount ts2 k2 := by
        simp [prefixCount, sumCounts]
      rw [hpc]
      rw [show c0 + prefixCount ts2 k2 + d
          = seg.length + (prefixCount ts2 k2 + d) from by omega]
      rw [List.get?_append_right (by omega)]
      congr 1
      omega

theorem blockGetAbs_correct (buf : List Byte) (off : Nat)
    (ts : List (Nat × Nat × Nat)) (L : List Value)
    (h : BlocksDecode buf off ts L) (i : Nat) (hi : i < L.length) :
    blockGetAbs buf off ts i = L.get? i := by
  have hsum := blocksDecode_sumCounts buf off ts L h
  obtain ⟨k, hk, hklen, hle, hlt⟩ := lookupIndex_correct ts i (by omega)
  obtain ⟨c, s, e, hts⟩ : ∃ c s e, ts.get? k = some (c, s, e) := by
    obtain ⟨t, ht⟩ : ∃ t, ts.get? k = some t := ⟨_, List.get?_eq_get hklen⟩
    exact ⟨t.1, t.2.1, t.2.2, by rw [ht]⟩
  obtain ⟨seg, hdec, hlen, hget⟩ := blocksDecode_block_get buf off ts L h
    k c s e hts
  unfold blockGetAbs
  rw [hk, Option.some_bind]
  rw [hts]
  dsimp only
  rw [hdec, Option.some_bind]
  have hszget : (sizeList ts).getD k 0 = prefixCount ts k := by
    unfold List.getD
    rw [sizeList_get ts k (by omega)]
    rfl
  rw [hszget]
  have hlt2 : i - prefixCount ts k < c := by
    have := prefixCount_succ ts k hklen (c, s, e) hts
    omega
  rw [hget (i - prefixCount ts k) hlt2]
  congr 1
  omega

theorem mapM_range2 (g : Nat → Option α) :
    ∀ (L : List α) (s : Nat),
      (∀ i, i < L.length → g (s + i) = L.get? i) →
      (List.range' s L.length).mapM g = some L := by
  intro L
  induction L with
  | nil => intro s _; rfl
  | cons a r ih =>
    intro s hg
    have h0 : g s = some a := by
      have := hg 0 (by simp)
      simpa using this
    have hrec : (List.range' (s + 1) r.length).mapM g = some r := by
      apply ih
      intro i hi
      have := hg (i + 1) (by simp; omega)
      rw [show s + (i + 1) = s + 1 + i from by omega] at this
      simpa using this
    rw [List.length_cons, List.range'_succ, List.mapM_cons, h0, hrec]
    rfl

theorem concatBlocks_correct (buf : List Byte) (off : Nat) :
    ∀ (ts : List (Nat × Nat × Nat)) (L : List Value),
      BlocksDecode buf off ts L → concatBlocks buf off ts = some L := by
  intro ts L h
  induction h with
  | nil => rfl
  | cons c s e ts2 seg L2 hdec hlen h2 ih =>
    unfold concatBlocks
    rw [hdec, Option.some_bind, ih]
    rfl

theorem blockReadAll_correct (buf : List Byte) (off : Nat)
    (ts : List (Nat × Nat × Nat)) (L : List Value)
    (h : BlocksDecode buf off ts L) : blockReadAll buf off ts = some L := by
  unfold blockReadAll
  rw [blocksDecode_sumCounts buf off ts L h, List.range_eq_range']
  exact mapM_range2 _ L 0 (fun i hi => by
    rw [Nat.zero_add]; exact blockGetAbs_correct buf off ts L h i hi)

theorem blockToObj_correct (rc : RCfg) (buf : List Byte) (off : Nat)
    (ts : List (Nat × Nat × Nat)) (L : List Value)
    (h : BlocksDecode buf off ts L) :
    blockToObj rc buf off ts = some (.vlist L) := by
  unfold blockToObj
  by_cases h1 : rc.cached = false
  · rw [if_pos h1, concatBlocks_correct buf off ts L h]; rfl
  · rw [if_neg h1]
    by_cases h2 : fastFires rc (sumCounts ts) = false
    · rw [if_pos h2, blockReadAll_correct buf off ts L h]; rfl
    · rw [if_neg h2, concatBlocks_correct buf off ts L h]; rfl

theorem lookupIndex_unique (ts : List (Nat × Nat × Nat)) (i k k2 : Nat)
    (hk1 : prefixCount ts k ≤ i) (hk2 : i < prefixCount ts (k + 1))
    (hj1 : prefixCount ts k2 ≤ i) (hj2 : i < prefixCount ts (k2 + 1)) :
    k2 = k := by
  by_contra hne
  rcases Nat.lt_or_ge k2 k with hlt | hge
  · have := prefixCount_mono ts (k2 + 1) k (by omega)
    omega
  · have := prefixCount_mono ts (k + 1) k2 (by omega)
    omega

/-- C2: for a list `L` whose TOC node is in block-group form (key `p`
holding `[count, start, end]` triples, key `t` absent, each block
stream-decoding to its count of elements and the segments joining to
`L`), the `LazyList` built over it satisfies: its `len` is the sum of
the counts, i.e. `L.length`; `__getitem__ i` returns `L[i]` for every
`i ∈ [0, len L)`; `to_obj` returns a list equal to `L` under every
combination of the `cached`/`fast_loading` flags; and the binary-search
block lookup returns, for each such `i`, the unique block `k` with
`prefix[k] ≤ i < prefix[k+1]`. -/
theorem c2_block_mode_equivalence (f : Nat) (rc : RCfg) (buf : List Byte)
    (off : Nat) (m : List (String × Value)) (ps : List Value)
    (ts : List (Nat × Nat × Nat)) (L : List Value)
    (ht : lookupKey m "t" = none)
    (hp : lookupKey m "p" = some (.vlist ps))
    (hts : parseTriples ps = some ts)
    (h : BlocksDecode buf off ts L) :
    lazyListLen (.vmap m) = L.length
    ∧ (∀ i : Nat, i < L.length →
        lazyListGetInt (f + 1) rc buf off (.vmap m) (i : Int)
          = (L.get? i).map .tPlain)
    ∧ listToObj (f + 1) rc buf off (.vmap m) = some (.vlist L)
    ∧ (∀ i : Nat, i < L.length →
        ∃ k, lookupIndex (sizeList ts) (i : Int) = some k
          ∧ k < ts.length ∧ prefixCount ts k ≤ i ∧ i < prefixCount ts (k + 1)
          ∧ ∀ k2, prefixCount ts k2 ≤ i → i < prefixCount ts (k2 + 1) →
              k2 = k) := by
  have hn : sumCounts ts = L.length := blocksDecode_sumCounts buf off ts L h
  refine ⟨?_, ?_, ?_, ?_⟩
  · unfold lazyListLen
    dsimp only
    rw [ht]
    dsimp only
    rw [hp]
    dsimp only
    rw [hts]
    exact hn
  · intro i hi
    obtain ⟨k, hk, hklen, hle, hlt⟩ := lookupIndex_correct ts i (by omega)
    rw [lazyListGetInt]
    rw [ht]
    dsimp only
    rw [hp]
    dsimp only
    rw [hts]
    dsimp only
    have hnorm : normaliseIndexF (f + 1) (i : Int) (sumCounts ts)
        = some (i : Int) :=
      normaliseIndexF_id _ _ _ (by omega) (by omega) (by omega)
    rw [hnorm]
    dsimp only
    rw [hk]
    dsimp only
    rw [if_pos ⟨by omega, by omega⟩]
    rw [show ((i : Int)).toNat = i from Int.toNat_natCast i]
    rw [blockGetAbs_correct buf off ts L h i hi]
  · rw [listToObj]
    rw [ht]
    dsimp only
    rw [hp]
    dsimp only
    rw [hts]
    dsimp only
    exact blockToObj_correct rc buf off ts L h
  · intro i hi
    obtain ⟨k, hk, hklen, hle, hlt⟩ := lookupIndex_correct ts i (by omega)
    exact ⟨k, hk, hklen, hle, hlt, fun k2 hj1 hj2 =>
      lookupIndex_unique ts i k k2 hle hlt hj1 hj2⟩

/-- Witness for C2: the three-element list `[0, 1, 2]` stored as two
blocks of counts 2 and 1 over the six payload bytes. -/
theorem c2_block_mode_equivalence_witness :
    lazyListLen (.vmap [("p", .vlist [.vlist [.vint 2, .vint 0, .vint 4],
        .vlist [.vint 1, .vint 4, .vint 6]])]) = 3
    ∧ lazyListGetInt 1 ⟨true, false, 1⟩ [2, 0, 2, 2, 2, 4] 0
        (.vmap [("p", .vlist [.vlist [.vint 2, .vint 0, .vint 4],
          .vlist [.vint 1, .vint 4, .vint 6]])]) 2
        = some (.tPlain (.vint 2))
    ∧ listToObj 1 ⟨true, false, 1⟩ [2, 0, 2, 2, 2, 4] 0
        (.vmap [("p", .vlist [.vlist [.vint 2, .vint 0, .vint 4],
          .vlist [.vint 1, .vint 4, .vint 6]])])
        = some (.vlist [.vint 0, .vint 1, .vint 2])
    ∧ lookupIndex (sizeList [(2, 0, 4), (1, 4, 6)]) 2 = some 1 := by
  have hd1 : decodeAll (readSlice [2, 0, 2, 2, 2, 4] 0 0 4)
      = some [.vint 0, .vint 1] := by
    simp [decodeAll, readSlice, sliceL, decodeAllF, unpackOneF, intDecode]
  have hd2 : decodeAll (readSlice [2, 0, 2, 2, 2, 4] 0 4 6)
      = some [.vint 2] := by
    simp [decodeAll, readSlice, sliceL, decodeAllF, unpackOneF, intDecode]
  have hbd : BlocksDecode [2, 0, 2, 2, 2, 4] 0 [(2, 0, 4), (1, 4, 6)]
      [.vint 0, .vint 1, .vint 2] :=
    BlocksDecode.cons 2 0 4 _ [.vint 0, .vint 1] [.vint 2] hd1 rfl
      (BlocksDecode.cons 1 4 6 _ [.vint 2] [] hd2 rfl BlocksDecode.nil)
  obtain ⟨h1, h2, h3, h4⟩ := c2_block_mode_equivalence 0 ⟨true, false, 1⟩
    [2, 0, 2, 2, 2, 4] 0
    [("p", .vlist [.vlist [.vint 2, .vint 0, .vint 4],
      .vlist [.vint 1, .vint 4, .vint 6]])]
    [.vlist [.vint 2, .vint 0, .vint 4], .vlist [.vint 1, .vint 4, .vint 6]]
    [(2, 0, 4), (1, 4, 6)] [.vint 0, .vint 1, .vint 2] rfl rfl rfl hbd
  obtain ⟨k, hk, hklen, hle, hlt, huniq⟩ := h4 2 (by simp)
  have hk1 : (1 : Nat) = k := huniq 1 (by decide) (by decide)
  refine ⟨by simpa using h1, ?_, h3, ?_⟩
  · have := h2 2 (by simp)
    simpa using this
  · rw [← hk1] at hk
    exact hk

/-- C3: the claim does not hold — wrap-around normalisation itself
terminates and lands in `[-n, n)`, and the cache slot at the normalised
position is filled, but `__getitem__` then returns `self._cache[index]`
with the RAW index (reader.py line 310), a Python list access that
raises `IndexError` for any raw index outside `[-n, n)`.  For the
two-element list `[7, 8]` and the spec's own example `k = -2*n - 2 =
-6`: the getter errors for every fuel, even though `normalise_index(-6,
2)` returns `-2` and `children[-2]` exists. -/
theorem c3_raw_index_not_normalised :
    (∀ (f : Nat) (rc : RCfg) (buf : List Byte) (off : Nat),
      lazyListGetInt f rc buf off
        (.vmap [("t", .vlist [.vint 7, .vint 8])]) (-6) = none)
    ∧ normaliseIndexF 9 (-6) 2 = some (-2)
    ∧ pyGet [Value.vint 7, Value.vint 8] (-2) = some (.vint 7) := by
  refine ⟨?_, rfl, rfl⟩
  intro f rc buf off
  cases f with
  | zero => rfl
  | succ g =>
    rw [lazyListGetInt]
    dsimp only
    rw [show lookupKey [("t", Value.vlist [.vint 7, .vint 8])] "t"
        = some (.vlist [.vint 7, .vint 8]) from rfl]
    dsimp only
    cases hni : normaliseIndexF (g + 1) (-6 : Int)
        (List.length [Value.vint 7, Value.vint 8]) with
    | none => rfl
    | some item =>
      dsimp only
      rw [if_neg (by decide)]

theorem sliceL_glue (l : List Byte) (x y z : Nat) (h1 : x ≤ y) (h2 : y ≤ z) :
    sliceL l x y ++ sliceL l y z = sliceL l x z := by
  unfold sliceL
  rw [show l.drop y = (l.drop x).drop (y - x) by
    rw [List.drop_drop]; congr 1; omega]
  rw [show z - y = (z - x) - (y - x) by omega]
  rw [← List.take_add]
  congr 1
  omega

theorem sliceL_initial (x y : List Byte) : sliceL (x ++ y) 0 x.length = x := by
  unfold sliceL
  rw [List.drop_zero, Nat.sub_zero, List.take_left]

theorem contiguousNodes_getLastD :
    ∀ (rest : List Node) (a : Node) (s e : Nat),
      contiguousNodes (a :: rest) s e → pHi (List.getLastD rest a) = e
  | [], a, s, e, h => by
    simpa [contiguousNodes] using h.2
  | b :: r, a, s, e, h => by
    rw [List.getLastD_cons]
    exact contiguousNodes_getLastD r b (pHi a) e h.2

/-- Per-sibling window facts: each sibling node's byte range holds
exactly the encoding of its logical value. -/
inductive NodeVals (buf : List Byte) (off : Nat) :
    List Node → List Value → Prop where
  | nil : NodeVals buf off [] []
  | cons : ∀ (n : Node) (v : Value) (r : List Node) (vs : List Value),
      pLo n ≤ pHi n →
      sliceL buf (off + pLo n) (off + pHi n) = packValue v →
      NodeVals buf off r vs → NodeVals buf off (n :: r) (v :: vs)

theorem nodeVals_length (buf : List Byte) (off : Nat) :
    ∀ (ns : List Node) (vals : List Value),
      NodeVals buf off ns vals → ns.length = vals.length := by
  intro ns vals h
  induction h with
  | nil => rfl
  | cons n v r vs _ _ _ ih => simpa using ih

theorem nodeVals_append (buf : List Byte) (off : Nat) :
    ∀ (ns1 : List Node) (vals1 : List Value) (ns2 : List Node)
      (vals2 : List Value),
      NodeVals buf off ns1 vals1 → NodeVals buf off ns2 vals2 →
      NodeVals buf off (ns1 ++ ns2) (vals1 ++ vals2) := by
  intro ns1 vals1 ns2 vals2 h1 h2
  induction h1 with
  | nil => simpa using h2
  | cons n v r vs hle hw _ ih => exact NodeVals.cons n v _ _ hle hw ih

/-- A contiguous run of siblings with per-sibling windows gives the
whole span's bytes: the back-to-back concatenation of the packed
values. -/
theorem nodeVals_slice (buf : List Byte) (off : Nat) :
    ∀ (ns : List Node) (vals : List Value) (s e : Nat),
      NodeVals buf off ns vals → contiguousNodes ns s e →
      s ≤ e ∧ sliceL buf (off + s) (off + e) = packSeq vals := by
  intro ns vals s e h
  induction h generalizing s with
  | nil =>
    intro hc
    simp only [contiguousNodes] at hc
    subst hc
    exact ⟨le_rfl, by simp [sliceL, packSeq]⟩
  | cons n v r vs hle hw _ ih =>
    intro hc
    obtain ⟨hlo, hcr⟩ := hc
    obtain ⟨hse, hsl⟩ := ih (pHi n) hcr
    refine ⟨by omega, ?_⟩
    rw [← sliceL_glue buf (off + s) (off + pHi n) (off + e) (by omega)
      (by omega)]
    rw [show off + s = off + pLo n from by omega]
    rw [hw, hsl]
    simp only [packSeq]

theorem asRange_nat (a b : Nat) :
    asRange (.vlist [.vint (a : Int), .vint (b : Int)]) = some (a, b) := by
  simp only [asRange]
  rw [if_pos ⟨by omega, by omega⟩]
  rw [Int.toNat_natCast, Int.toNat_natCast]

theorem asRange_map_triples (gs : List (Nat × Nat × Nat)) :
    asRange (.vlist (gs.map fun t =>
        Value.vlist [.vint (t.1 : Int), .vint (t.2.1 : Int),
          .vint (t.2.2 : Int)])) = none := by
  rcases gs with _ | ⟨g1, _ | ⟨g2, r⟩⟩ <;> rfl

theorem parseTriples_map (gs : List (Nat × Nat × Nat)) :
    parseTriples (gs.map fun t =>
        Value.vlist [.vint (t.1 : Int), .vint (t.2.1 : Int),
          .vint (t.2.2 : Int)]) = some gs := by
  induction gs with
  | nil => rfl
  | cons g r ih =>
    obtain ⟨c, s, e⟩ := g
    simp only [List.map_cons, parseTriples]
    rw [if_pos ⟨by omega, by omega, by omega⟩]
    rw [ih]
    simp [Int.toNat_natCast]

theorem markerFreeList_map_pint (l : List Int) :
    markerFreeList (l.map PyObj.pint) = true := by
  induction l with
  | nil => rfl
  | cons a r ih => simp [markerFreeList, markerFree, ih]

theorem lookupKey_tp_t (tv pv : Value) :
    lookupKey [("t", tv), ("p", pv)] "t" = some tv := rfl

theorem lookupKey_tp_p (tv pv : Value) :
    lookupKey [("t", tv), ("p", pv)] "p" = some pv := by
  simp [lookupKey]

theorem lookupKey_p_t (pv : Value) :
    lookupKey [("p", pv)] "t" = none := by
  simp [lookupKey]

theorem lookupKey_p_p (pv : Value) :
    lookupKey [("p", pv)] "p" = some pv := by
  simp [lookupKey]

/-- The greedy grouping loop produces groups that each stream-decode to
their count of values, jointly decoding to the concatenation of the
accumulated and remaining values. -/
theorem greedyGo_blocksDecode (cfg : WConfig) (buf : List Byte) (off : Nat) :
    ∀ (vs : List Node) (vsVals : List Value) (accu : List Node)
      (accuVals : List Value) (s cur e asz : Nat),
      NodeVals buf off accu accuVals → contiguousNodes accu s cur →
      NodeVals buf off vs vsVals → contiguousNodes vs cur e →
      BlocksDecode buf off (greedyGo cfg vs [] accu asz)
        (accuVals ++ vsVals)
  | [], vsVals, accu, accuVals, s, cur, e, asz, haccu, hca, hvs, hcv => by
    cases hvs with
    | nil =>
      rw [List.append_nil]
      cases haccu with
      | nil =>
        simp only [greedyGo]
        exact BlocksDecode.nil
      | cons n v r vals hle hw hr =>
        simp only [greedyGo, List.nil_append]
        rw [List.getLastD_cons]
        rw [contiguousNodes_getLastD r n s cur hca]
        have hchunk := nodeVals_slice buf off (n :: r) (v :: vals) s cur
          (NodeVals.cons n v r vals hle hw hr) hca
        have hdec : decodeAll (readSlice buf off (pLo n) cur)
            = some (v :: vals) := by
          show decodeAll (sliceL buf (off + pLo n) (off + cur)) = _
          rw [show pLo n = s from hca.1, hchunk.2, decodeAll_packSeq]
        have hlen : (v :: vals).length = (n :: r).length :=
          (nodeVals_length buf off (n :: r) (v :: vals)
            (NodeVals.cons n v r vals hle hw hr)).symm
        simpa using BlocksDecode.cons (n :: r).length (pLo n) cur []
          (v :: vals) [] hdec hlen BlocksDecode.nil
  | v :: vs, vsVals, accu, accuVals, s, cur, e, asz, haccu, hca, hvs, hcv =>
    by
    cases hvs with
    | cons n vVal r rVals hle hw htail =>
      obtain ⟨hcv1, hcv2⟩ := hcv
      have hsnoc : NodeVals buf off (accu ++ [v]) (accuVals ++ [vVal]) :=
        nodeVals_append buf off accu accuVals [v] [vVal] haccu
          (NodeVals.cons v vVal [] [] hle hw NodeVals.nil)
      have hcontig : contiguousNodes (accu ++ [v]) s (pHi v) :=
        contiguousNodes_snoc v accu s cur hca hcv1
      simp only [greedyGo]
      split
      · have hhead : pLo ((accu ++ [v]).headD v) = s := by
          cases accu with
          | nil =>
            simp only [contiguousNodes] at hca
            simpa using hcv1.trans hca.symm
          | cons a rest =>
            have := contiguousNodes_head a _ s cur hca
            simp [this]
        have happ : greedyGo cfg vs
              [((accu ++ [v]).length, pLo ((accu ++ [v]).headD v), pHi v)]
              [] 0
            = ((accu ++ [v]).length, pLo ((accu ++ [v]).headD v), pHi v)
              :: greedyGo cfg vs [] [] 0 := by
          have h := greedyGo_append cfg vs
            [((accu ++ [v]).length, pLo ((accu ++ [v]).headD v), pHi v)]
            [] [] 0
          simpa using h
        rw [List.nil_append, happ]
        have hchunk := nodeVals_slice buf off (accu ++ [v])
          (accuVals ++ [vVal]) s (pHi v) hsnoc hcontig
        have hdec : decodeAll (readSlice buf off
              (pLo ((accu ++ [v]).headD v)) (pHi v))
            = some (accuVals ++ [vVal]) := by
          show decodeAll (sliceL buf (off + pLo ((accu ++ [v]).headD v))
            (off + pHi v)) = _
          rw [hhead, hchunk.2, decodeAll_packSeq]
        have hlen : (accuVals ++ [vVal]).length = (accu ++ [v]).length :=
          (nodeVals_length buf off (accu ++ [v]) (accuVals ++ [vVal])
            hsnoc).symm
        have hrec := greedyGo_blocksDecode cfg buf off vs rVals [] []
          (pHi v) (pHi v) e 0 NodeVals.nil rfl htail hcv2
        have hcons := BlocksDecode.cons ((accu ++ [v]).length)
          (pLo ((accu ++ [v]).headD v)) (pHi v) (greedyGo cfg vs [] [] 0)
          (accuVals ++ [vVal]) rVals hdec hlen hrec
        have heq : (accuVals ++ [vVal]) ++ rVals
            = accuVals ++ vVal :: rVals := by simp
        rw [hhead] at hcons
        rw [show pLo ((accu ++ [v]).headD v) = s from hhead]
        exact heq ▸ hcons
      · have hrec := greedyGo_blocksDecode cfg buf off vs rVals
          (accu ++ [v]) (accuVals ++ [vVal]) s (pHi v) e
          (asz + (pHi v - pLo v)) hsnoc hcontig htail hcv2
        have heq : (accuVals ++ [vVal]) ++ rVals
            = accuVals ++ vVal :: rVals := by simp
        exact heq ▸ hrec

/-- Under the window hypothesis for the packed element area, all-small
children carry per-child windows holding each element's encoding. -/
theorem tocPackElems_nodeVals (buf : List Byte) (off : Nat) (cfg : WConfig) :
    ∀ (l : List PyObj) (pos : Nat),
      (tocPackElems cfg l pos).1.all nodeSmall = true →
      sliceL buf (off + pos) (off + pos + (tocPackElems cfg l pos).2.length)
        = (tocPackElems cfg l pos).2 →
      NodeVals buf off (tocPackElems cfg l pos).1 (coerceList l) := by
  intro l
  induction l with
  | nil =>
    intro pos _ _
    simp only [tocPackElems, coerceList]
    exact NodeVals.nil
  | cons v r ih =>
    intro pos hall hwin
    simp only [tocPackElems, List.all_cons, Bool.and_eq_true] at hall
    obtain ⟨hv, hr⟩ := hall
    obtain ⟨a, b, hleaf⟩ := nodeSmall_leaf _ hv
    have hanch := tocPack_anchored v cfg pos
    rw [hleaf] at hanch
    simp only [nodeAnchored] at hanch
    obtain ⟨ha, hb⟩ := hanch
    simp only [tocPackElems] at hwin
    rw [List.length_append] at hwin
    have hw1 : sliceL buf (off + pos)
        (off + pos + (tocPack cfg v pos).2.length)
        = (tocPack cfg v pos).2 := by
      have h := sliceL_sub buf _ (off + pos) _ 0
        ((tocPack cfg v pos).2.length) hwin (by omega) (by simp)
      rw [Nat.add_zero] at h
      rw [h]
      exact sliceL_initial _ _
    have hw2 : sliceL buf (off + (pos + (tocPack cfg v pos).2.length))
        (off + (pos + (tocPack cfg v pos).2.length)
          + (tocPackElems cfg r (pos + (tocPack cfg v pos).2.length)).2.length)
        = (tocPackElems cfg r (pos + (tocPack cfg v pos).2.length)).2 := by
      have h := sliceL_sub buf _ (off + pos) _
        ((tocPack cfg v pos).2.length)
        ((tocPack cfg v pos).2.length
          + (tocPackElems cfg r
              (pos + (tocPack cfg v pos).2.length)).2.length)
        hwin (by omega) (by simp)
      rw [show off + (pos + (tocPack cfg v pos).2.length)
          = off + pos + (tocPack cfg v pos).2.length from by omega]
      rw [show off + pos + (tocPack cfg v pos).2.length
            + (tocPackElems cfg r
                (pos + (tocPack cfg v pos).2.length)).2.length
          = off + pos + ((tocPack cfg v pos).2.length
            + (tocPackElems cfg r
                (pos + (tocPack cfg v pos).2.length)).2.length) from by omega]
      rw [h]
      exact sliceL_append_left _ _
    simp only [tocPackElems, coerceList]
    rw [hleaf]
    refine NodeVals.cons _ _ _ _ ?_ ?_ ?_
    · simp only [pLo, pHi]
      omega
    · simp only [pLo, pHi]
      rw [ha, hb]
      rw [show off + (pos + (tocPack cfg v pos).2.length)
          = off + pos + (tocPack cfg v pos).2.length from by omega]
      rw [hw1, tocPack_bytes]
    · exact ih (pos + (tocPack cfg v pos).2.length) hr hw2

/-- Byte-level unfolding of `TOC._pack` on a list value. -/
theorem tocPack_plist_bytes (cfg : WConfig) (l : List PyObj) (pos : Nat) :
    (tocPack cfg (.plist l) pos).2
      = packArrayHeader l.length ++ (tocPackElems cfg l (pos + 2)).2 := by
  simp only [tocPack, packArrayHeader, List.length_cons, List.length_nil]

/-- Byte-level unfolding of `TOC._pack` on a dict value. -/
theorem tocPack_pdict_bytes (cfg : WConfig) (m : List (String × PyObj))
    (pos : Nat) :
    (tocPack cfg (.pdict m) pos).2
      = packMapHeader m.length ++ (tocPackEntries cfg m (pos + 2)).2 := by
  simp only [tocPack, packMapHeader, List.length_cons, List.length_nil]

/-- Unfolding of `TOC._pack` on a dict value: the map header occupies
two bytes, then the entries; the node is the small leaf, the all-small
leaf, or a `mapNode`. -/
theorem tocPack_pdict_node (cfg : WConfig) (m : List (String × PyObj))
    (pos : Nat) :
    (tocPack cfg (.pdict m) pos).1 =
      if pos + 2 + (tocPackEntries cfg m (pos + 2)).2.length
          < pos + cfg.small_obj_optimization_threshold then
        Node.leaf pos (pos + 2 + (tocPackEntries cfg m (pos + 2)).2.length)
          (decide (pos + 2 + (tocPackEntries cfg m (pos + 2)).2.length
            ≤ pos + cfg.trivial_size))
      else if ((tocPackEntries cfg m (pos + 2)).1.map Prod.snd).all nodeSmall
      then
        Node.leaf pos (pos + 2 + (tocPackEntries cfg m (pos + 2)).2.length)
          (decide (pos + 2 + (tocPackEntries cfg m (pos + 2)).2.length
            ≤ pos + cfg.trivial_size))
      else
        Node.mapNode (tocPackEntries cfg m (pos + 2)).1 pos
          (pos + 2 + (tocPackEntries cfg m (pos + 2)).2.length) := by
  simp only [tocPack, packMapHeader, List.length_cons, List.length_nil]

/-- `_child` on a `t`-less node with a two-int `p` range whose window
holds the encoding of a value that is not a marker-carrying byte
string: the value is decoded in place. -/
theorem materialiseChild_range (rc : RCfg) (buf : List Byte) (off : Nat)
    (f : Nat) (a b : Nat) (v : Value)
    (hwin : sliceL buf (off + a) (off + b) = packValue v)
    (hnb : ∀ bs, v = .vbytes bs → hasMarker bs = false) :
    materialiseChild (f + 1) rc buf off
      (.vmap [("p", .vlist [.vint (a : Int), .vint (b : Int)])])
      = some (.tPlain v) := by
  rw [materialiseChild]
  rw [lookupKey_p_t]
  dsimp only
  rw [lookupKey_p_p]
  dsimp only
  rw [asRange_nat]
  dsimp only
  have hrs : readSlice buf off a b = packValue v := hwin
  rw [hrs]
  rw [unpackExact_packValue]
  cases v with
  | vbytes bs =>
    dsimp only
    rw [hnb bs rfl]
    rfl
  | vnil => rfl
  | vbool x => rfl
  | vint x => rfl
  | vstr x => rfl
  | vlist x => rfl
  | vmap x => rfl

/-- The payload window of a written file: payload byte `i` sits at
absolute offset `50 + i`. -/
theorem writerOutput_payload_window (cfg : WConfig) (obj : PyObj) :
    sliceL (writerOutput cfg obj) (50 + 0)
        (50 + 0 + (tocPack cfg obj 0).2.length)
      = (tocPack cfg obj 0).2 := by
  rw [writerOutput_eq]
  have hsplit : magicBytes
        ++ rjust (packValue (.vint ((tocPack cfg obj 0).2.length))) 10
        ++ rjust (packValue (.vint
            ((packValue (nodeToValue (tocPack cfg obj 0).1)).length))) 10
        ++ (tocPack cfg obj 0).2
        ++ packValue (nodeToValue (tocPack cfg obj 0).1)
      = (magicBytes
          ++ rjust (packValue (.vint ((tocPack cfg obj 0).2.length))) 10
          ++ rjust (packValue (.vint
              ((packValue (nodeToValue (tocPack cfg obj 0).1)).length))) 10)
        ++ (tocPack cfg obj 0).2
        ++ packValue (nodeToValue (tocPack cfg obj 0).1) := by
    simp [List.append_assoc]
  rw [hsplit]
  have hlen : (magicBytes
      ++ rjust (packValue (.vint ((tocPack cfg obj 0).2.length))) 10
      ++ rjust (packValue (.vint
          ((packValue (nodeToValue (tocPack cfg obj 0).1)).length))) 10).length
      = 50 := by
    simp [magicBytes_length, header10_length]
  have h := sliceL_append_mid (magicBytes
      ++ rjust (packValue (.vint ((tocPack cfg obj 0).2.length))) 10
      ++ rjust (packValue (.vint
          ((packValue (nodeToValue (tocPack cfg obj 0).1)).length))) 10)
    (tocPack cfg obj 0).2
    (packValue (nodeToValue (tocPack cfg obj 0).1))
  rw [hlen] at h
  rw [show 50 + 0 = 50 from rfl, show 50 + 0 + (tocPack cfg obj 0).2.length
    = 50 + (tocPack cfg obj 0).2.length from by omega]
  exact h

/-- Opening a reader on a written file checks the magic, reads back the
two header slots, decodes the TOC, and materialises the root: the
payload offset is 50. -/
theorem readerNew_writerOutput (f : Nat) (rc : RCfg) (cfg : WConfig)
    (obj : PyObj) :
    readerNew (f + 1) rc (writerOutput cfg obj) 0
      = materialiseChild f rc (writerOutput cfg obj) 50
          (nodeToValue (tocPack cfg obj 0).1) := by
  rw [readerNew]
  simp only [Nat.zero_add]
  set P := (tocPack cfg obj 0).2 with hP
  set T := packValue (nodeToValue (tocPack cfg obj 0).1) with hT
  set H1 := rjust (packValue (.vint (P.length : Int))) 10 with hH1
  set H2 := rjust (packValue (.vint (T.length : Int))) 10 with hH2
  have hout : writerOutput cfg obj
      = (magicBytes ++ H1 ++ H2) ++ P ++ T := by
    rw [writerOutput_eq]
  have hAlen : (magicBytes ++ H1 ++ H2).length = 50 := by
    simp only [List.length_append, magicBytes_length, hH1, hH2,
      header10_length]
  have hheader : sliceL (writerOutput cfg obj) 0 50
      = magicBytes ++ H1 ++ H2 := by
    rw [hout, List.append_assoc]
    rw [show (50 : Nat) = (magicBytes ++ H1 ++ H2).length from hAlen.symm]
    exact sliceL_initial _ _
  rw [hheader]
  have htake : (magicBytes ++ H1 ++ H2).take 30 = magicBytes := by
    rw [List.append_assoc]
    rw [show (30 : Nat) = magicBytes.length from magicBytes_length.symm]
    exact List.take_left _ _
  rw [htake, if_neg (fun hcon => hcon rfl)]
  have hs1 : sliceL (magicBytes ++ H1 ++ H2) 30 40 = H1 := by
    have h := sliceL_append_mid magicBytes H1 H2
    rw [magicBytes_length] at h
    rw [show (40 : Nat) = 30 + H1.length from by
      rw [hH1, header10_length]]
    exact h
  have hs2 : sliceL (magicBytes ++ H1 ++ H2) 40 50 = H2 := by
    have h := sliceL_append_left (magicBytes ++ H1) H2
    have h40 : (magicBytes ++ H1).length = 40 := by
      simp only [List.length_append, magicBytes_length, hH1,
        header10_length]
    rw [h40] at h
    rw [show (50 : Nat) = 40 + H2.length from by
      rw [hH2, header10_length]]
    exact h
  rw [hs1, hs2]
  have hl1 : lstrip0 H1 = packValue (.vint (P.length : Int)) := by
    rw [hH1]
    unfold rjust
    rw [show packValue (.vint (P.length : Int))
        = 2 :: [intCode (P.length : Int)] from by simp [packValue]]
    exact lstrip0_replicate_cons _ 2 _ (by decide)
  have hl2 : lstrip0 H2 = packValue (.vint (T.length : Int)) := by
    rw [hH2]
    unfold rjust
    rw [show packValue (.vint (T.length : Int))
        = 2 :: [intCode (T.length : Int)] from by simp [packValue]]
    exact lstrip0_replicate_cons _ 2 _ (by decide)
  rw [hl1, hl2, unpackExact_packValue, unpackExact_packValue]
  dsimp only
  rw [if_pos ⟨by omega, by omega⟩]
  rw [Int.toNat_natCast, Int.toNat_natCast]
  have htoc : readSlice (writerOutput cfg obj) 50 P.length
      (P.length + T.length) = T := by
    show sliceL (writerOutput cfg obj) (50 + P.length)
      (50 + (P.length + T.length)) = T
    rw [hout]
    have h := sliceL_append_left ((magicBytes ++ H1 ++ H2) ++ P) T
    have hlen2 : ((magicBytes ++ H1 ++ H2) ++ P).length
        = 50 + P.length := by
      rw [List.length_append, hAlen]
    rw [hlen2] at h
    rw [show 50 + (P.length + T.length)
      = 50 + P.length + T.length from by omega]
    exact h
  rw [htoc, hT, unpackExact_packValue]

/-- Window for the first element of a packed element run. -/
theorem elems_window_head (buf : List Byte) (off : Nat) (cfg : WConfig)
    (v : PyObj) (r : List PyObj) (pos : Nat)
    (hwin : sliceL buf (off + pos)
        (off + pos + (tocPackElems cfg (v :: r) pos).2.length)
      = (tocPackElems cfg (v :: r) pos).2) :
    sliceL buf (off + pos) (off + pos + (tocPack cfg v pos).2.length)
      = (tocPack cfg v pos).2 := by
  simp only [tocPackElems] at hwin
  rw [List.length_append] at hwin
  have h := sliceL_sub buf _ (off + pos) _ 0
    ((tocPack cfg v pos).2.length) hwin (by omega) (by simp)
  rw [Nat.add_zero] at h
  rw [h]
  exact sliceL_initial _ _

/-- Window for the remaining elements of a packed element run. -/
theorem elems_window_tail (buf : List Byte) (off : Nat) (cfg : WConfig)
    (v : PyObj) (r : List PyObj) (pos : Nat)
    (hwin : sliceL buf (off + pos)
        (off + pos + (tocPackElems cfg (v :: r) pos).2.length)
      = (tocPackElems cfg (v :: r) pos).2) :
    sliceL buf (off + (pos + (tocPack cfg v pos).2.length))
        (off + (pos + (tocPack cfg v pos).2.length)
          + (tocPackElems cfg r
              (pos + (tocPack cfg v pos).2.length)).2.length)
      = (tocPackElems cfg r (pos + (tocPack cfg v pos).2.length)).2 := by
  simp only [tocPackElems] at hwin
  rw [List.length_append] at hwin
  have h := sliceL_sub buf _ (off + pos) _
    ((tocPack cfg v pos).2.length)
    ((tocPack cfg v pos).2.length
      + (tocPackElems cfg r (pos + (tocPack cfg v pos).2.length)).2.length)
    hwin (by omega) (by simp)
  rw [show off + (pos + (tocPack cfg v pos).2.length)
      = off + pos + (tocPack cfg v pos).2.length from by omega]
  rw [show off + pos + (tocPack cfg v pos).2.length
        + (tocPackElems cfg r
            (pos + (tocPack cfg v pos).2.length)).2.length
      = off + pos + ((tocPack cfg v pos).2.length
        + (tocPackElems cfg r
            (pos + (tocPack cfg v pos).2.length)).2.length) from by omega]
  rw [h]
  exact sliceL_append_left _ _

/-- Window for the element area of a packed list, two bytes past the
array header. -/
theorem plist_elems_window (buf : List Byte) (off : Nat) (cfg : WConfig)
    (l : List PyObj) (pos : Nat)
    (hwin : sliceL buf (off + pos)
        (off + pos + (tocPack cfg (.plist l) pos).2.length)
      = (tocPack cfg (.plist l) pos).2) :
    sliceL buf (off + (pos + 2))
        (off + (pos + 2) + (tocPackElems cfg l (pos + 2)).2.length)
      = (tocPackElems cfg l (pos + 2)).2 := by
  rw [tocPack_plist_bytes] at hwin
  rw [List.length_append] at hwin
  have hhdr : (packArrayHeader l.length).length = 2 := by
    simp [packArrayHeader]
  rw [hhdr] at hwin
  have h := sliceL_sub buf _ (off + pos) _ 2
    (2 + (tocPackElems cfg l (pos + 2)).2.length) hwin (by omega)
    (by simp [hhdr])
  rw [show off + (pos + 2) = off + pos + 2 from by omega]
  rw [show off + pos + 2 + (tocPackElems cfg l (pos + 2)).2.length
      = off + pos + (2 + (tocPackElems cfg l (pos + 2)).2.length)
      from by omega]
  rw [h]
  have h2 := sliceL_append_left (packArrayHeader l.length)
    (tocPackElems cfg l (pos + 2)).2
  rw [hhdr] at h2
  exact h2

/-- Window for the entry area of a packed dict, two bytes past the map
header. -/
theorem pdict_entries_window (buf : List Byte) (off : Nat) (cfg : WConfig)
    (m : List (String × PyObj)) (pos : Nat)
    (hwin : sliceL buf (off + pos)
        (off + pos + (tocPack cfg (.pdict m) pos).2.length)
      = (tocPack cfg (.pdict m) pos).2) :
    sliceL buf (off + (pos + 2))
        (off + (pos + 2) + (tocPackEntries cfg m (pos + 2)).2.length)
      = (tocPackEntries cfg m (pos + 2)).2 := by
  rw [tocPack_pdict_bytes] at hwin
  rw [List.length_append] at hwin
  have hhdr : (packMapHeader m.length).length = 2 := by
    simp [packMapHeader]
  rw [hhdr] at hwin
  have h := sliceL_sub buf _ (off + pos) _ 2
    (2 + (tocPackEntries cfg m (pos + 2)).2.length) hwin (by omega)
    (by simp [hhdr])
  rw [show off + (pos + 2) = off + pos + 2 from by omega]
  rw [show off + pos + 2 + (tocPackEntries cfg m (pos + 2)).2.length
      = off + pos + (2 + (tocPackEntries cfg m (pos + 2)).2.length)
      from by omega]
  rw [h]
  have h2 := sliceL_append_left (packMapHeader m.length)
    (tocPackEntries cfg m (pos + 2)).2
  rw [hhdr] at h2
  exact h2

/-- Window for the first entry value of a packed dict entry run, past
the packed key. -/
theorem entries_window_head (buf : List Byte) (off : Nat) (cfg : WConfig)
    (k : String) (v : PyObj) (r : List (String × PyObj)) (pos : Nat)
    (hwin : sliceL buf (off + pos)
        (off + pos + (tocPackEntries cfg ((k, v) :: r) pos).2.length)
      = (tocPackEntries cfg ((k, v) :: r) pos).2) :
    sliceL buf (off + (pos + (packValue (.vstr k)).length))
        (off + (pos + (packValue (.vstr k)).length)
          + (tocPack cfg v (pos + (packValue (.vstr k)).length)).2.length)
      = (tocPack cfg v (pos + (packValue (.vstr k)).length)).2 := by
  simp only [tocPackEntries] at hwin
  rw [List.length_append, List.length_append] at hwin
  have h := sliceL_sub buf _ (off + pos) _
    (packValue (.vstr k)).length
    ((packValue (.vstr k)).length
      + (tocPack cfg v (pos + (packValue (.vstr k)).length)).2.length)
    hwin (by omega) (by simp)
  rw [show off + (pos + (packValue (.vstr k)).length)
      = off + pos + (packValue (.vstr k)).length from by omega]
  rw [show off + pos + (packValue (.vstr k)).length
        + (tocPack cfg v (pos + (packValue (.vstr k)).length)).2.length
      = off + pos + ((packValue (.vstr k)).length
        + (tocPack cfg v (pos + (packValue (.vstr k)).length)).2.length)
      from by omega]
  rw [h]
  exact sliceL_append_mid _ _ _

/-- Window for the remaining entries of a packed dict entry run. -/
theorem entries_window_tail (buf : List Byte) (off : Nat) (cfg : WConfig)
    (k : String) (v : PyObj) (r : List (String × PyObj)) (pos : Nat)
    (hwin : sliceL buf (off + pos)
        (off + pos + (tocPackEntries cfg ((k, v) :: r) pos).2.length)
      = (tocPackEntries cfg ((k, v) :: r) pos).2) :
    sliceL buf
        (off + (pos + (packValue (.vstr k)).length
          + (tocPack cfg v (pos + (packValue (.vstr k)).length)).2.length))
        (off + (pos + (packValue (.vstr k)).length
          + (tocPack cfg v (pos + (packValue (.vstr k)).length)).2.length)
          + (tocPackEntries cfg r
              (pos + (packValue (.vstr k)).length
                + (tocPack cfg v
                    (pos + (packValue (.vstr k)).length)).2.length)).2.length)
      = (tocPackEntries cfg r
          (pos + (packValue (.vstr k)).length
            + (tocPack cfg v
                (pos + (packValue (.vstr k)).length)).2.length)).2 := by
  simp only [tocPackEntries] at hwin
  rw [List.length_append, List.length_append] at hwin
  have h := sliceL_sub buf _ (off + pos) _
    ((packValue (.vstr k)).length
      + (tocPack cfg v (pos + (packValue (.vstr k)).length)).2.length)
    ((packValue (.vstr k)).length
      + (tocPack cfg v (pos + (packValue (.vstr k)).length)).2.length
      + (tocPackEntries cfg r
          (pos + (packValue (.vstr k)).length
            + (tocPack cfg v
                (pos + (packValue (.vstr k)).length)).2.length)).2.length)
    hwin (by omega) (by simp; omega)
  rw [show off + (pos + (packValue (.vstr k)).length
        + (tocPack cfg v (pos + (packValue (.vstr k)).length)).2.length)
      = off + pos + ((packValue (.vstr k)).length
        + (tocPack cfg v (pos + (packValue (.vstr k)).length)).2.length)
      from by omega]
  rw [show off + pos + ((packValue (.vstr k)).length
        + (tocPack cfg v (pos + (packValue (.vstr k)).length)).2.length)
        + (tocPackEntries cfg r
            (pos + (packValue (.vstr k)).length
              + (tocPack cfg v
                  (pos + (packValue (.vstr k)).length)).2.length)).2.length
      = off + pos + ((packValue (.vstr k)).length
        + (tocPack cfg v (pos + (packValue (.vstr k)).length)).2.length
        + (tocPackEntries cfg r
            (pos + (packValue (.vstr k)).length
              + (tocPack cfg v
                  (pos + (packValue (.vstr k)).length)).2.length)).2.length)
      from by omega]
  rw [h]
  have h2 := sliceL_append_left
    (packValue (.vstr k)
      ++ (tocPack cfg v (pos + (packValue (.vstr k)).length)).2)
    (tocPackEntries cfg r
      (pos + (packValue (.vstr k)).length
        + (tocPack cfg v (pos + (packValue (.vstr k)).length)).2.length)).2
  rw [List.length_append] at h2
  exact h2

/-- Any value whose TOC node is the in-place leaf form round-trips
through `_child` plus `to_obj` immediately. -/
theorem toRound_leaf (rc : RCfg) (buf : List Byte) (off : Nat)
    (cfg : WConfig) (obj : PyObj) (pos f g : Nat) (sm : Bool)
    (hnode : (tocPack cfg obj pos).1
      = Node.leaf pos (pos + (tocPack cfg obj pos).2.length) sm)
    (hwin : sliceL buf (off + pos)
        (off + pos + (tocPack cfg obj pos).2.length)
      = (tocPack cfg obj pos).2)
    (hnb : ∀ bs, coerce obj = .vbytes bs → hasMarker bs = false)
    (hg : 1 ≤ g) :
    ∃ t, materialiseChild (f + 1) rc buf off
        (nodeToValue (tocPack cfg obj pos).1) = some t
      ∧ finishTarget g rc buf t = some (coerce obj) := by
  obtain ⟨g1, rfl⟩ : ∃ g1, g = g1 + 1 := ⟨g - 1, by omega⟩
  refine ⟨.tPlain (coerce obj), ?_, ?_⟩
  · rw [hnode]
    rw [show nodeToValue (Node.leaf pos
          (pos + (tocPack cfg obj pos).2.length) sm)
        = .vmap [("p", .vlist [.vint (pos : Int),
            .vint ((pos + (tocPack cfg obj pos).2.length : Nat) : Int)])]
      from by simp [nodeToValue]]
    apply materialiseChild_range rc buf off f _ _ _ ?_ hnb
    rw [show off + (pos + (tocPack cfg obj pos).2.length)
        = off + pos + (tocPack cfg obj pos).2.length from by omega]
    rw [hwin, tocPack_bytes]
  · rw [finishTarget]

mutual

/-- Master round-trip: under the window hypothesis, materialising the
serialised TOC node of a marker-free value and taking `to_obj` yields
the coerced value, for any materialisation fuel and enough `to_obj`
fuel. -/
theorem toObjRound (rc : RCfg) (buf : List Byte) (off : Nat) :
    ∀ (obj : PyObj) (cfg : WConfig) (pos f g : Nat),
      markerFree obj = true →
      sliceL buf (off + pos)
          (off + pos + (tocPack cfg obj pos).2.length)
        = (tocPack cfg obj pos).2 →
      3 * pyW obj ≤ g →
      ∃ t, materialiseChild (f + 1) rc buf off
          (nodeToValue (tocPack cfg obj pos).1) = some t
        ∧ finishTarget g rc buf t = some (coerce obj)
  | .pnil, cfg, pos, f, g, hmf, hwin, hg => by
    refine toRound_leaf rc buf off cfg .pnil pos f g
      (decide (pos + (tocPack cfg .pnil pos).2.length
        ≤ pos + cfg.trivial_size)) ?_ hwin
      (fun bs hcon => by simp [coerce] at hcon)
      (by simp only [pyW] at hg; omega)
    simp [tocPack, tocLeaf]
  | .pbool b, cfg, pos, f, g, hmf, hwin, hg => by
    refine toRound_leaf rc buf off cfg (.pbool b) pos f g
      (decide (pos + (tocPack cfg (.pbool b) pos).2.length
        ≤ pos + cfg.trivial_size)) ?_ hwin
      (fun bs hcon => by simp [coerce] at hcon)
      (by simp only [pyW] at hg; omega)
    simp [tocPack, tocLeaf]
  | .pint n, cfg, pos, f, g, hmf, hwin, hg => by
    refine toRound_leaf rc buf off cfg (.pint n) pos f g
      (decide (pos + (tocPack cfg (.pint n) pos).2.length
        ≤ pos + cfg.trivial_size)) ?_ hwin
      (fun bs hcon => by simp [coerce] at hcon)
      (by simp only [pyW] at hg; omega)
    simp [tocPack, tocLeaf]
  | .pstr s, cfg, pos, f, g, hmf, hwin, hg => by
    refine toRound_leaf rc buf off cfg (.pstr s) pos f g
      (decide (pos + (tocPack cfg (.pstr s) pos).2.length
        ≤ pos + cfg.trivial_size)) ?_ hwin
      (fun bs hcon => by simp [coerce] at hcon)
      (by simp only [pyW] at hg; omega)
    simp [tocPack, tocLeaf]
  | .pbytes bs, cfg, pos, f, g, hmf, hwin, hg => by
    refine toRound_leaf rc buf off cfg (.pbytes bs) pos f g
      (decide (pos + (tocPack cfg (.pbytes bs) pos).2.length
        ≤ pos + cfg.trivial_size)) ?_ hwin
      (fun bs2 hcon => ?_) (by simp only [pyW] at hg; omega)
    · simp [tocPack, tocLeaf]
    · simp only [coerce, Value.vbytes.injEq] at hcon
      subst hcon
      simpa [markerFree] using hmf
  | .ptuple l, cfg, pos, f, g, hmf, hwin, hg => by
    have hred : tocPack cfg (.ptuple l) pos = tocPack cfg (.plist l) pos := by
      simp [tocPack]
    rw [hred] at hwin ⊢
    have h := toObjRound rc buf off (.plist l) cfg pos f g
      (by simpa [markerFree] using hmf) hwin
      (by simp only [pyW] at hg ⊢; omega)
    obtain ⟨t, h1, h2⟩ := h
    exact ⟨t, h1, by rw [h2]; simp [coerce]⟩
  | .pset l, cfg, pos, f, g, hmf, hwin, hg => by
    have hred : tocPack cfg (.pset l) pos
        = tocPack cfg (.plist ((sortedInts l).map PyObj.pint)) pos := by
      simp [tocPack]
    rw [hred] at hwin ⊢
    have h := toObjRound rc buf off (.plist ((sortedInts l).map PyObj.pint))
      cfg pos f g (by simp [markerFree, markerFreeList_map_pint]) hwin
      (by
        simp only [pyW, pyWList_map_pint, sortedInts_length] at hg ⊢
        omega)
    obtain ⟨t, h1, h2⟩ := h
    exact ⟨t, h1, by rw [h2]; simp [coerce, coerceList_map_pint]⟩
  | .plist l, cfg, pos, f, g, hmf, hwin, hg => by
    have hlen : (tocPack cfg (.plist l) pos).2.length
        = 2 + (tocPackElems cfg l (pos + 2)).2.length := by
      rw [tocPack_plist_bytes]
      simp [packArrayHeader]
      omega
    have hmfl : markerFreeList l = true := by
      simpa [markerFree] using hmf
    have hgl : 3 * pyWList l + 6 ≤ g := by
      simp only [pyW] at hg
      omega
    by_cases h1 : pos + 2 + (tocPackElems cfg l (pos + 2)).2.length
        < pos + cfg.small_obj_optimization_threshold
    · refine toRound_leaf rc buf off cfg (.plist l) pos f g
        (decide (pos + (tocPack cfg (.plist l) pos).2.length
          ≤ pos + cfg.trivial_size)) ?_ hwin
        (fun bs hcon => by simp [coerce] at hcon) (by omega)
      rw [tocPack_plist_node, if_pos h1, hlen]
      rw [show pos + (2 + (tocPackElems cfg l (pos + 2)).2.length)
          = pos + 2 + (tocPackElems cfg l (pos + 2)).2.length from by omega]
    · by_cases h2 : (tocPackElems cfg l (pos + 2)).1.all nodeSmall = true
      · by_cases h3 : l.length = 0
        · refine toRound_leaf rc buf off cfg (.plist l) pos f g
            (decide (pos + (tocPack cfg (.plist l) pos).2.length
              ≤ pos + cfg.trivial_size)) ?_ hwin
            (fun bs hcon => by simp [coerce] at hcon) (by omega)
          rw [tocPack_plist_node, if_neg h1, if_pos h2, if_pos h3, hlen]
          rw [show pos + (2 + (tocPackElems cfg l (pos + 2)).2.length)
              = pos + 2 + (tocPackElems cfg l (pos + 2)).2.length
            from by omega]
        · by_cases h4 : 1 < (greedyGroups cfg
              (tocPackElems cfg l (pos + 2)).1).length
          · have hnode : (tocPack cfg (.plist l) pos).1
                = Node.blocks (greedyGroups cfg
                    (tocPackElems cfg l (pos + 2)).1) := by
              rw [tocPack_plist_node, if_neg h1, if_pos h2, if_neg h3,
                if_pos h4]
            have hnv : nodeToValue (Node.blocks (greedyGroups cfg
                  (tocPackElems cfg l (pos + 2)).1))
                = .vmap [("p", .vlist ((greedyGroups cfg
                    (tocPackElems cfg l (pos + 2)).1).map fun t =>
                  Value.vlist [.vint (t.1 : Int), .vint (t.2.1 : Int),
                    .vint (t.2.2 : Int)]))] := by
              simp [nodeToValue]
            obtain ⟨g1, rfl⟩ : ∃ g1, g = g1 + 1 := ⟨g - 1, by omega⟩
            obtain ⟨g2, rfl⟩ : ∃ g2, g1 = g2 + 1 := ⟨g1 - 1, by omega⟩
            refine ⟨.tList off (.vmap [("p", .vlist ((greedyGroups cfg
                (tocPackElems cfg l (pos + 2)).1).map fun t =>
              Value.vlist [.vint (t.1 : Int), .vint (t.2.1 : Int),
                .vint (t.2.2 : Int)]))]), ?_, ?_⟩
            · rw [hnode, hnv, materialiseChild]
              rw [lookupKey_p_t]
              dsimp only
              rw [lookupKey_p_p]
              dsimp only
              rw [asRange_map_triples]
            · rw [finishTarget]
              rw [listToObj]
              rw [lookupKey_p_t]
              dsimp only
              rw [lookupKey_p_p]
              dsimp only
              rw [parseTriples_map]
              dsimp only
              have hbd : BlocksDecode buf off (greedyGroups cfg
                  (tocPackElems cfg l (pos + 2)).1) (coerceList l) := by
                have hew := plist_elems_window buf off cfg l pos hwin
                have hnvs := tocPackElems_nodeVals buf off cfg l (pos + 2)
                  h2 hew
                have hcontig := tocPackElems_contiguous cfg l (pos + 2) h2
                have h := greedyGo_blocksDecode cfg buf off
                  (tocPackElems cfg l (pos + 2)).1 (coerceList l) [] []
                  (pos + 2) (pos + 2)
                  (pos + 2 + (tocPackElems cfg l (pos + 2)).2.length) 0
                  NodeVals.nil rfl hnvs hcontig
                simpa [greedyGroups] using h
              rw [blockToObj_correct rc buf off _ (coerceList l) hbd]
              rw [show coerce (.plist l) = Value.vlist (coerceList l)
                from by simp [coerce]]
          · refine toRound_leaf rc buf off cfg (.plist l) pos f g
              (decide (pos + (tocPack cfg (.plist l) pos).2.length
                ≤ pos + cfg.trivial_size)) ?_ hwin
              (fun bs hcon => by simp [coerce] at hcon) (by omega)
            rw [tocPack_plist_node, if_neg h1, if_pos h2, if_neg h3,
              if_neg h4, hlen]
            rw [show pos + (2 + (tocPackElems cfg l (pos + 2)).2.length)
                = pos + 2 + (tocPackElems cfg l (pos + 2)).2.length
              from by omega]
      · have hnode : (tocPack cfg (.plist l) pos).1
            = Node.arrNode (tocPackElems cfg l (pos + 2)).1 pos
                (pos + 2 + (tocPackElems cfg l (pos + 2)).2.length) := by
          rw [tocPack_plist_node, if_neg h1, if_neg h2]
        have hne : (tocPackElems cfg l (pos + 2)).1 ≠ [] := by
          intro hE
          rw [hE] at h2
          simp at h2
        have hnv : nodeToValue (Node.arrNode
              (tocPackElems cfg l (pos + 2)).1 pos
              (pos + 2 + (tocPackElems cfg l (pos + 2)).2.length))
            = .vmap [("t", .vlist (nodeSeqToValue
                (tocPackElems cfg l (pos + 2)).1)),
              ("p", .vlist [.vint (pos : Int),
                .vint ((pos + 2
                  + (tocPackElems cfg l (pos + 2)).2.length : Nat) : Int)])]
            := by
          simp only [nodeToValue]
          rw [if_neg (by simp [hne])]
        have hread : readSlice buf off pos
            (pos + 2 + (tocPackElems cfg l (pos + 2)).2.length)
            = packValue (coerce (.plist l)) := by
          show sliceL buf (off + pos)
            (off + (pos + 2 + (tocPackElems cfg l (pos + 2)).2.length)) = _
          rw [show off + (pos + 2
                + (tocPackElems cfg l (pos + 2)).2.length)
              = off + pos + (tocPack cfg (.plist l) pos).2.length
            from by omega]
          rw [hwin, tocPack_bytes]
        obtain ⟨g1, rfl⟩ : ∃ g1, g = g1 + 1 := ⟨g - 1, by omega⟩
        obtain ⟨g2, rfl⟩ : ∃ g2, g1 = g2 + 1 := ⟨g1 - 1, by omega⟩
        refine ⟨.tList off (.vmap [("t", .vlist (nodeSeqToValue
            (tocPackElems cfg l (pos + 2)).1)),
          ("p", .vlist [.vint (pos : Int),
            .vint ((pos + 2
              + (tocPackElems cfg l (pos + 2)).2.length : Nat) : Int)])]),
          ?_, ?_⟩
        · rw [hnode, hnv, materialiseChild]
          rw [lookupKey_tp_t]
        · rw [finishTarget]
          rw [listToObj]
          rw [lookupKey_tp_t]
          dsimp only
          by_cases hc : rc.cached = false
          · rw [if_pos hc]
            rw [lookupKey_tp_p]
            dsimp only
            rw [asRange_nat]
            dsimp only
            rw [hread, unpackExact_packValue]
          · rw [if_neg hc]
            by_cases hf : fastFires rc (nodeSeqToValue
                (tocPackElems cfg l (pos + 2)).1).length = false
            · rw [if_pos hf]
              rw [elemsRound rc buf off l cfg (pos + 2) g2 hmfl
                (plist_elems_window buf off cfg l pos hwin) (by omega)]
              rw [show coerce (.plist l) = Value.vlist (coerceList l)
                from by simp [coerce]]
              rfl
            · rw [if_neg hf]
              rw [lookupKey_tp_p]
              dsimp only
              rw [asRange_nat]
              dsimp only
              rw [hread, unpackExact_packValue]
  | .pdict m, cfg, pos, f, g, hmf, hwin, hg => by
    have hlen : (tocPack cfg (.pdict m) pos).2.length
        = 2 + (tocPackEntries cfg m (pos + 2)).2.length := by
      rw [tocPack_pdict_bytes]
      simp [packMapHeader]
      omega
    have hmfm : markerFreeEntries m = true := by
      simpa [markerFree] using hmf
    have hgm : 3 * pyWEntries m + 6 ≤ g := by
      simp only [pyW] at hg
      omega
    by_cases h1 : pos + 2 + (tocPackEntries cfg m (pos + 2)).2.length
        < pos + cfg.small_obj_optimization_threshold
    · refine toRound_leaf rc buf off cfg (.pdict m) pos f g
        (decide (pos + (tocPack cfg (.pdict m) pos).2.length
          ≤ pos + cfg.trivial_size)) ?_ hwin
        (fun bs hcon => by simp [coerce] at hcon) (by omega)
      rw [tocPack_pdict_node, if_pos h1, hlen]
      rw [show pos + (2 + (tocPackEntries cfg m (pos + 2)).2.length)
          = pos + 2 + (tocPackEntries cfg m (pos + 2)).2.length
        from by omega]
    · by_cases h2 : ((tocPackEntries cfg m (pos + 2)).1.map
          Prod.snd).all nodeSmall = true
      · refine toRound_leaf rc buf off cfg (.pdict m) pos f g
          (decide (pos + (tocPack cfg (.pdict m) pos).2.length
            ≤ pos + cfg.trivial_size)) ?_ hwin
          (fun bs hcon => by simp [coerce] at hcon) (by omega)
        rw [tocPack_pdict_node, if_neg h1, if_pos h2, hlen]
        rw [show pos + (2 + (tocPackEntries cfg m (pos + 2)).2.length)
            = pos + 2 + (tocPackEntries cfg m (pos + 2)).2.length
          from by omega]
      · have hnode : (tocPack cfg (.pdict m) pos).1
            = Node.mapNode (tocPackEntries cfg m (pos + 2)).1 pos
                (pos + 2 + (tocPackEntries cfg m (pos + 2)).2.length) := by
          rw [tocPack_pdict_node, if_neg h1, if_neg h2]
        have hne : (tocPackEntries cfg m (pos + 2)).1 ≠ [] := by
          intro hE
          rw [hE] at h2
          simp at h2
        have hnv : nodeToValue (Node.mapNode
              (tocPackEntries cfg m (pos + 2)).1 pos
              (pos + 2 + (tocPackEntries cfg m (pos + 2)).2.length))
            = .vmap [("t", .vmap (nodeEntriesToValue
                (tocPackEntries cfg m (pos + 2)).1)),
              ("p", .vlist [.vint (pos : Int),
                .vint ((pos + 2
                  + (tocPackEntries cfg m (pos + 2)).2.length : Nat)
                  : Int)])] := by
          simp only [nodeToValue]
          rw [if_neg (by simp [hne])]
        have hread : readSlice buf off pos
            (pos + 2 + (tocPackEntries cfg m (pos + 2)).2.length)
            = packValue (coerce (.pdict m)) := by
          show sliceL buf (off + pos)
            (off + (pos + 2 + (tocPackEntries cfg m (pos + 2)).2.length))
            = _
          rw [show off + (pos + 2
                + (tocPackEntries cfg m (pos + 2)).2.length)
              = off + pos + (tocPack cfg (.pdict m) pos).2.length
            from by omega]
          rw [hwin, tocPack_bytes]
        obtain ⟨g1, rfl⟩ : ∃ g1, g = g1 + 1 := ⟨g - 1, by omega⟩
        obtain ⟨g2, rfl⟩ : ∃ g2, g1 = g2 + 1 := ⟨g1 - 1, by omega⟩
        refine ⟨.tDict off (.vmap [("t", .vmap (nodeEntriesToValue
            (tocPackEntries cfg m (pos + 2)).1)),
          ("p", .vlist [.vint (pos : Int),
            .vint ((pos + 2
              + (tocPackEntries cfg m (pos + 2)).2.length : Nat) : Int)])]),
          ?_, ?_⟩
        · rw [hnode, hnv, materialiseChild]
          rw [lookupKey_tp_t]
        · rw [finishTarget]
          rw [dictToObj]
          rw [lookupKey_tp_t]
          dsimp only
          by_cases hc : rc.cached = false
          · rw [if_pos hc]
            rw [lookupKey_tp_p]
            dsimp only
            rw [asRange_nat]
            dsimp only
            rw [hread, unpackExact_packValue]
          · rw [if_neg hc]
            by_cases hf : (fastFires rc (nodeEntriesToValue
                  (tocPackEntries cfg m (pos + 2)).1).length
                && (lookupKey [("t", .vmap (nodeEntriesToValue
                      (tocPackEntries cfg m (pos + 2)).1)),
                    ("p", .vlist [.vint (pos : Int),
                      .vint ((pos + 2
                        + (tocPackEntries cfg m (pos + 2)).2.length : Nat)
                        : Int)])] "p").isSome) = true
            · rw [if_pos hf]
              rw [lookupKey_tp_p]
              dsimp only
              rw [asRange_nat]
              dsimp only
              rw [hread, unpackExact_packValue]
            · rw [if_neg hf]
              rw [entriesRound rc buf off m cfg (pos + 2) g2 hmfm
                (pdict_entries_window buf off cfg m pos hwin) (by omega)]
              rw [show coerce (.pdict m) = Value.vmap (coerceEntries m)
                from by simp [coerce]]
              rfl
termination_by obj _ _ _ _ _ _ _ => pyW obj
decreasing_by
  all_goals simp [pyW, pyWList, pyWEntries, pyWList_map_pint, sortedInts_length]
  all_goals omega

/-- `_read_all` over packed elements returns the coerced elements. -/
theorem elemsRound (rc : RCfg) (buf : List Byte) (off : Nat) :
    ∀ (l : List PyObj) (cfg : WConfig) (pos g : Nat),
      markerFreeList l = true →
      sliceL buf (off + pos)
          (off + pos + (tocPackElems cfg l pos).2.length)
        = (tocPackElems cfg l pos).2 →
      3 * pyWList l + 1 ≤ g →
      readAllElems g rc buf off
          (nodeSeqToValue (tocPackElems cfg l pos).1)
        = some (coerceList l)
  | [], cfg, pos, g, _, _, hg => by
    obtain ⟨g1, rfl⟩ : ∃ g1, g = g1 + 1 := ⟨g - 1, by omega⟩
    simp only [tocPackElems, nodeSeqToValue, coerceList]
    rw [readAllElems]
  | v :: r, cfg, pos, g, hmf, hwin, hg => by
    simp only [markerFreeList, Bool.and_eq_true] at hmf
    obtain ⟨hmv, hmr⟩ := hmf
    have hpv := pyW_pos v
    have hbound : 3 * pyW v + 3 * pyWList r + 1 ≤ g := by
      simp only [pyWList] at hg
      omega
    obtain ⟨g1, rfl⟩ : ∃ g1, g = g1 + 1 :=
      ⟨g - 1, by have := pyW_pos v; omega⟩
    obtain ⟨g2, rfl⟩ : ∃ g2, g1 = g2 + 1 :=
      ⟨g1 - 1, by have := pyW_pos v; omega⟩
    have hw1 := elems_window_head buf off cfg v r pos hwin
    have hw2 := elems_window_tail buf off cfg v r pos hwin
    obtain ⟨t, hmat, hfin⟩ := toObjRound rc buf off v cfg pos g2 (g2 + 1)
      hmv hw1 (by have := pyW_pos v; omega)
    simp only [tocPackElems, nodeSeqToValue]
    rw [readAllElems, hmat, Option.some_bind, hfin, Option.some_bind]
    rw [elemsRound rc buf off r cfg (pos + (tocPack cfg v pos).2.length)
      (g2 + 1) hmr hw2 (by omega)]
    simp [coerceList]
termination_by l _ _ _ _ _ _ => pyWList l + 1
decreasing_by
  all_goals (simp [pyW, pyWList]; first
    | omega
    | (have hp := pyW_pos v; omega))

/-- `_read_all` over packed dict entries returns the coerced entries. -/
theorem entriesRound (rc : RCfg) (buf : List Byte) (off : Nat) :
    ∀ (m : List (String × PyObj)) (cfg : WConfig) (pos g : Nat),
      markerFreeEntries m = true →
      sliceL buf (off + pos)
          (off + pos + (tocPackEntries cfg m pos).2.length)
        = (tocPackEntries cfg m pos).2 →
      3 * pyWEntries m + 1 ≤ g →
      readAllEntries g rc buf off
          (nodeEntriesToValue (tocPackEntries cfg m pos).1)
        = some (coerceEntries m)
  | [], cfg, pos, g, _, _, hg => by
    obtain ⟨g1, rfl⟩ : ∃ g1, g = g1 + 1 := ⟨g - 1, by omega⟩
    simp only [tocPackEntries, nodeEntriesToValue, coerceEntries]
    rw [readAllEntries]
  | (k, v) :: r, cfg, pos, g, hmf, hwin, hg => by
    simp only [markerFreeEntries, Bool.and_eq_true] at hmf
    obtain ⟨hmv, hmr⟩ := hmf
    have hpv := pyW_pos v
    have hbound : 3 * pyW v + 3 * pyWEntries r + 1 ≤ g := by
      simp only [pyWEntries] at hg
      omega
    obtain ⟨g1, rfl⟩ : ∃ g1, g = g1 + 1 :=
      ⟨g - 1, by have := pyW_pos v; omega⟩
    obtain ⟨g2, rfl⟩ : ∃ g2, g1 = g2 + 1 :=
      ⟨g1 - 1, by have := pyW_pos v; omega⟩
    have hw1 := entries_window_head buf off cfg k v r pos hwin
    have hw2 := entries_window_tail buf off cfg k v r pos hwin
    obtain ⟨t, hmat, hfin⟩ := toObjRound rc buf off v cfg
      (pos + (packValue (.vstr k)).length) g2 (g2 + 1)
      hmv hw1 (by have := pyW_pos v; omega)
    simp only [tocPackEntries, nodeEntriesToValue]
    rw [readAllEntries, hmat, Option.some_bind, hfin, Option.some_bind]
    rw [entriesRound rc buf off r cfg
      (pos + (packValue (.vstr k)).length
        + (tocPack cfg v (pos + (packValue (.vstr k)).length)).2.length)
      (g2 + 1) hmr hw2 (by omega)]
    simp [coerceEntries]
termination_by m _ _ _ _ _ _ => pyWEntries m + 1
decreasing_by
  all_goals (simp [pyW, pyWEntries]; first
    | omega
    | (have hp := pyW_pos v; omega))

end

/-- C1 (amended): for every accepted value none of whose byte strings
carries `b"multiarray"` within its first 40 bytes, writing with
`LazyWriter` and calling `to_obj()` on a `LazyReader` opened on the
resulting bytes returns the value up to the tuple→list and
set→sorted-list coercions, for every reader flag combination and
enough fuel.  The marker-free hypothesis is necessary: a byte string
with the marker is handed to `pickle.loads` instead of being returned
(see the counterexample). -/
theorem c1_roundtrip_markerfree (cfg : WConfig) (rc : RCfg) (obj : PyObj)
    (g : Nat) (hmf : markerFree obj = true) (hg : 3 * pyW obj + 1 ≤ g) :
    fileToObj g rc (writerOutput cfg obj) 0 = some (coerce obj) := by
  obtain ⟨g1, rfl⟩ : ∃ g1, g = g1 + 1 :=
    ⟨g - 1, by have := pyW_pos obj; omega⟩
  unfold fileToObj
  rw [readerNew_writerOutput]
  obtain ⟨g2, rfl⟩ : ∃ g2, g1 = g2 + 1 :=
    ⟨g1 - 1, by have := pyW_pos obj; omega⟩
  have hwin := writerOutput_payload_window cfg obj
  obtain ⟨t, hmat, hfin⟩ := toObjRound rc (writerOutput cfg obj) 50 obj cfg
    0 g2 (g2 + 1 + 1) hmf hwin (by omega)
  rw [hmat, Option.some_bind, hfin]

/-- Witness for C1: the one-element list `[7]` round-trips through a
written file under cached reading. -/
theorem c1_roundtrip_markerfree_witness :
    markerFree (PyObj.plist [PyObj.pint 7]) = true
    ∧ 3 * pyW (PyObj.plist [PyObj.pint 7]) + 1 ≤ 10
    ∧ fileToObj 10 ⟨true, false, 1⟩
        (writerOutput ⟨3, 2⟩ (PyObj.plist [PyObj.pint 7])) 0
      = some (coerce (PyObj.plist [PyObj.pint 7])) :=
  ⟨rfl, by decide,
    c1_roundtrip_markerfree ⟨3, 2⟩ ⟨true, false, 1⟩
      (PyObj.plist [PyObj.pint 7]) 10 rfl (by decide)⟩

/-- C1 counterexample: the original claim quantifies over every byte
string, but writing the 10-byte value `b"multiarray"` and reading it
back does not return it — the reader's pickle sniffing fires on the
marker and `to_obj` hands the payload to `pickle.loads` instead. -/
theorem c1_marker_counterexample :
    coerce (.pbytes markerBytes) = .vbytes markerBytes
    ∧ markerFree (.pbytes markerBytes) = false
    ∧ fileToObj 10 ⟨true, false, 1⟩
        (writerOutput ⟨3, 2⟩ (.pbytes markerBytes)) 0 = none := by
  refine ⟨rfl, by decide, ?_⟩
  unfold fileToObj
  rw [show (10 : Nat) = 9 + 1 from rfl, readerNew_writerOutput]
  have hnode : (tocPack ⟨3, 2⟩ (.pbytes markerBytes) 0).1
      = Node.leaf 0 (0 + (tocPack ⟨3, 2⟩ (.pbytes markerBytes) 0).2.length)
        (decide (0 + (tocPack ⟨3, 2⟩ (.pbytes markerBytes) 0).2.length
          ≤ 0 + (2 : Nat))) := by
    simp [tocPack, tocLeaf]
  rw [hnode]
  rw [show nodeToValue (Node.leaf 0
        (0 + (tocPack ⟨3, 2⟩ (.pbytes markerBytes) 0).2.length)
        (decide (0 + (tocPack ⟨3, 2⟩ (.pbytes markerBytes) 0).2.length
          ≤ 0 + (2 : Nat))))
      = .vmap [("p", .vlist [.vint ((0 : Nat) : Int),
          .vint ((0 + (tocPack ⟨3, 2⟩
            (.pbytes markerBytes) 0).2.length : Nat) : Int)])]
    from by simp [nodeToValue]]
  rw [show (9 : Nat) = 8 + 1 from rfl, materialiseChild]
  rw [lookupKey_p_t]
  dsimp only
  rw [lookupKey_p_p]
  dsimp only
  rw [asRange_nat]
  dsimp only
  have hwin := writerOutput_payload_window ⟨3, 2⟩ (.pbytes markerBytes)
  have hread : readSlice (writerOutput ⟨3, 2⟩ (.pbytes markerBytes)) 50 0
      (0 + (tocPack ⟨3, 2⟩ (.pbytes markerBytes) 0).2.length)
      = packValue (.vbytes markerBytes) := by
    show sliceL (writerOutput ⟨3, 2⟩ (.pbytes markerBytes)) (50 + 0)
      (50 + (0 + (tocPack ⟨3, 2⟩ (.pbytes markerBytes) 0).2.length)) = _
    rw [show 50 + (0 + (tocPack ⟨3, 2⟩ (.pbytes markerBytes) 0).2.length)
        = 50 + 0 + (tocPack ⟨3, 2⟩ (.pbytes markerBytes) 0).2.length
      from by omega]
    rw [hwin, tocPack_bytes]
    simp [coerce]
  rw [hread, unpackExact_packValue]
  dsimp only
  rw [show hasMarker markerBytes = true from by decide]
  rfl

/-! ## Offset relativity of embedded files (C5)

Reading an embedded file inside a combined archive only touches the
buffer through payload-relative windows, so two buffers agreeing on
those windows drive every reader function to the same result. -/

/-- Pointwise relation on fallible results. -/
def ORel (r : α → β → Prop) : Option α → Option β → Prop
  | none, none => True
  | some a, some b => r a b
  | _, _ => False

theorem ORel_none (r : α → β → Prop) : ORel r none none := trivial

/-- Well-formedness bound for a serialised TOC consumed by the reader:
every `p` range and every block end stays within `B` bytes of the
payload base, children are recursively well-formed, and no child is an
integer (an integer child spawns an embedded reader at an arbitrary
offset). -/
def wfP (B : Nat) : Option Value → Bool
  | none => true
  | some p =>
    match asRange p with
    | some (_, e) => decide (e ≤ B)
    | none =>
      match p with
      | .vlist ps =>
        match parseTriples ps with
        | some ts => ts.all fun t => decide (t.2.2 ≤ B)
        | none => true
      | _ => true

mutual

def wfToc : Nat → Value → Bool
  | B, .vmap m => wfP B (lookupKey m "p") && wfEntries B m
  | _, .vint _ => false
  | _, _ => true

def wfEntries : Nat → List (String × Value) → Bool
  | _, [] => true
  | B, (k, v) :: r =>
    (if k = "t" then wfTVal B v else true) && wfEntries B r

def wfTVal : Nat → Value → Bool
  | B, .vlist cs => wfChildren B cs
  | B, .vmap es => wfChildEntries B es
  | _, _ => true

def wfChildren : Nat → List Value → Bool
  | _, [] => true
  | B, c :: r => wfToc B c && wfChildren B r

def wfChildEntries : Nat → List (String × Value) → Bool
  | _, [] => true
  | B, (_, c) :: r => wfToc B c && wfChildEntries B r

end

theorem wfEntries_t (B : Nat) :
    ∀ (m : List (String × Value)) (tv : Value),
      wfEntries B m = true → lookupKey m "t" = some tv →
      wfTVal B tv = true
  | [], tv, _, hget => Option.noConfusion hget
  | (k, v) :: r, tv, hwf, hget => by
    simp only [wfEntries, Bool.and_eq_true] at hwf
    unfold lookupKey at hget
    split at hget
    · cases hget
      rename_i hk
      rw [if_pos hk] at hwf
      exact hwf.1
    · exact wfEntries_t B r tv hwf.2 hget

theorem wf_p_part (B : Nat) (m : List (String × Value))
    (h : wfToc B (.vmap m) = true) : wfP B (lookupKey m "p") = true := by
  simp only [wfToc, Bool.and_eq_true] at h
  exact h.1

theorem wf_t_list (B : Nat) (m : List (String × Value)) (cs : List Value)
    (h : wfToc B (.vmap m) = true)
    (ht : lookupKey m "t" = some (.vlist cs)) : wfChildren B cs = true := by
  simp only [wfToc, Bool.and_eq_true] at h
  have := wfEntries_t B m _ h.2 ht
  simpa [wfTVal] using this

theorem wf_t_map (B : Nat) (m : List (String × Value))
    (es : List (String × Value)) (h : wfToc B (.vmap m) = true)
    (ht : lookupKey m "t" = some (.vmap es)) :
    wfChildEntries B es = true := by
  simp only [wfToc, Bool.and_eq_true] at h
  have := wfEntries_t B m _ h.2 ht
  simpa [wfTVal] using this

theorem wfChildren_get (B : Nat) :
    ∀ (cs : List Value) (i : Nat) (c : Value),
      wfChildren B cs = true → cs.get? i = some c → wfToc B c = true
  | [], i, c, _, hget => by cases i <;> exact Option.noConfusion hget
  | a :: r, 0, c, hwf, hget => by
    rw [List.get?_cons_zero] at hget
    cases hget
    simp only [wfChildren, Bool.and_eq_true] at hwf
    exact hwf.1
  | a :: r, i + 1, c, hwf, hget => by
    rw [List.get?_cons_succ] at hget
    simp only [wfChildren, Bool.and_eq_true] at hwf
    exact wfChildren_get B r i c hwf.2 hget

theorem wfChildren_pyGet (B : Nat) (cs : List Value) (j : Int) (c : Value)
    (hwf : wfChildren B cs = true) (hget : pyGet cs j = some c) :
    wfToc B c = true := by
  unfold pyGet at hget
  split at hget
  · exact wfChildren_get B cs _ c hwf hget
  · split at hget
    · exact wfChildren_get B cs _ c hwf hget
    · exact Option.noConfusion hget

theorem wfChildEntries_lookup (B : Nat) :
    ∀ (es : List (String × Value)) (key : String) (c : Value),
      wfChildEntries B es = true → lookupKey es key = some c →
      wfToc B c = true
  | [], key, c, _, hget => Option.noConfusion hget
  | (k, v) :: r, key, c, hwf, hget => by
    simp only [wfChildEntries, Bool.and_eq_true] at hwf
    unfold lookupKey at hget
    split at hget
    · cases hget
      exact hwf.1
    · exact wfChildEntries_lookup B r key c hwf.2 hget

/-- Two buffers agreeing on every window of at most `B` bytes past
their respective bases. -/
def SlicesAgree (b1 : List Byte) (o1 : Nat) (b2 : List Byte) (o2 : Nat)
    (B : Nat) : Prop :=
  ∀ s e : Nat, e ≤ B → sliceL b1 (o1 + s) (o1 + e) = sliceL b2 (o2 + s) (o2 + e)

theorem slicesAgree_of_windows (b1 b2 : List Byte) (o1 o2 : Nat)
    (W : List Byte)
    (h1 : sliceL b1 o1 (o1 + W.length) = W)
    (h2 : sliceL b2 o2 (o2 + W.length) = W) :
    SlicesAgree b1 o1 b2 o2 W.length := by
  intro s e he
  by_cases hse : s ≤ e
  · rw [sliceL_sub b1 W o1 _ s e h1 hse he,
      sliceL_sub b2 W o2 _ s e h2 hse he]
  · have h3 : ∀ (b : List Byte) (o : Nat), sliceL b (o + s) (o + e) = [] := by
      intro b o
      unfold sliceL
      rw [show o + e - (o + s) = 0 from by omega]
      rfl
    rw [h3, h3]

theorem readSlice_agree (b1 b2 : List Byte) (o1 o2 B : Nat)
    (hsim : SlicesAgree b1 o1 b2 o2 B) (s e : Nat) (he : e ≤ B) :
    readSlice b1 o1 s e = readSlice b2 o2 s e := hsim s e he

theorem mapM_congr2 (f1 f2 : α → Option β) :
    ∀ (l : List α), (∀ a, a ∈ l → f1 a = f2 a) → l.mapM f1 = l.mapM f2
  | [], _ => rfl
  | a :: r, h => by
    rw [List.mapM_cons, List.mapM_cons, h a (by simp),
      mapM_congr2 f1 f2 r (fun x hx => h x (by simp [hx]))]

theorem blockGetAbs_agree (b1 b2 : List Byte) (o1 o2 B : Nat)
    (hsim : SlicesAgree b1 o1 b2 o2 B) (ts : List (Nat × Nat × Nat))
    (hts : (ts.all fun t => decide (t.2.2 ≤ B)) = true) (i : Nat) :
    blockGetAbs b1 o1 ts i = blockGetAbs b2 o2 ts i := by
  unfold blockGetAbs
  cases hk : lookupIndex (sizeList ts) (i : Int) with
  | none => rfl
  | some k =>
    rw [Option.some_bind, Option.some_bind]
    cases hg : ts.get? k with
    | none => rfl
    | some t =>
      obtain ⟨c, s, e⟩ := t
      have hmem : (c, s, e) ∈ ts := List.get?_mem hg
      have hbound : e ≤ B := by
        have := List.all_eq_true.mp hts _ hmem
        simpa using this
      dsimp only
      rw [readSlice_agree b1 b2 o1 o2 B hsim s e hbound]

theorem concatBlocks_agree (b1 b2 : List Byte) (o1 o2 B : Nat)
    (hsim : SlicesAgree b1 o1 b2 o2 B) :
    ∀ (ts : List (Nat × Nat × Nat)),
      (ts.all fun t => decide (t.2.2 ≤ B)) = true →
      concatBlocks b1 o1 ts = concatBlocks b2 o2 ts
  | [], _ => rfl
  | (c, s, e) :: r, hts => by
    simp only [List.all_cons, Bool.and_eq_true] at hts
    unfold concatBlocks
    rw [readSlice_agree b1 b2 o1 o2 B hsim s e (by simpa using hts.1)]
    rw [concatBlocks_agree b1 b2 o1 o2 B hsim r hts.2]

theorem blockReadAll_agree (b1 b2 : List Byte) (o1 o2 B : Nat)
    (hsim : SlicesAgree b1 o1 b2 o2 B) (ts : List (Nat × Nat × Nat))
    (hts : (ts.all fun t => decide (t.2.2 ≤ B)) = true) :
    blockReadAll b1 o1 ts = blockReadAll b2 o2 ts := by
  unfold blockReadAll
  exact mapM_congr2 _ _ _
    (fun i _ => blockGetAbs_agree b1 b2 o1 o2 B hsim ts hts i)

theorem blockToObj_agree (rc : RCfg) (b1 b2 : List Byte) (o1 o2 B : Nat)
    (hsim : SlicesAgree b1 o1 b2 o2 B) (ts : List (Nat × Nat × Nat))
    (hts : (ts.all fun t => decide (t.2.2 ≤ B)) = true) :
    blockToObj rc b1 o1 ts = blockToObj rc b2 o2 ts := by
  unfold blockToObj
  rw [concatBlocks_agree b1 b2 o1 o2 B hsim ts hts,
    blockReadAll_agree b1 b2 o1 o2 B hsim ts hts]

mutual

/-- Walk targets over the two buffers that agree up to base shift:
identical plain values, identical sub-TOCs anchored at the respective
bases. -/
inductive RT (o1 o2 B : Nat) : RTarget → RTarget → Prop where
  | plain : ∀ v, RT o1 o2 B (.tPlain v) (.tPlain v)
  | list : ∀ toc, wfToc B toc = true →
      RT o1 o2 B (.tList o1 toc) (.tList o2 toc)
  | dict : ∀ toc, wfToc B toc = true →
      RT o1 o2 B (.tDict o1 toc) (.tDict o2 toc)
  | seq : ∀ l1 l2, RTs o1 o2 B l1 l2 → RT o1 o2 B (.tSeq l1) (.tSeq l2)

inductive RTs (o1 o2 B : Nat) : List RTarget → List RTarget → Prop where
  | nil : RTs o1 o2 B [] []
  | cons : ∀ t1 t2 l1 l2, RT o1 o2 B t1 t2 → RTs o1 o2 B l1 l2 →
      RTs o1 o2 B (t1 :: l1) (t2 :: l2)

end

theorem RTs_length (o1 o2 B : Nat) :
    ∀ (l1 l2 : List RTarget), RTs o1 o2 B l1 l2 → l1.length = l2.length
  | _, _, .nil => rfl
  | _, _, .cons _ _ l1 l2 _ h => by
    simpa using RTs_length o1 o2 B l1 l2 h

theorem RTs_get (o1 o2 B : Nat) :
    ∀ (l1 l2 : List RTarget), RTs o1 o2 B l1 l2 →
      ∀ i : Nat, ORel (RT o1 o2 B) (l1.get? i) (l2.get? i)
  | _, _, .nil, i => by simp [ORel]
  | _, _, .cons t1 t2 l1 l2 h hs, 0 => by
    simpa [ORel] using h
  | _, _, .cons t1 t2 l1 l2 h hs, i + 1 => by
    simpa using RTs_get o1 o2 B l1 l2 hs i

theorem RTs_pyGet (o1 o2 B : Nat) (l1 l2 : List RTarget)
    (h : RTs o1 o2 B l1 l2) (j : Int) :
    ORel (RT o1 o2 B) (pyGet l1 j) (pyGet l2 j) := by
  have hlen := RTs_length o1 o2 B l1 l2 h
  unfold pyGet
  rw [← hlen]
  by_cases h0 : (0 : Int) ≤ j
  · rw [if_pos h0, if_pos h0]
    exact RTs_get o1 o2 B l1 l2 h _
  · rw [if_neg h0, if_neg h0]
    by_cases h1 : -(l1.length : Int) ≤ j
    · rw [if_pos h1, if_pos h1]
      exact RTs_get o1 o2 B l1 l2 h _
    · rw [if_neg h1, if_neg h1]
      exact ORel_none _

theorem RTs_selectIdxs (o1 o2 B : Nat) (l1 l2 : List RTarget)
    (h : RTs o1 o2 B l1 l2) :
    ∀ (idxs : List Int),
      ORel (RTs o1 o2 B) (selectIdxs l1 idxs) (selectIdxs l2 idxs)
  | [] => by exact RTs.nil
  | j :: r => by
    have h1 := RTs_pyGet o1 o2 B l1 l2 h j
    have h2 := RTs_selectIdxs o1 o2 B l1 l2 h r
    unfold selectIdxs at h2 ⊢
    rw [List.mapM_cons, List.mapM_cons]
    cases hg1 : pyGet l1 j with
    | none =>
      cases hg2 : pyGet l2 j with
      | none => exact ORel_none _
      | some t2 => rw [hg1, hg2] at h1; exact absurd h1 (by simp [ORel])
    | some t1 =>
      cases hg2 : pyGet l2 j with
      | none => rw [hg1, hg2] at h1; exact absurd h1 (by simp [ORel])
      | some t2 =>
        rw [hg1, hg2] at h1
        cases hm1 : List.mapM (pyGet l1) r with
        | none =>
          cases hm2 : List.mapM (pyGet l2) r with
          | none => exact ORel_none _
          | some v2 => rw [hm1, hm2] at h2; exact absurd h2 (by simp [ORel])
        | some v1 =>
          cases hm2 : List.mapM (pyGet l2) r with
          | none => rw [hm1, hm2] at h2; exact absurd h2 (by simp [ORel])
          | some v2 =>
            rw [hm1, hm2] at h2
            exact RTs.cons t1 t2 v1 v2 h1 h2

theorem wfP_range (B : Nat) (p : Value) (s e : Nat)
    (h : wfP B (some p) = true) (har : asRange p = some (s, e)) : e ≤ B := by
  unfold wfP at h
  dsimp only at h
  rw [har] at h
  exact of_decide_eq_true h

theorem wfP_triples (B : Nat) (ps : List Value)
    (ts : List (Nat × Nat × Nat))
    (h : wfP B (some (.vlist ps)) = true)
    (har : asRange (.vlist ps) = none) (hts : parseTriples ps = some ts) :
    (ts.all fun t => decide (t.2.2 ≤ B)) = true := by
  unfold wfP at h
  dsimp only at h
  rw [har] at h
  dsimp only at h
  rw [hts] at h
  exact h

theorem parseTriples_asRange (ps : List Value) (s e : Nat)
    (ts : List (Nat × Nat × Nat)) (h : asRange (.vlist ps) = some (s, e))
    (h2 : parseTriples ps = some ts) : False := by
  rcases ps with _ | ⟨x, _ | ⟨y, _ | ⟨z, r⟩⟩⟩
  · exact Option.noConfusion h
  · cases x <;> exact Option.noConfusion h
  · cases x <;> try exact Option.noConfusion h
    cases y <;> try exact Option.noConfusion h
    exact Option.noConfusion h2
  · cases x <;> try exact Option.noConfusion h
    cases y <;> exact Option.noConfusion h

theorem ORel_map_plain (o1 o2 B : Nat) (o : Option Value) :
    ORel (RT o1 o2 B) (o.map .tPlain) (o.map .tPlain) := by
  cases o with
  | none => exact ORel_none _
  | some v => exact RT.plain v

/-- `_child` over agreeing windows: related targets (no recursion is
possible because well-formed TOCs carry no integer children). -/
theorem simMaterialise (rc : RCfg) (b1 b2 : List Byte) (o1 o2 B : Nat)
    (hsim : SlicesAgree b1 o1 b2 o2 B) :
    ∀ (f : Nat) (toc : Value), wfToc B toc = true →
      ORel (RT o1 o2 B) (materialiseChild f rc b1 o1 toc)
        (materialiseChild f rc b2 o2 toc)
  | 0, toc, _ => ORel_none _
  | f + 1, toc, hwf => by
    cases toc with
    | vint n => exact absurd hwf (by simp [wfToc])
    | vnil => exact ORel_none _
    | vbool x => exact ORel_none _
    | vstr x => exact ORel_none _
    | vbytes x => exact ORel_none _
    | vlist x => exact ORel_none _
    | vmap m =>
      rw [materialiseChild, materialiseChild]
      cases ht : lookupKey m "t" with
      | none =>
        dsimp only
        cases hp : lookupKey m "p" with
        | none => exact ORel_none _
        | some p =>
          dsimp only
          cases har : asRange p with
          | none => exact RT.list (.vmap m) hwf
          | some se =>
            obtain ⟨s, e⟩ := se
            have hb : e ≤ B := by
              apply wfP_range B p s e _ har
              rw [← hp]
              exact wf_p_part B m hwf
            dsimp only
            rw [readSlice_agree b1 b2 o1 o2 B hsim s e hb]
            cases hu : unpackExact (readSlice b2 o2 s e) with
            | none => exact ORel_none _
            | some v =>
              cases v with
              | vbytes bs =>
                dsimp only
                cases hasMarker bs with
                | true =>
                  rw [if_pos rfl]
                  exact ORel_map_plain o1 o2 B _
                | false =>
                  rw [if_neg (by simp)]
                  exact RT.plain _
              | vnil => exact RT.plain _
              | vbool x => exact RT.plain _
              | vint x => exact RT.plain _
              | vstr x => exact RT.plain _
              | vlist x => exact RT.plain _
              | vmap x => exact RT.plain _
      | some tv =>
        cases tv with
        | vlist cs => exact RT.list (.vmap m) hwf
        | vmap es => exact RT.dict (.vmap m) hwf
        | vnil => exact ORel_none _
        | vbool x => exact ORel_none _
        | vint x => exact ORel_none _
        | vstr x => exact ORel_none _
        | vbytes x => exact ORel_none _

/-- `__getitem__` with an integer over agreeing windows. -/
theorem simGetInt (rc : RCfg) (b1 b2 : List Byte) (o1 o2 B : Nat)
    (hsim : SlicesAgree b1 o1 b2 o2 B) :
    ∀ (f : Nat) (toc : Value) (i : Int), wfToc B toc = true →
      ORel (RT o1 o2 B) (lazyListGetInt f rc b1 o1 toc i)
        (lazyListGetInt f rc b2 o2 toc i)
  | 0, toc, i, _ => ORel_none _
  | f + 1, toc, i, hwf => by
    cases toc with
    | vmap m =>
      rw [lazyListGetInt, lazyListGetInt]
      cases ht : lookupKey m "t" with
      | some tv =>
        cases tv with
        | vlist children =>
          dsimp only
          cases hni : normaliseIndexF (f + 1) i children.length with
          | none => exact ORel_none _
          | some item =>
            dsimp only
            by_cases hcond : -(children.length : Int) ≤ i
                ∧ i < (children.length : Int)
            · rw [if_pos hcond, if_pos hcond]
              cases hpg : pyGet children item with
              | none => exact ORel_none _
              | some ctoc =>
                dsimp only
                exact simMaterialise rc b1 b2 o1 o2 B hsim f ctoc
                  (wfChildren_pyGet B children item ctoc
                    (wf_t_list B m children hwf ht) hpg)
            · rw [if_neg hcond, if_neg hcond]
              exact ORel_none _
        | vnil => exact ORel_none _
        | vbool x => exact ORel_none _
        | vint x => exact ORel_none _
        | vstr x => exact ORel_none _
        | vbytes x => exact ORel_none _
        | vmap x => exact ORel_none _
      | none =>
        dsimp only
        cases hp : lookupKey m "p" with
        | none => exact ORel_none _
        | some p =>
          cases p with
          | vlist ps =>
            dsimp only
            cases hpt : parseTriples ps with
            | none => exact ORel_none _
            | some ts =>
              dsimp only
              have hb : (ts.all fun t => decide (t.2.2 ≤ B)) = true := by
                cases har : asRange (.vlist ps) with
                | none =>
                  apply wfP_triples B ps ts _ har hpt
                  rw [← hp]
                  exact wf_p_part B m hwf
                | some se =>
                  obtain ⟨s, e⟩ := se
                  exact absurd hpt (fun h2 =>
                    parseTriples_asRange ps s e ts har h2)
              cases hni : normaliseIndexF (f + 1) i (sumCounts ts) with
              | none => exact ORel_none _
              | some item =>
                dsimp only
                cases hli : lookupIndex (sizeList ts) item with
                | none => exact ORel_none _
                | some k =>
                  dsimp only
                  by_cases hcond : -(sumCounts ts : Int) ≤ i
                      ∧ i < (sumCounts ts : Int)
                  · rw [if_pos hcond, if_pos hcond]
                    rw [blockGetAbs_agree b1 b2 o1 o2 B hsim ts hb i.toNat]
                    exact ORel_map_plain o1 o2 B _
                  · rw [if_neg hcond, if_neg hcond]
                    exact ORel_none _
          | vnil => exact ORel_none _
          | vbool x => exact ORel_none _
          | vint x => exact ORel_none _
          | vstr x => exact ORel_none _
          | vbytes x => exact ORel_none _
          | vmap x => exact ORel_none _
    | vint n => exact absurd hwf (by simp [wfToc])
    | vnil => exact ORel_none _
    | vbool x => exact ORel_none _
    | vstr x => exact ORel_none _
    | vbytes x => exact ORel_none _
    | vlist x => exact ORel_none _

/-- Materialisation at a list of positions over agreeing windows. -/
theorem simMaterialiseAt (rc : RCfg) (b1 b2 : List Byte) (o1 o2 B : Nat)
    (hsim : SlicesAgree b1 o1 b2 o2 B) :
    ∀ (f : Nat) (children : List Value) (idxs : List Int),
      wfChildren B children = true →
      ORel (RTs o1 o2 B) (materialiseAt f rc b1 o1 children idxs)
        (materialiseAt f rc b2 o2 children idxs)
  | 0, children, idxs, _ => ORel_none _
  | f + 1, children, [], _ => RTs.nil
  | f + 1, children, j :: r, hwf => by
    rw [materialiseAt, materialiseAt]
    cases hpg : pyGet children j with
    | none => exact ORel_none _
    | some c =>
      rw [Option.some_bind, Option.some_bind]
      have hm := simMaterialise rc b1 b2 o1 o2 B hsim f c
        (wfChildren_pyGet B children j c hwf hpg)
      cases hm1 : materialiseChild f rc b1 o1 c with
      | none =>
        cases hm2 : materialiseChild f rc b2 o2 c with
        | none => exact ORel_none _
        | some t2 =>
          rw [hm1, hm2] at hm
          exact absurd hm (by simp [ORel])
      | some t1 =>
        cases hm2 : materialiseChild f rc b2 o2 c with
        | none =>
          rw [hm1, hm2] at hm
          exact absurd hm (by simp [ORel])
        | some t2 =>
          rw [hm1, hm2] at hm
          rw [Option.some_bind, Option.some_bind]
          have hr := simMaterialiseAt rc b1 b2 o1 o2 B hsim f children r hwf
          cases hr1 : materialiseAt f rc b1 o1 children r with
          | none =>
            cases hr2 : materialiseAt f rc b2 o2 children r with
            | none => exact ORel_none _
            | some l2 =>
              rw [hr1, hr2] at hr
              exact absurd hr (by simp [ORel])
          | some l1 =>
            cases hr2 : materialiseAt f rc b2 o2 children r with
            | none =>
              rw [hr1, hr2] at hr
              exact absurd hr (by simp [ORel])
            | some l2 =>
              rw [hr1, hr2] at hr
              exact RTs.cons t1 t2 l1 l2 hm hr

/-- `__getitem__` with a slice over agreeing windows. -/
theorem simGetSlice (rc : RCfg) (b1 b2 : List Byte) (o1 o2 B : Nat)
    (hsim : SlicesAgree b1 o1 b2 o2 B) :
    ∀ (f : Nat) (toc : Value) (a bb st : Int), wfToc B toc = true →
      ORel (RT o1 o2 B) (lazyListGetSlice f rc b1 o1 toc a bb st)
        (lazyListGetSlice f rc b2 o2 toc a bb st)
  | 0, toc, a, bb, st, _ => ORel_none _
  | f + 1, toc, a, bb, st, hwf => by
    cases toc with
    | vmap m =>
      rw [lazyListGetSlice, lazyListGetSlice]
      dsimp only
      cases hsi : sliceIndices a bb st (lazyListLen (.vmap m)) with
      | none => exact ORel_none _
      | some abst =>
        obtain ⟨a2, b2v, st2⟩ := abst
        dsimp only
        cases ht : lookupKey m "t" with
        | some tv =>
          cases tv with
          | vlist children =>
            dsimp only
            have hm := simMaterialiseAt rc b1 b2 o1 o2 B hsim f children
              (rangeList a2 b2v st2) (wf_t_list B m children hwf ht)
            cases hm1 : materialiseAt f rc b1 o1 children
                (rangeList a2 b2v st2) with
            | none =>
              cases hm2 : materialiseAt f rc b2 o2 children
                  (rangeList a2 b2v st2) with
              | none => exact ORel_none _
              | some l2 =>
                rw [hm1, hm2] at hm
                exact absurd hm (by simp [ORel])
            | some l1 =>
              cases hm2 : materialiseAt f rc b2 o2 children
                  (rangeList a2 b2v st2) with
              | none =>
                rw [hm1, hm2] at hm
                exact absurd hm (by simp [ORel])
              | some l2 =>
                rw [hm1, hm2] at hm
                exact RT.seq l1 l2 hm
          | vnil => exact ORel_none _
          | vbool x => exact ORel_none _
          | vint x => exact ORel_none _
          | vstr x => exact ORel_none _
          | vbytes x => exact ORel_none _
          | vmap x => exact ORel_none _
        | none =>
          dsimp only
          cases hp : lookupKey m "p" with
          | none => exact ORel_none _
          | some p =>
            cases p with
            | vlist ps =>
              dsimp only
              cases hpt : parseTriples ps with
              | none => exact ORel_none _
              | some ts =>
                dsimp only
                have hb : (ts.all fun t => decide (t.2.2 ≤ B)) = true := by
                  cases har : asRange (.vlist ps) with
                  | none =>
                    apply wfP_triples B ps ts _ har hpt
                    rw [← hp]
                    exact wf_p_part B m hwf
                  | some se =>
                    obtain ⟨s, e⟩ := se
                    exact absurd hpt (fun h2 =>
                      parseTriples_asRange ps s e ts har h2)
                have hco := mapM_congr2
                  (fun j : Int =>
                    if 0 ≤ j then blockGetAbs b1 o1 ts j.toNat else none)
                  (fun j : Int =>
                    if 0 ≤ j then blockGetAbs b2 o2 ts j.toNat else none)
                  (rangeList a2 b2v st2) (fun j _ => by
                    dsimp only
                    by_cases hj : (0 : Int) ≤ j
                    · rw [if_pos hj, if_pos hj,
                        blockGetAbs_agree b1 b2 o1 o2 B hsim ts hb j.toNat]
                    · rw [if_neg hj, if_neg hj])
                rw [hco]
                cases hmm : (rangeList a2 b2v st2).mapM fun j =>
                    if 0 ≤ j then blockGetAbs b2 o2 ts j.toNat
                    else none with
                | none => exact ORel_none _
                | some vs => exact RT.plain _
            | vnil => exact ORel_none _
            | vbool x => exact ORel_none _
            | vint x => exact ORel_none _
            | vstr x => exact ORel_none _
            | vbytes x => exact ORel_none _
            | vmap x => exact ORel_none _
    | vint n => exact absurd hwf (by simp [wfToc])
    | vnil => exact ORel_none _
    | vbool x => exact ORel_none _
    | vstr x => exact ORel_none _
    | vbytes x => exact ORel_none _
    | vlist x => exact ORel_none _

mutual

/-- `to_obj` of related targets over agreeing windows is identical. -/
theorem simFinish (rc : RCfg) (b1 b2 : List Byte) (o1 o2 B : Nat)
    (hsim : SlicesAgree b1 o1 b2 o2 B) :
    ∀ (f : Nat) (t1 t2 : RTarget), RT o1 o2 B t1 t2 →
      finishTarget f rc b1 t1 = finishTarget f rc b2 t2
  | 0, t1, t2, _ => by simp only [finishTarget]
  | f + 1, _, _, .plain v => by rw [finishTarget, finishTarget]
  | f + 1, _, _, .list toc hwf => by
    rw [finishTarget, finishTarget]
    exact simListToObj rc b1 b2 o1 o2 B hsim f toc hwf
  | f + 1, _, _, .dict toc hwf => by
    rw [finishTarget, finishTarget]
    exact simDictToObj rc b1 b2 o1 o2 B hsim f toc hwf
  | f + 1, _, _, .seq l1 l2 hs => by
    rw [finishTarget, finishTarget]
    rw [simFinishSeq rc b1 b2 o1 o2 B hsim f l1 l2 hs]
termination_by f _ _ _ => f

theorem simFinishSeq (rc : RCfg) (b1 b2 : List Byte) (o1 o2 B : Nat)
    (hsim : SlicesAgree b1 o1 b2 o2 B) :
    ∀ (f : Nat) (l1 l2 : List RTarget), RTs o1 o2 B l1 l2 →
      finishSeq f rc b1 l1 = finishSeq f rc b2 l2
  | 0, l1, l2, _ => by simp only [finishSeq]
  | f + 1, _, _, .nil => by rw [finishSeq, finishSeq]
  | f + 1, _, _, .cons t1 t2 r1 r2 h hs => by
    rw [finishSeq, finishSeq]
    rw [simFinish rc b1 b2 o1 o2 B hsim f t1 t2 h]
    rw [simFinishSeq rc b1 b2 o1 o2 B hsim f r1 r2 hs]
termination_by f _ _ _ => f

theorem simListToObj (rc : RCfg) (b1 b2 : List Byte) (o1 o2 B : Nat)
    (hsim : SlicesAgree b1 o1 b2 o2 B) :
    ∀ (f : Nat) (toc : Value), wfToc B toc = true →
      listToObj f rc b1 o1 toc = listToObj f rc b2 o2 toc
  | 0, toc, _ => by simp only [listToObj]
  | f + 1, toc, hwf => by
    cases toc with
    | vmap m =>
      rw [listToObj, listToObj]
      cases ht : lookupKey m "t" with
      | none =>
        dsimp only
        cases hp : lookupKey m "p" with
        | none => rfl
        | some p =>
          cases p with
          | vlist ps =>
            dsimp only
            cases hpt : parseTriples ps with
            | none => rfl
            | some ts =>
              dsimp only
              have hb : (ts.all fun t => decide (t.2.2 ≤ B)) = true := by
                cases har : asRange (.vlist ps) with
                | none =>
                  apply wfP_triples B ps ts _ har hpt
                  rw [← hp]
                  exact wf_p_part B m hwf
                | some se =>
                  obtain ⟨s, e⟩ := se
                  exact absurd hpt (fun h2 =>
                    parseTriples_asRange ps s e ts har h2)
              exact blockToObj_agree rc b1 b2 o1 o2 B hsim ts hb
          | vnil => rfl
          | vbool x => rfl
          | vint x => rfl
          | vstr x => rfl
          | vbytes x => rfl
          | vmap x => rfl
      | some tv =>
        cases tv with
        | vlist children =>
          dsimp only
          have hwfc : wfChildren B children = true :=
            wf_t_list B m children hwf ht
          have hall : readAllElems f rc b1 o1 children
              = readAllElems f rc b2 o2 children :=
            simReadAllElems rc b1 b2 o1 o2 B hsim f children hwfc
          have hinplace : ∀ p, lookupKey m "p" = some p →
              (match asRange p with
                | some (s, e) => unpackExact (readSlice b1 o1 s e)
                | none => none)
              = (match asRange p with
                | some (s, e) => unpackExact (readSlice b2 o2 s e)
                | none => none) := by
            intro p hp
            cases har : asRange p with
            | none => rfl
            | some se =>
              obtain ⟨s, e⟩ := se
              have hbnd : e ≤ B := by
                apply wfP_range B p s e _ har
                rw [← hp]
                exact wf_p_part B m hwf
              dsimp only
              rw [readSlice_agree b1 b2 o1 o2 B hsim s e hbnd]
          by_cases hc : rc.cached = false
          · rw [if_pos hc, if_pos hc]
            cases hp : lookupKey m "p" with
            | none => rw [hall]
            | some p =>
              cases p with
              | vlist ps =>
                cases ps with
                | nil => rw [hall]
                | cons q qs => exact hinplace (.vlist (q :: qs)) hp
              | vnil => exact hinplace .vnil hp
              | vbool x => exact hinplace (.vbool x) hp
              | vint x => exact hinplace (.vint x) hp
              | vstr x => exact hinplace (.vstr x) hp
              | vbytes x => exact hinplace (.vbytes x) hp
              | vmap x => exact hinplace (.vmap x) hp
          · rw [if_neg hc, if_neg hc]
            by_cases hff : fastFires rc children.length = false
            · rw [if_pos hff, if_pos hff, hall]
            · rw [if_neg hff, if_neg hff]
              cases hp : lookupKey m "p" with
              | none => rw [hall]
              | some p =>
                cases p with
                | vlist ps =>
                  cases ps with
                  | nil => rw [hall]
                  | cons q qs => exact hinplace (.vlist (q :: qs)) hp
                | vnil => exact hinplace .vnil hp
                | vbool x => exact hinplace (.vbool x) hp
                | vint x => exact hinplace (.vint x) hp
                | vstr x => exact hinplace (.vstr x) hp
                | vbytes x => exact hinplace (.vbytes x) hp
                | vmap x => exact hinplace (.vmap x) hp
        | vnil => simp only [listToObj]
        | vbool x => simp only [listToObj]
        | vint x => simp only [listToObj]
        | vstr x => simp only [listToObj]
        | vbytes x => simp only [listToObj]
        | vmap x => simp only [listToObj]
    | vint n => simp only [listToObj]
    | vnil => simp only [listToObj]
    | vbool x => simp only [listToObj]
    | vstr x => simp only [listToObj]
    | vbytes x => simp only [listToObj]
    | vlist x => simp only [listToObj]
termination_by f _ _ => f

theorem simDictToObj (rc : RCfg) (b1 b2 : List Byte) (o1 o2 B : Nat)
    (hsim : SlicesAgree b1 o1 b2 o2 B) :
    ∀ (f : Nat) (toc : Value), wfToc B toc = true →
      dictToObj f rc b1 o1 toc = dictToObj f rc b2 o2 toc
  | 0, toc, _ => by simp only [dictToObj]
  | f + 1, toc, hwf => by
    cases toc with
    | vmap m =>
      rw [dictToObj, dictToObj]
      cases ht : lookupKey m "t" with
      | none => rfl
      | some tv =>
        cases tv with
        | vmap children =>
          dsimp only
          have hwfc : wfChildEntries B children = true :=
            wf_t_map B m children hwf ht
          have hall : readAllEntries f rc b1 o1 children
              = readAllEntries f rc b2 o2 children :=
            simReadAllEntries rc b1 b2 o1 o2 B hsim f children hwfc
          have hinplace : ∀ p, lookupKey m "p" = some p →
              (match asRange p with
                | some (s, e) => unpackExact (readSlice b1 o1 s e)
                | none => none)
              = (match asRange p with
                | some (s, e) => unpackExact (readSlice b2 o2 s e)
                | none => none) := by
            intro p hp
            cases har : asRange p with
            | none => rfl
            | some se =>
              obtain ⟨s, e⟩ := se
              have hbnd : e ≤ B := by
                apply wfP_range B p s e _ har
                rw [← hp]
                exact wf_p_part B m hwf
              dsimp only
              rw [readSlice_agree b1 b2 o1 o2 B hsim s e hbnd]
          by_cases hc : rc.cached = false
          · rw [if_pos hc, if_pos hc]
            cases hp : lookupKey m "p" with
            | none => rw [hall]
            | some p =>
              cases p with
              | vlist ps =>
                cases ps with
                | nil => rw [hall]
                | cons q qs => exact hinplace (.vlist (q :: qs)) hp
              | vnil => exact hinplace .vnil hp
              | vbool x => exact hinplace (.vbool x) hp
              | vint x => exact hinplace (.vint x) hp
              | vstr x => exact hinplace (.vstr x) hp
              | vbytes x => exact hinplace (.vbytes x) hp
              | vmap x => exact hinplace (.vmap x) hp
          · rw [if_neg hc, if_neg hc]
            by_cases hff : (fastFires rc children.length
                && (lookupKey m "p").isSome) = true
            · rw [if_pos hff, if_pos hff]
              cases hp : lookupKey m "p" with
              | none => rfl
              | some p => exact hinplace p hp
            · rw [if_neg hff, if_neg hff, hall]
        | vnil => simp only [dictToObj]
        | vbool x => simp only [dictToObj]
        | vint x => simp only [dictToObj]
        | vstr x => simp only [dictToObj]
        | vbytes x => simp only [dictToObj]
        | vlist x => simp only [dictToObj]
    | vint n => simp only [dictToObj]
    | vnil => simp only [dictToObj]
    | vbool x => simp only [dictToObj]
    | vstr x => simp only [dictToObj]
    | vbytes x => simp only [dictToObj]
    | vlist x => simp only [dictToObj]
termination_by f _ _ => f

theorem simReadAllElems (rc : RCfg) (b1 b2 : List Byte) (o1 o2 B : Nat)
    (hsim : SlicesAgree b1 o1 b2 o2 B) :
    ∀ (f : Nat) (children : List Value), wfChildren B children = true →
      readAllElems f rc b1 o1 children = readAllElems f rc b2 o2 children
  | 0, children, _ => by simp only [readAllElems]
  | f + 1, [], _ => by rw [readAllElems, readAllElems]
  | f + 1, c :: r, hwf => by
    simp only [wfChildren, Bool.and_eq_true] at hwf
    rw [readAllElems, readAllElems]
    have hm := simMaterialise rc b1 b2 o1 o2 B hsim f c hwf.1
    cases hm1 : materialiseChild f rc b1 o1 c with
    | none =>
      cases hm2 : materialiseChild f rc b2 o2 c with
      | none => rfl
      | some t2 =>
        rw [hm1, hm2] at hm
        exact absurd hm (by simp [ORel])
    | some t1 =>
      cases hm2 : materialiseChild f rc b2 o2 c with
      | none =>
        rw [hm1, hm2] at hm
        exact absurd hm (by simp [ORel])
      | some t2 =>
        rw [hm1, hm2] at hm
        rw [Option.some_bind, Option.some_bind]
        rw [simFinish rc b1 b2 o1 o2 B hsim f t1 t2 hm]
        rw [simReadAllElems rc b1 b2 o1 o2 B hsim f r hwf.2]
termination_by f _ _ => f

theorem simReadAllEntries (rc : RCfg) (b1 b2 : List Byte) (o1 o2 B : Nat)
    (hsim : SlicesAgree b1 o1 b2 o2 B) :
    ∀ (f : Nat) (children : List (String × Value)),
      wfChildEntries B children = true →
      readAllEntries f rc b1 o1 children = readAllEntries f rc b2 o2 children
  | 0, children, _ => by simp only [readAllEntries]
  | f + 1, [], _ => by rw [readAllEntries, readAllEntries]
  | f + 1, (k, c) :: r, hwf => by
    simp only [wfChildEntries, Bool.and_eq_true] at hwf
    rw [readAllEntries, readAllEntries]
    have hm := simMaterialise rc b1 b2 o1 o2 B hsim f c hwf.1
    cases hm1 : materialiseChild f rc b1 o1 c with
    | none =>
      cases hm2 : materialiseChild f rc b2 o2 c with
      | none => rfl
      | some t2 =>
        rw [hm1, hm2] at hm
        exact absurd hm (by simp [ORel])
    | some t1 =>
      cases hm2 : materialiseChild f rc b2 o2 c with
      | none =>
        rw [hm1, hm2] at hm
        exact absurd hm (by simp [ORel])
      | some t2 =>
        rw [hm1, hm2] at hm
        rw [Option.some_bind, Option.some_bind]
        rw [simFinish rc b1 b2 o1 o2 B hsim f t1 t2 hm]
        rw [simReadAllEntries rc b1 b2 o1 o2 B hsim f r hwf.2]
termination_by f _ _ => f

end

/-- One walk step on related targets over agreeing windows. -/
theorem simStep (rc : RCfg) (b1 b2 : List Byte) (o1 o2 B : Nat)
    (hsim : SlicesAgree b1 o1 b2 o2 B) :
    ∀ (f : Nat) (t1 t2 : RTarget) (seg : String), RT o1 o2 B t1 t2 →
      ORel (RT o1 o2 B) (stepTarget f rc b1 t1 seg)
        (stepTarget f rc b2 t2 seg)
  | 0, t1, t2, seg, _ => ORel_none _
  | f + 1, _, _, seg, .plain v => by
    cases v with
    | vmap m =>
      rw [stepTarget, stepTarget]
      exact ORel_map_plain o1 o2 B _
    | vlist l =>
      rw [stepTarget, stepTarget]
      cases hti : toIndexF (f + 1) seg l.length with
      | none => exact ORel_none _
      | some pi =>
        cases pi with
        | idx i => exact ORel_map_plain o1 o2 B _
        | keyStr s => exact ORel_none _
        | slice a bb st =>
          dsimp only
          cases hsi : sliceIndices a bb st l.length with
          | none => exact ORel_none _
          | some abst =>
            obtain ⟨a2, b2v, st2⟩ := abst
            dsimp only
            cases hse : selectIdxs l (rangeList a2 b2v st2) with
            | none => exact ORel_none _
            | some vs => exact RT.plain _
    | vnil => simp [stepTarget, ORel]
    | vbool x => simp [stepTarget, ORel]
    | vint x => simp [stepTarget, ORel]
    | vstr x => simp [stepTarget, ORel]
    | vbytes x => simp [stepTarget, ORel]
  | f + 1, _, _, seg, .seq l1 l2 hs => by
    rw [stepTarget, stepTarget]
    rw [show l2.length = l1.length from (RTs_length o1 o2 B l1 l2 hs).symm]
    cases hti : toIndexF (f + 1) seg l1.length with
    | none => exact ORel_none _
    | some pi =>
      cases pi with
      | idx i => exact RTs_pyGet o1 o2 B l1 l2 hs i
      | keyStr s => exact ORel_none _
      | slice a bb st =>
        dsimp only
        cases hsi : sliceIndices a bb st l1.length with
        | none => exact ORel_none _
        | some abst =>
          obtain ⟨a2, b2v, st2⟩ := abst
          dsimp only
          have hsel := RTs_selectIdxs o1 o2 B l1 l2 hs (rangeList a2 b2v st2)
          cases hs1 : selectIdxs l1 (rangeList a2 b2v st2) with
          | none =>
            cases hs2 : selectIdxs l2 (rangeList a2 b2v st2) with
            | none => exact ORel_none _
            | some v2 =>
              rw [hs1, hs2] at hsel
              exact absurd hsel (by simp [ORel])
          | some v1 =>
            cases hs2 : selectIdxs l2 (rangeList a2 b2v st2) with
            | none =>
              rw [hs1, hs2] at hsel
              exact absurd hsel (by simp [ORel])
            | some v2 =>
              rw [hs1, hs2] at hsel
              exact RT.seq v1 v2 hsel
  | f + 1, _, _, seg, .list toc hwf => by
    rw [stepTarget, stepTarget]
    cases hti : toIndexF (f + 1) seg (lazyListLen toc) with
    | none => exact ORel_none _
    | some pi =>
      cases pi with
      | idx i => exact simGetInt rc b1 b2 o1 o2 B hsim f toc i hwf
      | slice a bb st =>
        exact simGetSlice rc b1 b2 o1 o2 B hsim f toc a bb st hwf
      | keyStr s => exact ORel_none _
  | f + 1, _, _, seg, .dict toc hwf => by
    cases toc with
    | vmap m =>
      rw [stepTarget, stepTarget]
      cases ht : lookupKey m "t" with
      | none => exact ORel_none _
      | some tv =>
        cases tv with
        | vmap children =>
          dsimp only
          cases hlk : lookupKey children seg with
          | none => exact ORel_none _
          | some c =>
            exact simMaterialise rc b1 b2 o1 o2 B hsim f c
              (wfChildEntries_lookup B children seg c
                (wf_t_map B m children hwf ht) hlk)
        | vnil => exact ORel_none _
        | vbool x => exact ORel_none _
        | vint x => exact ORel_none _
        | vstr x => exact ORel_none _
        | vbytes x => exact ORel_none _
        | vlist x => exact ORel_none _
    | vint n => simp [stepTarget, ORel]
    | vnil => simp [stepTarget, ORel]
    | vbool x => simp [stepTarget, ORel]
    | vstr x => simp [stepTarget, ORel]
    | vbytes x => simp [stepTarget, ORel]
    | vlist x => simp [stepTarget, ORel]

/-- The whole walk on related targets over agreeing windows. -/
theorem simWalk (rc : RCfg) (b1 b2 : List Byte) (o1 o2 B : Nat)
    (hsim : SlicesAgree b1 o1 b2 o2 B) (f : Nat) :
    ∀ (path : List String) (t1 t2 : RTarget), RT o1 o2 B t1 t2 →
      ORel (RT o1 o2 B) (walkSegs f rc b1 t1 path)
        (walkSegs f rc b2 t2 path)
  | [], t1, t2, h => h
  | seg :: rest, t1, t2, h => by
    unfold walkSegs
    by_cases hseg : seg = ""
    · rw [if_pos hseg, if_pos hseg]
      exact simWalk rc b1 b2 o1 o2 B hsim f rest t1 t2 h
    · rw [if_neg hseg, if_neg hseg]
      have hst := simStep rc b1 b2 o1 o2 B hsim f t1 t2 seg h
      cases hs1 : stepTarget f rc b1 t1 seg with
      | none =>
        cases hs2 : stepTarget f rc b2 t2 seg with
        | none => exact ORel_none _
        | some u2 =>
          rw [hs1, hs2] at hst
          exact absurd hst (by simp [ORel])
      | some u1 =>
        cases hs2 : stepTarget f rc b2 t2 seg with
        | none =>
          rw [hs1, hs2] at hst
          exact absurd hst (by simp [ORel])
        | some u2 =>
          rw [hs1, hs2] at hst
          rw [Option.some_bind, Option.some_bind]
          exact simWalk rc b1 b2 o1 o2 B hsim f rest u1 u2 hst

/-! ## The writer's TOC is well-formed within its payload -/

mutual

/-- All byte ranges of a builder node stay at or below `B`. -/
def nodeBound : Node → Nat → Prop
  | .leaf _ b _, B => b ≤ B
  | .blocks gs, B => ∀ g ∈ gs, g.2.2 ≤ B
  | .arrNode cs _ b, B => b ≤ B ∧ nodeSeqBound cs B
  | .mapNode cs _ b, B => b ≤ B ∧ nodeEntriesBound cs B

def nodeSeqBound : List Node → Nat → Prop
  | [], _ => True
  | n :: r, B => nodeBound n B ∧ nodeSeqBound r B

def nodeEntriesBound : List (String × Node) → Nat → Prop
  | [], _ => True
  | (_, n) :: r, B => nodeBound n B ∧ nodeEntriesBound r B

end

mutual

theorem nodeBound_mono : ∀ (n : Node) (B B2 : Nat), B ≤ B2 →
    nodeBound n B → nodeBound n B2
  | .leaf a b s, B, B2, hle, h => by
    simp only [nodeBound] at h ⊢
    omega
  | .blocks gs, B, B2, hle, h => by
    simp only [nodeBound] at h ⊢
    intro g hg
    have := h g hg
    omega
  | .arrNode cs a b, B, B2, hle, h => by
    simp only [nodeBound] at h ⊢
    exact ⟨by omega, nodeSeqBound_mono cs B B2 hle h.2⟩
  | .mapNode cs a b, B, B2, hle, h => by
    simp only [nodeBound] at h ⊢
    exact ⟨by omega, nodeEntriesBound_mono cs B B2 hle h.2⟩

theorem nodeSeqBound_mono : ∀ (cs : List Node) (B B2 : Nat), B ≤ B2 →
    nodeSeqBound cs B → nodeSeqBound cs B2
  | [], B, B2, _, _ => trivial
  | n :: r, B, B2, hle, h =>
    ⟨nodeBound_mono n B B2 hle h.1, nodeSeqBound_mono r B B2 hle h.2⟩

theorem nodeEntriesBound_mono :
    ∀ (cs : List (String × Node)) (B B2 : Nat), B ≤ B2 →
      nodeEntriesBound cs B → nodeEntriesBound cs B2
  | [], B, B2, _, _ => trivial
  | (k, n) :: r, B, B2, hle, h =>
    ⟨nodeBound_mono n B B2 hle h.1, nodeEntriesBound_mono r B B2 hle h.2⟩

end

theorem nodeSeqBound_mem :
    ∀ (cs : List Node) (B : Nat), nodeSeqBound cs B →
      ∀ n ∈ cs, nodeBound n B
  | [], B, _, n, hn => absurd hn (List.not_mem_nil n)
  | c :: r, B, h, n, hn => by
    rcases List.mem_cons.mp hn with h1 | h2
    · exact h1 ▸ h.1
    · exact nodeSeqBound_mem r B h.2 n h2

theorem getLastD_mem (a : Node) :
    ∀ (rest : List Node), List.getLastD rest a ∈ a :: rest
  | [] => by simp [List.getLastD]
  | b :: r => by
    rw [List.getLastD_cons]
    exact List.mem_cons_of_mem a (getLastD_mem b r)

/-- Every group the greedy loop emits ends at the `pHi` of one of the
nodes it groups. -/
theorem greedyGo_ends (cfg : WConfig) (B : Nat) :
    ∀ (vs accu : List Node) (asz : Nat),
      (∀ n ∈ accu, pHi n ≤ B) → (∀ n ∈ vs, pHi n ≤ B) →
      ∀ g ∈ greedyGo cfg vs [] accu asz, g.2.2 ≤ B
  | [], accu, asz, haccu, _ => by
    cases accu with
    | nil => intro g hg; simp [greedyGo] at hg
    | cons a rest =>
      intro g hg
      simp only [greedyGo, List.nil_append, List.mem_singleton] at hg
      subst hg
      dsimp only
      rw [List.getLastD_cons]
      exact haccu _ (getLastD_mem a rest)
  | v :: vs, accu, asz, haccu, hvs => by
    intro g hg
    simp only [greedyGo] at hg
    split at hg
    · rw [List.nil_append] at hg
      have happ : greedyGo cfg vs
            [((accu ++ [v]).length, pLo ((accu ++ [v]).headD v), pHi v)]
            [] 0
          = ((accu ++ [v]).length, pLo ((accu ++ [v]).headD v), pHi v)
            :: greedyGo cfg vs [] [] 0 := by
        have h := greedyGo_append cfg vs
          [((accu ++ [v]).length, pLo ((accu ++ [v]).headD v), pHi v)]
          [] [] 0
        simpa using h
      rw [happ] at hg
      rcases List.mem_cons.mp hg with h1 | h2
      · subst h1
        exact hvs v (by simp)
      · exact greedyGo_ends cfg B vs [] 0 (by intro n hn; simp at hn)
          (fun n hn => hvs n (by simp [hn])) g h2
    · exact greedyGo_ends cfg B vs (accu ++ [v]) _
        (by
          intro n hn
          rcases List.mem_append.mp hn with h1 | h2
          · exact haccu n h1
          · rw [List.mem_singleton] at h2
            exact h2 ▸ hvs v (by simp))
        (fun n hn => hvs n (by simp [hn])) g hg

mutual

/-- The builder's nodes stay within the bytes written so far. -/
theorem tocPack_bound : ∀ (obj : PyObj) (cfg : WConfig) (pos : Nat),
    nodeBound (tocPack cfg obj pos).1 (pos + (tocPack cfg obj pos).2.length)
  | .pnil, cfg, pos => by simp [tocPack, tocLeaf, nodeBound]
  | .pbool b, cfg, pos => by simp [tocPack, tocLeaf, nodeBound]
  | .pint n, cfg, pos => by simp [tocPack, tocLeaf, nodeBound]
  | .pstr s, cfg, pos => by simp [tocPack, tocLeaf, nodeBound]
  | .pbytes bs, cfg, pos => by simp [tocPack, tocLeaf, nodeBound]
  | .ptuple l, cfg, pos => by
    have h : tocPack cfg (.ptuple l) pos = tocPack cfg (.plist l) pos := by
      simp [tocPack]
    rw [h]
    exact tocPack_bound (.plist l) cfg pos
  | .pset l, cfg, pos => by
    have h : tocPack cfg (.pset l) pos
        = tocPack cfg (.plist ((sortedInts l).map PyObj.pint)) pos := by
      simp [tocPack]
    rw [h]
    exact tocPack_bound (.plist ((sortedInts l).map PyObj.pint)) cfg pos
  | .plist l, cfg, pos => by
    have hlen : (tocPack cfg (.plist l) pos).2.length
        = 2 + (tocPackElems cfg l (pos + 2)).2.length := by
      rw [tocPack_plist_bytes]
      simp [packArrayHeader]
      omega
    rw [tocPack_plist_node, hlen]
    have helems := tocPackElems_bound l cfg (pos + 2)
    split
    · simp only [nodeBound]
      omega
    · split
      · split
        · simp only [nodeBound]
          omega
        · split
          · simp only [nodeBound]
            intro g hg
            refine greedyGo_ends cfg
              (pos + (2 + (tocPackElems cfg l (pos + 2)).2.length))
              (tocPackElems cfg l (pos + 2)).1 [] 0
              (by intro n hn; simp at hn) ?_ g hg
            intro n hn
            rename_i hsmall _ _
            obtain ⟨a, b, hleaf⟩ := nodeSmall_leaf n
              (by
                have := List.all_eq_true.mp hsmall n hn
                simpa using this)
            have hb := nodeSeqBound_mem _ _ helems n hn
            rw [hleaf] at hb ⊢
            simp only [nodeBound] at hb
            simp only [pHi]
            omega
          · simp only [nodeBound]
            omega
      · simp only [nodeBound]
        refine ⟨by omega, ?_⟩
        exact nodeSeqBound_mono _ _ _ (by omega) helems
  | .pdict m, cfg, pos => by
    have hlen : (tocPack cfg (.pdict m) pos).2.length
        = 2 + (tocPackEntries cfg m (pos + 2)).2.length := by
      rw [tocPack_pdict_bytes]
      simp [packMapHeader]
      omega
    rw [tocPack_pdict_node, hlen]
    have hentries := tocPackEntries_bound m cfg (pos + 2)
    split
    · simp only [nodeBound]
      omega
    · split
      · simp only [nodeBound]
        omega
      · simp only [nodeBound]
        refine ⟨by omega, ?_⟩
        exact nodeEntriesBound_mono _ _ _ (by omega) hentries
termination_by obj _ _ => pyW obj
decreasing_by
  all_goals simp [pyW, pyWList_map_pint, sortedInts_length]
  all_goals omega

theorem tocPackElems_bound :
    ∀ (l : List PyObj) (cfg : WConfig) (pos : Nat),
      nodeSeqBound (tocPackElems cfg l pos).1
        (pos + (tocPackElems cfg l pos).2.length)
  | [], cfg, pos => by simp [tocPackElems, nodeSeqBound]
  | v :: r, cfg, pos => by
    simp only [tocPackElems]
    refine ⟨?_, ?_⟩
    · have h := tocPack_bound v cfg pos
      refine nodeBound_mono _ _ _ ?_ h
      simp only [List.length_append]
      omega
    · have h := tocPackElems_bound r cfg (pos + (tocPack cfg v pos).2.length)
      refine nodeSeqBound_mono _ _ _ ?_ h
      simp only [List.length_append]
      omega
termination_by l _ _ => pyWList l + 1
decreasing_by
  all_goals (simp [pyW, pyWList]; first
    | omega
    | (have hp := pyW_pos v; omega))

theorem tocPackEntries_bound :
    ∀ (m : List (String × PyObj)) (cfg : WConfig) (pos : Nat),
      nodeEntriesBound (tocPackEntries cfg m pos).1
        (pos + (tocPackEntries cfg m pos).2.length)
  | [], cfg, pos => by simp [tocPackEntries, nodeEntriesBound]
  | (k, v) :: r, cfg, pos => by
    simp only [tocPackEntries]
    refine ⟨?_, ?_⟩
    · have h := tocPack_bound v cfg (pos + (packValue (.vstr k)).length)
      refine nodeBound_mono _ _ _ ?_ h
      simp only [List.length_append]
      omega
    · have h := tocPackEntries_bound r cfg
        (pos + (packValue (.vstr k)).length
          + (tocPack cfg v (pos + (packValue (.vstr k)).length)).2.length)
      refine nodeEntriesBound_mono _ _ _ ?_ h
      simp only [List.length_append]
      omega
termination_by m _ _ => pyWEntries m + 1
decreasing_by
  all_goals (simp [pyW, pyWEntries]; first
    | omega
    | (have hp := pyW_pos v; omega))

end

theorem wfP_leaf_range (B a b : Nat) (hb : b ≤ B) :
    wfP B (some (.vlist [.vint (a : Int), .vint (b : Int)])) = true := by
  unfold wfP
  dsimp only
  rw [asRange_nat]
  simpa using hb

mutual

/-- A bounded builder node serialises to a well-formed TOC value. -/
theorem nodeToValue_wf : ∀ (n : Node) (B : Nat), nodeBound n B →
    wfToc B (nodeToValue n) = true
  | .leaf a b s, B, h => by
    simp only [nodeBound] at h
    simp only [nodeToValue, wfToc, Bool.and_eq_true]
    refine ⟨?_, ?_⟩
    · rw [lookupKey_p_p]
      exact wfP_leaf_range B a b h
    · simp [wfEntries]
  | .blocks gs, B, h => by
    simp only [nodeBound] at h
    simp only [nodeToValue, wfToc, Bool.and_eq_true]
    refine ⟨?_, by simp [wfEntries]⟩
    rw [lookupKey_p_p]
    unfold wfP
    dsimp only
    rw [asRange_map_triples]
    dsimp only
    rw [parseTriples_map]
    rw [List.all_eq_true]
    intro t ht
    simpa using h t ht
  | .arrNode cs a b, B, h => by
    simp only [nodeBound] at h
    simp only [nodeToValue]
    by_cases he : cs.isEmpty = true
    · rw [if_pos he]
      simp only [wfToc, Bool.and_eq_true]
      refine ⟨?_, by simp [wfEntries]⟩
      rw [lookupKey_p_p]
      exact wfP_leaf_range B a b h.1
    · rw [if_neg he]
      simp only [wfToc, Bool.and_eq_true]
      refine ⟨?_, ?_⟩
      · rw [lookupKey_tp_p]
        exact wfP_leaf_range B a b h.1
      · simp only [wfEntries, if_pos rfl, if_neg (by decide : ¬"p" = "t"),
          Bool.and_eq_true]
        refine ⟨?_, by simp [wfEntries]⟩
        simp only [wfTVal]
        exact nodeSeqToValue_wf cs B h.2
  | .mapNode cs a b, B, h => by
    simp only [nodeBound] at h
    simp only [nodeToValue]
    by_cases he : cs.isEmpty = true
    · rw [if_pos he]
      simp only [wfToc, Bool.and_eq_true]
      refine ⟨?_, by simp [wfEntries]⟩
      rw [lookupKey_p_p]
      exact wfP_leaf_range B a b h.1
    · rw [if_neg he]
      simp only [wfToc, Bool.and_eq_true]
      refine ⟨?_, ?_⟩
      · rw [lookupKey_tp_p]
        exact wfP_leaf_range B a b h.1
      · simp only [wfEntries, if_pos rfl, if_neg (by decide : ¬"p" = "t"),
          Bool.and_eq_true]
        refine ⟨?_, by simp [wfEntries]⟩
        simp only [wfTVal]
        exact nodeEntriesToValue_wf cs B h.2

theorem nodeSeqToValue_wf : ∀ (cs : List Node) (B : Nat),
    nodeSeqBound cs B → wfChildren B (nodeSeqToValue cs) = true
  | [], B, _ => rfl
  | c :: r, B, h => by
    simp only [nodeSeqToValue, wfChildren, Bool.and_eq_true]
    exact ⟨nodeToValue_wf c B h.1, nodeSeqToValue_wf r B h.2⟩

theorem nodeEntriesToValue_wf : ∀ (cs : List (String × Node)) (B : Nat),
    nodeEntriesBound cs B → wfChildEntries B (nodeEntriesToValue cs) = true
  | [], B, _ => rfl
  | (k, c) :: r, B, h => by
    simp only [nodeEntriesToValue, wfChildEntries, Bool.and_eq_true]
    exact ⟨nodeToValue_wf c B h.1, nodeEntriesToValue_wf r B h.2⟩

end

/-- The serialised root TOC of any written value is well-formed within
its payload length. -/
theorem writerToc_wf (cfg : WConfig) (obj : PyObj) :
    wfToc (tocPack cfg obj 0).2.length
      (nodeToValue (tocPack cfg obj 0).1) = true := by
  have h := tocPack_bound obj cfg 0
  rw [Nat.zero_add] at h
  exact nodeToValue_wf _ _ h

/-! ## The combiner -/

/-- `combine(buf, [FileInfo(F), FileInfo(F)])` in unnamed list mode on a
fresh buffer (`writer.py` lines 202-206, 263-289, 247-255):
`LazyCombiner.__enter__` writes the magic and 20 reserved bytes exactly
like the writer, each `write` records the payload-relative start offset
and streams the file bytes, and `__exit__` appends `packb({"t": toc})`
and patches the two header slots. -/
def combinerTwice (F : List Byte) : List Byte :=
  let s := writerEnter ⟨[], 0⟩
  let start1 := s.buffer.pos - s.fileStart
  let b1 := bufWrite s.buffer F
  let start2 := b1.pos - s.fileStart
  let b2 := bufWrite b1 F
  let tocStart := b2.pos - s.fileStart
  let packedToc := packValue (.vmap [("t",
    .vlist [.vint (start1 : Int), .vint (start2 : Int)])])
  let b3 := bufWrite b2 packedToc
  let b4 := bufSeek b3 s.headerStart
  let b5 := bufWrite b4 (rjust (packValue (.vint (tocStart : Int))) 10)
  let b6 := bufWrite b5 (rjust (packValue (.vint (packedToc.length : Int))) 10)
  b6.data

/-- Closed form of the combined archive: the writer's header format
around the back-to-back files and the offset table `{"t": [0, |F|]}`. -/
theorem combinerTwice_eq (F : List Byte) :
    combinerTwice F
      = magicBytes
        ++ rjust (packValue (.vint ((F.length + F.length : Nat) : Int))) 10
        ++ rjust (packValue (.vint (((packValue (.vmap [("t",
            .vlist [.vint 0, .vint (F.length : Int)])])).length : Nat)
          : Int))) 10
        ++ (F ++ F)
        ++ packValue (.vmap [("t",
            .vlist [.vint 0, .vint (F.length : Int)])]) := by
  unfold combinerTwice writerEnter
  dsimp only
  have e0 : bufWrite ⟨[], 0⟩ magicBytes = ⟨magicBytes, 30⟩ := by
    have h := bufWrite_append [] magicBytes
    simpa [magicBytes_length] using h
  rw [e0]
  have e1 : bufWrite ⟨magicBytes, 30⟩ (List.replicate 20 0)
      = ⟨magicBytes ++ List.replicate 20 0, 50⟩ := by
    have h := bufWrite_append magicBytes (List.replicate 20 0)
    simpa [magicBytes_length] using h
  rw [e1]
  dsimp only
  have e2 : bufWrite ⟨magicBytes ++ List.replicate 20 0, 50⟩ F
      = ⟨(magicBytes ++ List.replicate 20 0) ++ F, 50 + F.length⟩ := by
    have h := bufWrite_append (magicBytes ++ List.replicate 20 0) F
    simpa [magicBytes_length] using h
  rw [e2]
  dsimp only
  have e3 : bufWrite ⟨(magicBytes ++ List.replicate 20 0) ++ F,
        50 + F.length⟩ F
      = ⟨((magicBytes ++ List.replicate 20 0) ++ F) ++ F,
          (50 + F.length) + F.length⟩ := by
    have h := bufWrite_append ((magicBytes ++ List.replicate 20 0) ++ F) F
    have hl : ((magicBytes ++ List.replicate 20 0) ++ F).length
        = 50 + F.length := by
      simp [magicBytes_length]
      omega
    rw [hl] at h
    exact h
  rw [e3]
  dsimp only
  rw [show 50 - 50 = 0 from rfl]
  rw [show 50 + F.length - 50 = F.length from by omega]
  rw [show 50 + F.length + F.length - 50 = F.length + F.length from by omega]
  simp only [Nat.cast_zero]
  set Tc := packValue (.vmap [("t",
    .vlist [.vint 0, .vint (F.length : Int)])]) with hTc
  have e4 : bufWrite ⟨((magicBytes ++ List.replicate 20 0) ++ F) ++ F,
        50 + F.length + F.length⟩ Tc
      = ⟨(((magicBytes ++ List.replicate 20 0) ++ F) ++ F) ++ Tc,
          (50 + F.length + F.length) + Tc.length⟩ := by
    have h := bufWrite_append ((((magicBytes ++ List.replicate 20 0) ++ F)
      ++ F)) Tc
    have hl : (((magicBytes ++ List.replicate 20 0) ++ F) ++ F).length
        = 50 + F.length + F.length := by
      simp [magicBytes_length]
      omega
    rw [hl] at h
    exact h
  rw [e4]
  unfold bufSeek
  dsimp only
  have hsplit : (((magicBytes ++ List.replicate 20 0) ++ F) ++ F) ++ Tc
      = magicBytes ++ (List.replicate 20 0 ++ ((F ++ F) ++ Tc)) := by
    simp [List.append_assoc]
  have e5 : bufWrite ⟨(((magicBytes ++ List.replicate 20 0) ++ F) ++ F)
        ++ Tc, 30⟩
        (rjust (packValue (.vint ((F.length + F.length : Nat) : Int))) 10)
      = ⟨magicBytes
          ++ rjust (packValue (.vint ((F.length + F.length : Nat)
            : Int))) 10
          ++ (List.replicate 20 0 ++ ((F ++ F) ++ Tc)).drop 10,
          30 + 10⟩ := by
    rw [hsplit]
    have h := bufWrite_over magicBytes
      (List.replicate 20 0 ++ ((F ++ F) ++ Tc))
      (rjust (packValue (.vint ((F.length + F.length : Nat) : Int))) 10)
    rw [magicBytes_length, header10_length] at h
    exact h
  rw [e5]
  have hdrop : (List.replicate 20 (0 : Byte) ++ ((F ++ F) ++ Tc)).drop 10
      = List.replicate 10 0 ++ ((F ++ F) ++ Tc) := by
    rw [show (List.replicate 20 (0 : Byte))
        = List.replicate 10 0 ++ List.replicate 10 0 from by
      rw [← List.replicate_add]]
    rw [List.append_assoc]
    rw [show (10 : Nat) = (List.replicate 10 (0 : Byte)).length from by simp]
    exact List.drop_left _ _
  rw [hdrop]
  have e6 : bufWrite ⟨magicBytes
        ++ rjust (packValue (.vint ((F.length + F.length : Nat) : Int))) 10
        ++ (List.replicate 10 0 ++ ((F ++ F) ++ Tc)), 30 + 10⟩
        (rjust (packValue (.vint (Tc.length : Int))) 10)
      = ⟨(magicBytes
          ++ rjust (packValue (.vint ((F.length + F.length : Nat)
            : Int))) 10)
          ++ rjust (packValue (.vint (Tc.length : Int))) 10
          ++ (List.replicate 10 0 ++ ((F ++ F) ++ Tc)).drop 10,
          40 + 10⟩ := by
    have h := bufWrite_over (magicBytes
        ++ rjust (packValue (.vint ((F.length + F.length : Nat) : Int))) 10)
      (List.replicate 10 0 ++ ((F ++ F) ++ Tc))
      (rjust (packValue (.vint (Tc.length : Int))) 10)
    have hl : (magicBytes
        ++ rjust (packValue (.vint ((F.length + F.length : Nat)
          : Int))) 10).length = 40 := by
      rw [List.length_append, magicBytes_length, header10_length]
    rw [hl, header10_length] at h
    rw [show magicBytes
          ++ rjust (packValue (.vint ((F.length + F.length : Nat)
            : Int))) 10
          ++ (List.replicate 10 0 ++ ((F ++ F) ++ Tc))
        = (magicBytes
          ++ rjust (packValue (.vint ((F.length + F.length : Nat)
            : Int))) 10)
          ++ (List.replicate 10 0 ++ ((F ++ F) ++ Tc)) from by
      simp [List.append_assoc]]
    exact h
  rw [e6]
  dsimp only
  have hdrop2 : (List.replicate 10 (0 : Byte) ++ ((F ++ F) ++ Tc)).drop 10
      = (F ++ F) ++ Tc := by
    rw [show (10 : Nat) = (List.replicate 10 (0 : Byte)).length from by simp]
    exact List.drop_left _ _
  rw [hdrop2]
  simp [List.append_assoc]

/-- `_child` on a map TOC never consumes fuel. -/
theorem materialiseChild_fuel (rc : RCfg) (buf : List Byte) (off : Nat)
    (f1 f2 : Nat) (m : List (String × Value)) :
    materialiseChild (f1 + 1) rc buf off (.vmap m)
      = materialiseChild (f2 + 1) rc buf off (.vmap m) := by
  rw [materialiseChild, materialiseChild]

/-- Opening a reader at any position whose header window and TOC window
hold a writer-format file materialises that file's root TOC at payload
offset `pos + 50`. -/
theorem readerNew_embed (f : Nat) (rc : RCfg) (buf : List Byte) (pos : Nat)
    (P T : List Byte) (tocVal : Value) (hT : T = packValue tocVal)
    (hhead : sliceL buf pos (pos + 50)
      = magicBytes ++ rjust (packValue (.vint (P.length : Int))) 10
        ++ rjust (packValue (.vint (T.length : Int))) 10)
    (htoc : sliceL buf (pos + 50 + P.length)
        (pos + 50 + P.length + T.length) = T) :
    readerNew (f + 1) rc buf pos
      = materialiseChild f rc buf (pos + 50) tocVal := by
  rw [readerNew]
  rw [hhead]
  set H1 := rjust (packValue (.vint (P.length : Int))) 10 with hH1
  set H2 := rjust (packValue (.vint (T.length : Int))) 10 with hH2
  have htake : (magicBytes ++ H1 ++ H2).take 30 = magicBytes := by
    rw [List.append_assoc]
    rw [show (30 : Nat) = magicBytes.length from magicBytes_length.symm]
    exact List.take_left _ _
  rw [htake, if_neg (fun hcon => hcon rfl)]
  have hs1 : sliceL (magicBytes ++ H1 ++ H2) 30 40 = H1 := by
    have h := sliceL_append_mid magicBytes H1 H2
    rw [magicBytes_length] at h
    rw [show (40 : Nat) = 30 + H1.length from by
      rw [hH1, header10_length]]
    exact h
  have hs2 : sliceL (magicBytes ++ H1 ++ H2) 40 50 = H2 := by
    have h := sliceL_append_left (magicBytes ++ H1) H2
    have h40 : (magicBytes ++ H1).length = 40 := by
      simp only [List.length_append, magicBytes_length, hH1,
        header10_length]
    rw [h40] at h
    rw [show (50 : Nat) = 40 + H2.length from by
      rw [hH2, header10_length]]
    exact h
  rw [hs1, hs2]
  have hl1 : lstrip0 H1 = packValue (.vint (P.length : Int)) := by
    rw [hH1]
    unfold rjust
    rw [show packValue (.vint (P.length : Int))
        = 2 :: [intCode (P.length : Int)] from by simp [packValue]]
    exact lstrip0_replicate_cons _ 2 _ (by decide)
  have hl2 : lstrip0 H2 = packValue (.vint (T.length : Int)) := by
    rw [hH2]
    unfold rjust
    rw [show packValue (.vint (T.length : Int))
        = 2 :: [intCode (T.length : Int)] from by simp [packValue]]
    exact lstrip0_replicate_cons _ 2 _ (by decide)
  rw [hl1, hl2, unpackExact_packValue, unpackExact_packValue]
  dsimp only
  rw [if_pos ⟨by omega, by omega⟩]
  rw [Int.toNat_natCast, Int.toNat_natCast]
  have htoc2 : readSlice buf (pos + 50) P.length (P.length + T.length)
      = T := by
    show sliceL buf (pos + 50 + P.length)
      (pos + 50 + (P.length + T.length)) = T
    rw [show pos + 50 + (P.length + T.length)
        = pos + 50 + P.length + T.length from by omega]
    exact htoc
  rw [htoc2, hT, unpackExact_packValue]

theorem writerOutput_length (cfg : WConfig) (obj : PyObj) :
    (writerOutput cfg obj).length
      = 50 + (tocPack cfg obj 0).2.length
        + (packValue (nodeToValue (tocPack cfg obj 0).1)).length := by
  rw [writerOutput_eq]
  simp only [List.length_append, magicBytes_length, header10_length]

theorem writerOutput_head (cfg : WConfig) (obj : PyObj) :
    sliceL (writerOutput cfg obj) 0 50
      = magicBytes
        ++ rjust (packValue (.vint
            (((tocPack cfg obj 0).2.length : Nat) : Int))) 10
        ++ rjust (packValue (.vint
            (((packValue (nodeToValue (tocPack cfg obj 0).1)).length : Nat)
              : Int))) 10 := by
  rw [writerOutput_eq, List.append_assoc]
  rw [show (50 : Nat) = (magicBytes
      ++ rjust (packValue (.vint
          (((tocPack cfg obj 0).2.length : Nat) : Int))) 10
      ++ rjust (packValue (.vint
          (((packValue (nodeToValue (tocPack cfg obj 0).1)).length : Nat)
            : Int))) 10).length from by
    simp only [List.length_append, magicBytes_length, header10_length]]
  exact sliceL_initial _ _

theorem writerOutput_tocwin (cfg : WConfig) (obj : PyObj) :
    sliceL (writerOutput cfg obj)
        (50 + (tocPack cfg obj 0).2.length)
        (50 + (tocPack cfg obj 0).2.length
          + (packValue (nodeToValue (tocPack cfg obj 0).1)).length)
      = packValue (nodeToValue (tocPack cfg obj 0).1) := by
  rw [writerOutput_eq]
  have h := sliceL_append_left
    ((magicBytes
      ++ rjust (packValue (.vint ((tocPack cfg obj 0).2.length))) 10
      ++ rjust (packValue (.vint
          ((packValue (nodeToValue (tocPack cfg obj 0).1)).length))) 10)
      ++ (tocPack cfg obj 0).2)
    (packValue (nodeToValue (tocPack cfg obj 0).1))
  have hlen : ((magicBytes
      ++ rjust (packValue (.vint ((tocPack cfg obj 0).2.length))) 10
      ++ rjust (packValue (.vint
          ((packValue (nodeToValue (tocPack cfg obj 0).1)).length))) 10)
      ++ (tocPack cfg obj 0).2).length
      = 50 + (tocPack cfg obj 0).2.length := by
    simp only [List.length_append, magicBytes_length, header10_length]
  rw [hlen] at h
  exact h

theorem combinerTwice_sub0 (F : List Byte) :
    sliceL (combinerTwice F) 50 (50 + F.length) = F := by
  rw [combinerTwice_eq]
  have h := sliceL_append_mid
    (magicBytes
      ++ rjust (packValue (.vint ((F.length + F.length : Nat) : Int))) 10
      ++ rjust (packValue (.vint (((packValue (.vmap [("t",
          .vlist [.vint 0, .vint (F.length : Int)])])).length : Nat)
        : Int))) 10)
    F
    (F ++ packValue (.vmap [("t",
      .vlist [.vint 0, .vint (F.length : Int)])]))
  have hlen : (magicBytes
      ++ rjust (packValue (.vint ((F.length + F.length : Nat) : Int))) 10
      ++ rjust (packValue (.vint (((packValue (.vmap [("t",
          .vlist [.vint 0, .vint (F.length : Int)])])).length : Nat)
        : Int))) 10).length = 50 := by
    simp only [List.length_append, magicBytes_length, header10_length]
  rw [hlen] at h
  rw [show magicBytes
        ++ rjust (packValue (.vint ((F.length + F.length : Nat) : Int))) 10
        ++ rjust (packValue (.vint (((packValue (.vmap [("t",
            .vlist [.vint 0, .vint (F.length : Int)])])).length : Nat)
          : Int))) 10
        ++ (F ++ F)
        ++ packValue (.vmap [("t", .vlist [.vint 0, .vint (F.length : Int)])])
      = (magicBytes
        ++ rjust (packValue (.vint ((F.length + F.length : Nat) : Int))) 10
        ++ rjust (packValue (.vint (((packValue (.vmap [("t",
            .vlist [.vint 0, .vint (F.length : Int)])])).length : Nat)
          : Int))) 10)
        ++ F
        ++ (F ++ packValue (.vmap [("t",
            .vlist [.vint 0, .vint (F.length : Int)])])) from by
    simp [List.append_assoc]]
  exact h

theorem combinerTwice_sub1 (F : List Byte) :
    sliceL (combinerTwice F) (50 + F.length)
      (50 + F.length + F.length) = F := by
  rw [combinerTwice_eq]
  have h := sliceL_append_mid
    ((magicBytes
      ++ rjust (packValue (.vint ((F.length + F.length : Nat) : Int))) 10
      ++ rjust (packValue (.vint (((packValue (.vmap [("t",
          .vlist [.vint 0, .vint (F.length : Int)])])).length : Nat)
        : Int))) 10) ++ F)
    F
    (packValue (.vmap [("t", .vlist [.vint 0, .vint (F.length : Int)])]))
  have hlen : ((magicBytes
      ++ rjust (packValue (.vint ((F.length + F.length : Nat) : Int))) 10
      ++ rjust (packValue (.vint (((packValue (.vmap [("t",
          .vlist [.vint 0, .vint (F.length : Int)])])).length : Nat)
        : Int))) 10) ++ F).length = 50 + F.length := by
    simp only [List.length_append, magicBytes_length, header10_length]
  rw [hlen] at h
  rw [show magicBytes
        ++ rjust (packValue (.vint ((F.length + F.length : Nat) : Int))) 10
        ++ rjust (packValue (.vint (((packValue (.vmap [("t",
            .vlist [.vint 0, .vint (F.length : Int)])])).length : Nat)
          : Int))) 10
        ++ (F ++ F)
        ++ packValue (.vmap [("t", .vlist [.vint 0, .vint (F.length : Int)])])
      = ((magicBytes
        ++ rjust (packValue (.vint ((F.length + F.length : Nat) : Int))) 10
        ++ rjust (packValue (.vint (((packValue (.vmap [("t",
            .vlist [.vint 0, .vint (F.length : Int)])])).length : Nat)
          : Int))) 10) ++ F)
        ++ F
        ++ packValue (.vmap [("t",
            .vlist [.vint 0, .vint (F.length : Int)])]) from by
    simp [List.append_assoc]]
  exact h

theorem combinerTwice_head (F : List Byte) :
    sliceL (combinerTwice F) 0 50
      = magicBytes
        ++ rjust (packValue (.vint (((F ++ F).length : Nat) : Int))) 10
        ++ rjust (packValue (.vint (((packValue (.vmap [("t",
            .vlist [.vint 0, .vint (F.length : Int)])])).length : Nat)
          : Int))) 10 := by
  rw [combinerTwice_eq, List.length_append]
  rw [show magicBytes
        ++ rjust (packValue (.vint ((F.length + F.length : Nat) : Int))) 10
        ++ rjust (packValue (.vint (((packValue (.vmap [("t",
            .vlist [.vint 0, .vint (F.length : Int)])])).length : Nat)
          : Int))) 10
        ++ (F ++ F)
        ++ packValue (.vmap [("t", .vlist [.vint 0, .vint (F.length : Int)])])
      = (magicBytes
        ++ rjust (packValue (.vint ((F.length + F.length : Nat) : Int))) 10
        ++ rjust (packValue (.vint (((packValue (.vmap [("t",
            .vlist [.vint 0, .vint (F.length : Int)])])).length : Nat)
          : Int))) 10)
        ++ ((F ++ F)
          ++ packValue (.vmap [("t",
              .vlist [.vint 0, .vint (F.length : Int)])])) from by
    simp [List.append_assoc]]
  rw [show (50 : Nat) = (magicBytes
      ++ rjust (packValue (.vint ((F.length + F.length : Nat) : Int))) 10
      ++ rjust (packValue (.vint (((packValue (.vmap [("t",
          .vlist [.vint 0, .vint (F.length : Int)])])).length : Nat)
        : Int))) 10).length from by
    simp only [List.length_append, magicBytes_length, header10_length]]
  rw [sliceL_initial]

theorem combinerTwice_toc (F : List Byte) :
    sliceL (combinerTwice F) (50 + (F ++ F).length)
        (50 + (F ++ F).length
          + (packValue (.vmap [("t",
              .vlist [.vint 0, .vint (F.length : Int)])])).length)
      = packValue (.vmap [("t",
          .vlist [.vint 0, .vint (F.length : Int)])]) := by
  rw [combinerTwice_eq]
  have h := sliceL_append_left
    ((magicBytes
      ++ rjust (packValue (.vint ((F.length + F.length : Nat) : Int))) 10
      ++ rjust (packValue (.vint (((packValue (.vmap [("t",
          .vlist [.vint 0, .vint (F.length : Int)])])).length : Nat)
        : Int))) 10)
      ++ (F ++ F))
    (packValue (.vmap [("t", .vlist [.vint 0, .vint (F.length : Int)])]))
  have hlen : ((magicBytes
      ++ rjust (packValue (.vint ((F.length + F.length : Nat) : Int))) 10
      ++ rjust (packValue (.vint (((packValue (.vmap [("t",
          .vlist [.vint 0, .vint (F.length : Int)])])).length : Nat)
        : Int))) 10)
      ++ (F ++ F)).length = 50 + (F ++ F).length := by
    simp only [List.length_append, magicBytes_length, header10_length]
  rw [hlen] at h
  exact h

/-- The serialisation of any TOC node is a msgpack map. -/
theorem nodeToValue_vmap (n : Node) :
    ∃ m, nodeToValue n = Value.vmap m := by
  cases n with
  | leaf a b s => exact ⟨_, rfl⟩
  | blocks gs => exact ⟨_, rfl⟩
  | arrNode cs a b =>
    rw [nodeToValue]
    by_cases h : cs.isEmpty
    · rw [if_pos h]; exact ⟨_, rfl⟩
    · rw [if_neg h]; exact ⟨_, rfl⟩
  | mapNode cs a b =>
    rw [nodeToValue]
    by_cases h : cs.isEmpty
    · rw [if_pos h]; exact ⟨_, rfl⟩
    · rw [if_neg h]; exact ⟨_, rfl⟩

/-- Continuing a walk plus `to_obj` from `ORel`-related roots over
agreeing windows yields identical results. -/
theorem ORel_walk_finish (rc : RCfg) (b1 b2 : List Byte) (o1 o2 B : Nat)
    (hsim : SlicesAgree b1 o1 b2 o2 B) (f : Nat) (path : List String)
    (x1 x2 : Option RTarget) (h : ORel (RT o1 o2 B) x1 x2) :
    x1.bind (fun t => (walkSegs f rc b1 t path).bind (finishTarget f rc b1))
      = x2.bind (fun t =>
          (walkSegs f rc b2 t path).bind (finishTarget f rc b2)) := by
  cases x1 with
  | none =>
    cases x2 with
    | none => rfl
    | some t2 => exact absurd h (by simp [ORel])
  | some t1 =>
    cases x2 with
    | none => exact absurd h (by simp [ORel])
    | some t2 =>
      simp only [Option.some_bind]
      have hw := simWalk rc b1 b2 o1 o2 B hsim f path t1 t2 h
      cases hw1 : walkSegs f rc b1 t1 path with
      | none =>
        cases hw2 : walkSegs f rc b2 t2 path with
        | none => rfl
        | some u2 =>
          rw [hw1, hw2] at hw
          exact absurd hw (by simp [ORel])
      | some u1 =>
        cases hw2 : walkSegs f rc b2 t2 path with
        | none =>
          rw [hw1, hw2] at hw
          exact absurd hw (by simp [ORel])
        | some u2 =>
          rw [hw1, hw2] at hw
          simp only [Option.some_bind]
          exact simFinish rc b1 b2 o1 o2 B hsim f u1 u2 hw

/-- Reading through an embedded copy of a written file: if a window of
the combined buffer at `pos0` holds the writer's bytes verbatim, then
opening a reader at `pos0` and walking any path gives exactly the
direct read of the original file. -/
theorem c5_embedBind (rc : RCfg) (cfg : WConfig) (obj : PyObj)
    (C : List Byte) (pos0 : Nat) (g x : Nat) (path : List String)
    (hwin : sliceL C pos0 (pos0 + (writerOutput cfg obj).length)
      = writerOutput cfg obj) :
    (readerNew (g + 1 + 1) rc C pos0).bind
        (fun t => (walkSegs (x + 1 + 1) rc C t path).bind
          (finishTarget (x + 1 + 1) rc C))
      = readSegs (x + 1 + 1) rc (writerOutput cfg obj) 0 path := by
  have hFlen := writerOutput_length cfg obj
  have hheadC : sliceL C pos0 (pos0 + 50)
      = magicBytes
        ++ rjust (packValue (.vint
            (((tocPack cfg obj 0).2.length : Nat) : Int))) 10
        ++ rjust (packValue (.vint
            (((packValue (nodeToValue (tocPack cfg obj 0).1)).length : Nat)
              : Int))) 10 := by
    have h := sliceL_sub C (writerOutput cfg obj) pos0
      (pos0 + (writerOutput cfg obj).length) 0 50 hwin (by omega) (by omega)
    rw [Nat.add_zero] at h
    rw [h, writerOutput_head]
  have htocC : sliceL C (pos0 + 50 + (tocPack cfg obj 0).2.length)
      (pos0 + 50 + (tocPack cfg obj 0).2.length
        + (packValue (nodeToValue (tocPack cfg obj 0).1)).length)
      = packValue (nodeToValue (tocPack cfg obj 0).1) := by
    have h := sliceL_sub C (writerOutput cfg obj) pos0
      (pos0 + (writerOutput cfg obj).length)
      (50 + (tocPack cfg obj 0).2.length)
      (50 + (tocPack cfg obj 0).2.length
        + (packValue (nodeToValue (tocPack cfg obj 0).1)).length)
      hwin (by omega) (by omega)
    rw [writerOutput_tocwin] at h
    rw [show pos0 + 50 + (tocPack cfg obj 0).2.length
        = pos0 + (50 + (tocPack cfg obj 0).2.length) from by omega]
    rw [show pos0 + (50 + (tocPack cfg obj 0).2.length)
        + (packValue (nodeToValue (tocPack cfg obj 0).1)).length
        = pos0 + (50 + (tocPack cfg obj 0).2.length
          + (packValue (nodeToValue (tocPack cfg obj 0).1)).length)
        from by omega]
    exact h
  have hreader : readerNew (g + 1 + 1) rc C pos0
      = materialiseChild (g + 1) rc C (pos0 + 50)
        (nodeToValue (tocPack cfg obj 0).1) :=
    readerNew_embed (g + 1) rc C pos0 (tocPack cfg obj 0).2
      (packValue (nodeToValue (tocPack cfg obj 0).1))
      (nodeToValue (tocPack cfg obj 0).1) rfl hheadC htocC
  obtain ⟨mroot, hmroot⟩ := nodeToValue_vmap (tocPack cfg obj 0).1
  have hfuel : materialiseChild (g + 1) rc C (pos0 + 50)
      (nodeToValue (tocPack cfg obj 0).1)
      = materialiseChild (x + 1) rc C (pos0 + 50)
        (nodeToValue (tocPack cfg obj 0).1) := by
    rw [hmroot]
    exact materialiseChild_fuel rc C (pos0 + 50) g x mroot
  have hpay2 : sliceL (writerOutput cfg obj) 50
      (50 + (tocPack cfg obj 0).2.length) = (tocPack cfg obj 0).2 := by
    have h2 := writerOutput_payload_window cfg obj
    rw [show (50 + 0 : Nat) = 50 from rfl] at h2
    exact h2
  have hpay1 : sliceL C (pos0 + 50)
      (pos0 + 50 + (tocPack cfg obj 0).2.length)
      = (tocPack cfg obj 0).2 := by
    have h := sliceL_sub C (writerOutput cfg obj) pos0
      (pos0 + (writerOutput cfg obj).length)
      50 (50 + (tocPack cfg obj 0).2.length) hwin (by omega) (by omega)
    rw [hpay2] at h
    rw [show pos0 + 50 + (tocPack cfg obj 0).2.length
        = pos0 + (50 + (tocPack cfg obj 0).2.length) from by omega]
    exact h
  have hsim : SlicesAgree C (pos0 + 50) (writerOutput cfg obj) 50
      (tocPack cfg obj 0).2.length :=
    slicesAgree_of_windows C (writerOutput cfg obj) (pos0 + 50) 50
      (tocPack cfg obj 0).2 hpay1 hpay2
  have hORel := simMaterialise rc C (writerOutput cfg obj) (pos0 + 50) 50
    (tocPack cfg obj 0).2.length hsim (x + 1)
    (nodeToValue (tocPack cfg obj 0).1) (writerToc_wf cfg obj)
  rw [hreader, hfuel]
  rw [readSegs, readerNew_writerOutput (x + 1) rc cfg obj]
  exact ORel_walk_finish rc C (writerOutput cfg obj) (pos0 + 50) 50
    (tocPack cfg obj 0).2.length hsim (x + 1 + 1) path _ _ hORel

/-- C5: combining a written file `F` twice in unnamed mode yields an
archive in which `read("0/" + path)` and `read("1/" + path)` both equal
the direct `read(path)` on `F`: the combined TOC records the
payload-relative start offsets `0` and `len(F)`, the reader dispatches
an integer child to an embedded `LazyReader` at that absolute offset,
and every offset inside the embedded file's own TOC is payload-relative,
so none of `F`'s bytes need rewriting. -/
theorem c5_offset_relativity (cfg : WConfig) (rc : RCfg) (obj : PyObj)
    (path : List String) (f : Nat) (hf : 5 ≤ f) :
    readSegs f rc (combinerTwice (writerOutput cfg obj)) 0 ("0" :: path)
        = readSegs f rc (writerOutput cfg obj) 0 path
    ∧ readSegs f rc (combinerTwice (writerOutput cfg obj)) 0 ("1" :: path)
        = readSegs f rc (writerOutput cfg obj) 0 path := by
  obtain ⟨g, rfl⟩ : ∃ g, f = g + 1 + 1 + 1 + 1 + 1 := ⟨f - 5, by omega⟩
  have hh : sliceL (combinerTwice (writerOutput cfg obj)) 0 (0 + 50)
      = magicBytes
        ++ rjust (packValue (.vint
            (((writerOutput cfg obj ++ writerOutput cfg obj).length : Nat)
              : Int))) 10
        ++ rjust (packValue (.vint
            (((packValue (.vmap [("t", .vlist [.vint 0,
                .vint ((writerOutput cfg obj).length : Int)])])).length
              : Nat) : Int))) 10 := by
    rw [Nat.zero_add]
    exact combinerTwice_head (writerOutput cfg obj)
  have ht : sliceL (combinerTwice (writerOutput cfg obj))
      (0 + 50 + (writerOutput cfg obj ++ writerOutput cfg obj).length)
      (0 + 50 + (writerOutput cfg obj ++ writerOutput cfg obj).length
        + (packValue (.vmap [("t", .vlist [.vint 0,
            .vint ((writerOutput cfg obj).length : Int)])])).length)
      = packValue (.vmap [("t", .vlist [.vint 0,
          .vint ((writerOutput cfg obj).length : Int)])]) := by
    rw [Nat.zero_add]
    exact combinerTwice_toc (writerOutput cfg obj)
  have houter : readerNew (g + 1 + 1 + 1 + 1 + 1) rc
      (combinerTwice (writerOutput cfg obj)) 0
      = some (.tList 50 (.vmap [("t", .vlist
          [.vint 0, .vint ((writerOutput cfg obj).length : Int)])])) := by
    have hembed := readerNew_embed (g + 1 + 1 + 1 + 1) rc
      (combinerTwice (writerOutput cfg obj)) 0
      (writerOutput cfg obj ++ writerOutput cfg obj)
      (packValue (.vmap [("t", .vlist [.vint 0,
        .vint ((writerOutput cfg obj).length : Int)])]))
      (.vmap [("t", .vlist [.vint 0,
        .vint ((writerOutput cfg obj).length : Int)])]) rfl hh ht
    rw [hembed, Nat.zero_add]
    rw [materialiseChild]
    rw [show lookupKey [("t", Value.vlist [.vint 0,
        .vint ((writerOutput cfg obj).length : Int)])] "t"
      = some (Value.vlist [.vint 0,
        .vint ((writerOutput cfg obj).length : Int)]) from rfl]
  have hstep0 : stepTarget (g + 1 + 1 + 1 + 1 + 1) rc
      (combinerTwice (writerOutput cfg obj))
      (.tList 50 (.vmap [("t", .vlist [.vint 0,
        .vint ((writerOutput cfg obj).length : Int)])])) "0"
      = readerNew (g + 1 + 1) rc
          (combinerTwice (writerOutput cfg obj)) 50 := by
    rw [stepTarget]
    rw [show toIndexF (g + 1 + 1 + 1 + 1 + 1) "0"
        ((lazyListLen (Value.vmap [("t", Value.vlist [.vint 0,
          .vint ((writerOutput cfg obj).length : Int)])]) : Nat) : Int)
      = some (.idx 0) from rfl]
    dsimp only
    rw [lazyListGetInt]
    dsimp only
    rw [show lookupKey [("t", Value.vlist [.vint 0,
        .vint ((writerOutput cfg obj).length : Int)])] "t"
      = some (Value.vlist [.vint 0,
        .vint ((writerOutput cfg obj).length : Int)]) from rfl]
    dsimp only
    rw [show (List.length [Value.vint 0,
        Value.vint ((writerOutput cfg obj).length : Int)]) = 2 from rfl]
    rw [normaliseIndexF_id (g + 1 + 1 + 1 + 1) 0 ((2 : Nat) : Int)
      (by omega) (by omega) (by omega)]
    dsimp only
    rw [if_pos (by omega : -((2 : Nat) : Int) ≤ (0 : Int)
      ∧ (0 : Int) < ((2 : Nat) : Int))]
    rw [show pyGet [Value.vint 0,
        Value.vint ((writerOutput cfg obj).length : Int)] (0 : Int)
      = some (Value.vint 0) from rfl]
    dsimp only
    rw [materialiseChild]
    rw [if_pos (le_refl (0 : Int))]
    rw [show (50 + (0 : Int).toNat : Nat) = 50 from rfl]
  have hstep1 : stepTarget (g + 1 + 1 + 1 + 1 + 1) rc
      (combinerTwice (writerOutput cfg obj))
      (.tList 50 (.vmap [("t", .vlist [.vint 0,
        .vint ((writerOutput cfg obj).length : Int)])])) "1"
      = readerNew (g + 1 + 1) rc (combinerTwice (writerOutput cfg obj))
          (50 + (writerOutput cfg obj).length) := by
    rw [stepTarget]
    rw [show toIndexF (g + 1 + 1 + 1 + 1 + 1) "1"
        ((lazyListLen (Value.vmap [("t", Value.vlist [.vint 0,
          .vint ((writerOutput cfg obj).length : Int)])]) : Nat) : Int)
      = some (.idx 1) from rfl]
    dsimp only
    rw [lazyListGetInt]
    dsimp only
    rw [show lookupKey [("t", Value.vlist [.vint 0,
        .vint ((writerOutput cfg obj).length : Int)])] "t"
      = some (Value.vlist [.vint 0,
        .vint ((writerOutput cfg obj).length : Int)]) from rfl]
    dsimp only
    rw [show (List.length [Value.vint 0,
        Value.vint ((writerOutput cfg obj).length : Int)]) = 2 from rfl]
    rw [normaliseIndexF_id (g + 1 + 1 + 1 + 1) 1 ((2 : Nat) : Int)
      (by omega) (by omega) (by omega)]
    dsimp only
    rw [if_pos (by omega : -((2 : Nat) : Int) ≤ (1 : Int)
      ∧ (1 : Int) < ((2 : Nat) : Int))]
    rw [show pyGet [Value.vint 0,
        Value.vint ((writerOutput cfg obj).length : Int)] (1 : Int)
      = some (Value.vint ((writerOutput cfg obj).length : Int)) from rfl]
    dsimp only
    rw [materialiseChild]
    rw [if_pos (Int.natCast_nonneg (writerOutput cfg obj).length)]
    rw [show (((writerOutput cfg obj).length : Int)).toNat
      = (writerOutput cfg obj).length from rfl]
  constructor
  · rw [readSegs, houter, Option.some_bind]
    rw [walkSegs, if_neg (by decide : ¬ ("0" : String) = "")]
    rw [hstep0, Option.bind_assoc]
    exact c5_embedBind rc cfg obj (combinerTwice (writerOutput cfg obj))
      50 g (g + 1 + 1 + 1) path (combinerTwice_sub0 (writerOutput cfg obj))
  · rw [readSegs, houter, Option.some_bind]
    rw [walkSegs, if_neg (by decide : ¬ ("1" : String) = "")]
    rw [hstep1, Option.bind_assoc]
    exact c5_embedBind rc cfg obj (combinerTwice (writerOutput cfg obj))
      (50 + (writerOutput cfg obj).length) g (g + 1 + 1 + 1) path
      (combinerTwice_sub1 (writerOutput cfg obj))

theorem c5_offset_relativity_witness :
    (5 : Nat) ≤ 5
    ∧ (readSegs 5 ⟨true, false, 1⟩
          (combinerTwice (writerOutput ⟨3, 2⟩ (PyObj.plist [PyObj.pint 7])))
          0 ["0"]
        = readSegs 5 ⟨true, false, 1⟩
            (writerOutput ⟨3, 2⟩ (PyObj.plist [PyObj.pint 7])) 0 []
      ∧ readSegs 5 ⟨true, false, 1⟩
          (combinerTwice (writerOutput ⟨3, 2⟩ (PyObj.plist [PyObj.pint 7])))
          0 ["1"]
        = readSegs 5 ⟨true, false, 1⟩
            (writerOutput ⟨3, 2⟩ (PyObj.plist [PyObj.pint 7])) 0 []) :=
  ⟨le_refl 5,
    c5_offset_relativity ⟨3, 2⟩ ⟨true, false, 1⟩
      (PyObj.plist [PyObj.pint 7]) [] 5 (le_refl 5)⟩

end Msglc
